import Mathlib

/-!
# A verification development for the mPickle serialization codec

This file embeds the mPickle codec (an object-graph serialization library
compatible with the pickle protocol family 0–5) in Lean 4 and proves
properties of it: the variable-length signed-integer codec, the text
codecs, the type-registration subsystem, the placeholder-module
lifecycle, and the encoder/decoder (Pickler/Unpickler) pair with its
round-trip and shared-reference guarantees.

Strings of the host language are represented as lists of Unicode code
points (`List Nat`), byte strings as lists of byte values (`List Nat`),
and machine integers as `Nat`/`Int` with explicit `% 2^w` where overflow
matters.
-/

set_option maxHeartbeats 1600000
set_option maxRecDepth 4000

namespace MPickle

/-! ## The integer codec

`encode_long`/`decode_long` convert between arbitrary-precision integers
and minimal-length little-endian two's-complement byte sequences.
-/

/-- Little-endian byte sequence of exactly `k` bytes for a natural number
(the number is taken modulo `2^(8k)`). -/
def toLE : Nat → Nat → List Nat
  | 0, _ => []
  | k+1, n => (n % 256) :: toLE k (n / 256)

/-- Interpret a little-endian byte sequence as a natural number. -/
def fromLE : List Nat → Nat
  | [] => 0
  | b :: bs => b + 256 * fromLE bs

/-- Fuel-indexed helper for `numBytesPos`; the fuel only drives the
recursion (any fuel at least the argument computes the fixed point). -/
def numBytesPosFuel : Nat → Nat → Nat
  | 0, _ => 1
  | fuel+1, n => if n < 128 then 1 else 1 + numBytesPosFuel fuel (n / 256)

/-- Number of bytes needed to represent a positive integer `n` in
two's-complement form with the sign readable off the high bit of the
last byte: the least `k ≥ 1` with `n < 2^(8k-1)`. -/
def numBytesPos (n : Nat) : Nat := numBytesPosFuel n n

/-- Fuel-indexed helper for `numBytesNeg`. -/
def numBytesNegFuel : Nat → Nat → Nat
  | 0, _ => 1
  | fuel+1, m => if m ≤ 128 then 1 else 1 + numBytesNegFuel fuel ((m + 255) / 256)

/-- Number of bytes needed to represent `-m` (for `m ≥ 1`) in
two's-complement form: the least `k ≥ 1` with `m ≤ 2^(8k-1)`. -/
def numBytesNeg (m : Nat) : Nat := numBytesNegFuel m m

theorem numBytesPosFuel_congr :
    ∀ f1 f2 n, n ≤ f1 → n ≤ f2 → numBytesPosFuel f1 n = numBytesPosFuel f2 n := by
  intro f1
  induction f1 with
  | zero =>
    intro f2 n h1 h2
    interval_cases n
    cases f2 with
    | zero => rfl
    | succ f2 => simp [numBytesPosFuel]
  | succ f1 ih =>
    intro f2 n h1 h2
    cases f2 with
    | zero =>
      interval_cases n
      simp [numBytesPosFuel]
    | succ f2 =>
      simp only [numBytesPosFuel]
      by_cases hn : n < 128
      · simp [hn]
      · simp only [hn, if_false]
        have hdiv : n / 256 < n := Nat.div_lt_self (by omega) (by omega)
        rw [ih f2 (n / 256) (by omega) (by omega)]

theorem numBytesPos_eq (n : Nat) :
    numBytesPos n = if n < 128 then 1 else 1 + numBytesPos (n / 256) := by
  unfold numBytesPos
  cases n with
  | zero => simp [numBytesPosFuel]
  | succ m =>
    simp only [numBytesPosFuel]
    by_cases hn : m + 1 < 128
    · simp [hn]
    · simp only [hn, if_false]
      have hdiv : (m + 1) / 256 < m + 1 := Nat.div_lt_self (by omega) (by omega)
      rw [numBytesPosFuel_congr m ((m + 1) / 256) ((m + 1) / 256) (by omega) (by omega)]

theorem numBytesNegFuel_congr :
    ∀ f1 f2 m, m ≤ f1 → m ≤ f2 → numBytesNegFuel f1 m = numBytesNegFuel f2 m := by
  intro f1
  induction f1 with
  | zero =>
    intro f2 m h1 h2
    interval_cases m
    cases f2 with
    | zero => rfl
    | succ f2 => simp [numBytesNegFuel]
  | succ f1 ih =>
    intro f2 m h1 h2
    cases f2 with
    | zero =>
      interval_cases m
      simp [numBytesNegFuel]
    | succ f2 =>
      simp only [numBytesNegFuel]
      by_cases hm : m ≤ 128
      · simp [hm]
      · simp only [hm, if_false]
        have hdiv : (m + 255) / 256 < m := by
          have h2 : m + 255 < m * 256 := by omega
          exact (Nat.div_lt_iff_lt_mul (by omega)).mpr h2
        rw [ih f2 ((m + 255) / 256) (by omega) (by omega)]

theorem numBytesNeg_eq (m : Nat) :
    numBytesNeg m = if m ≤ 128 then 1 else 1 + numBytesNeg ((m + 255) / 256) := by
  unfold numBytesNeg
  cases m with
  | zero => simp [numBytesNegFuel]
  | succ l =>
    simp only [numBytesNegFuel]
    by_cases hm : l + 1 ≤ 128
    · simp [hm]
    · simp only [hm, if_false]
      have hdiv : (l + 1 + 255) / 256 < l + 1 := by
        have h2 : l + 1 + 255 < (l + 1) * 256 := by omega
        exact (Nat.div_lt_iff_lt_mul (by omega)).mpr h2
      rw [numBytesNegFuel_congr l ((l + 1 + 255) / 256) ((l + 1 + 255) / 256)
        (by omega) (by omega)]

/-- Modelled from the spec: the integer codec's `encode` (§4.1), the
`encode_long` routine of the core module, which is not among the source
files; its behavior is pinned by the spec ("minimal-length byte sequence
representing `n` in little-endian two's-complement form, using the
fewest bytes such that the value's sign is unambiguous from the high bit
of the last byte; `encode(0)` returns an empty sequence") and by the
repository's test vectors in `TestEncodeDecodeLong`. -/
def encode_long (n : Int) : List Nat :=
  if n = 0 then []
  else if 0 < n then toLE (numBytesPos n.toNat) n.toNat
  else toLE (numBytesNeg n.natAbs) (2 ^ (8 * numBytesNeg n.natAbs) - n.natAbs)

/-- Modelled from the spec: the integer codec's `decode` (§4.1), the
`decode_long` routine of the core module, which is not among the source
files; "empty input decodes to `0`; the sign of the result is taken from
the highest-order bit of the last byte". -/
def decode_long (bs : List Nat) : Int :=
  if 128 ≤ bs.getLastD 0 then (fromLE bs : Int) - 2 ^ (8 * bs.length)
  else (fromLE bs : Int)

theorem toLE_length (k n : Nat) : (toLE k n).length = k := by
  induction k generalizing n with
  | zero => rfl
  | succ k ih => simp [toLE, ih]

theorem fromLE_toLE (k n : Nat) : fromLE (toLE k n) = n % 2 ^ (8 * k) := by
  induction k generalizing n with
  | zero => simp [toLE, fromLE, Nat.mod_one]
  | succ k ih =>
    simp only [toLE, fromLE, ih]
    have hmul : 2 ^ (8 * (k + 1)) = 256 * 2 ^ (8 * k) := by
      rw [show 8 * (k + 1) = 8 + 8 * k by ring, pow_add]; norm_num
    rw [hmul, Nat.mod_mul]

theorem fromLE_lt (bs : List Nat) (h : ∀ b ∈ bs, b < 256) :
    fromLE bs < 2 ^ (8 * bs.length) := by
  induction bs with
  | nil => simp [fromLE]
  | cons b bs ih =>
    have hb : b < 256 := h b (by simp)
    have hrest := ih (fun x hx => h x (by simp [hx]))
    simp only [fromLE, List.length_cons]
    have : 2 ^ (8 * (bs.length + 1)) = 256 * 2 ^ (8 * bs.length) := by
      rw [Nat.mul_add, pow_add]; norm_num; ring
    rw [this]; omega

theorem toLE_lt (k n : Nat) : ∀ b ∈ toLE k n, b < 256 := by
  induction k generalizing n with
  | zero => simp [toLE]
  | succ k ih =>
    intro b hb
    simp only [toLE, List.mem_cons] at hb
    rcases hb with h | h
    · omega
    · exact ih _ b h

theorem getLastD_of_ne_nil {l : List Nat} (h : l ≠ []) (d d' : Nat) :
    l.getLastD d = l.getLastD d' := by
  cases l with
  | nil => exact absurd rfl h
  | cons x xs => rfl

theorem toLE_getLastD (k n : Nat) :
    (toLE (k + 1) n).getLastD 0 = n / 2 ^ (8 * k) % 256 := by
  induction k generalizing n with
  | zero => simp [toLE]
  | succ k ih =>
    have hdef : toLE (k + 2) n = (n % 256) :: toLE (k + 1) (n / 256) := rfl
    have hne : toLE (k + 1) (n / 256) ≠ [] := by
      intro h
      have := toLE_length (k + 1) (n / 256)
      rw [h] at this; simp at this
    rw [hdef, List.getLastD_cons, getLastD_of_ne_nil hne (n % 256) 0, ih,
      Nat.div_div_eq_div_mul]
    congr 2
    rw [show 8 * (k + 1) = 8 * k + 8 by ring, pow_add]
    ring

theorem numBytesPos_ge_one (n : Nat) : 1 ≤ numBytesPos n := by
  rw [numBytesPos_eq]
  split <;> omega

theorem numBytesPos_upper (n : Nat) : n < 2 ^ (8 * numBytesPos n - 1) := by
  induction n using Nat.strong_induction_on with
  | _ n ih =>
    rw [numBytesPos_eq]
    split
    · norm_num; omega
    · rename_i h
      have hdiv : n / 256 < n := Nat.div_lt_self (by omega) (by omega)
      have hrec := ih (n / 256) hdiv
      have h1 := numBytesPos_ge_one (n / 256)
      set k := numBytesPos (n / 256) with hk
      have harith : 8 * (1 + k) - 1 = (8 * k - 1) + 8 := by omega
      rw [harith, pow_add]
      have : n < (n / 256 + 1) * 256 := by
        have := Nat.div_add_mod n 256
        omega
      calc n < (n / 256 + 1) * 256 := this
        _ ≤ 2 ^ (8 * k - 1) * 2 ^ 8 := by
            apply Nat.mul_le_mul
            · omega
            · norm_num

theorem numBytesPos_lower (n : Nat) (hn : 128 ≤ n) :
    2 ^ (8 * (numBytesPos n - 1) - 1) ≤ n := by
  induction n using Nat.strong_induction_on with
  | _ n ih =>
    rw [numBytesPos_eq]
    split
    · omega
    · rename_i h
      by_cases hsmall : n / 256 < 128
      · -- inner call returns 1, total 2: we need 2^7 ≤ n
        have : numBytesPos (n / 256) = 1 := by rw [numBytesPos_eq]; simp [hsmall]
        rw [this]
        norm_num; omega
      · have hdiv : n / 256 < n := Nat.div_lt_self (by omega) (by omega)
        have hrec := ih (n / 256) hdiv (by omega)
        have h1 := numBytesPos_ge_one (n / 256)
        set k := numBytesPos (n / 256) with hk
        have hk2 : 2 ≤ k := by
          rw [hk, numBytesPos_eq]
          split
          · omega
          · have := numBytesPos_ge_one (n / 256 / 256)
            omega
        have harith : 8 * (1 + k - 1) - 1 = (8 * (k - 1) - 1) + 8 := by omega
        rw [harith, pow_add]
        have hmul : 2 ^ (8 * (k - 1) - 1) * 2 ^ 8 ≤ (n / 256) * 256 := by
          apply Nat.mul_le_mul hrec
          norm_num
        have : (n / 256) * 256 ≤ n := by
          have := Nat.div_add_mod n 256
          omega
        omega

theorem numBytesNeg_ge_one (m : Nat) : 1 ≤ numBytesNeg m := by
  rw [numBytesNeg_eq]
  split <;> omega

theorem numBytesNeg_upper (m : Nat) : m ≤ 2 ^ (8 * numBytesNeg m - 1) := by
  induction m using Nat.strong_induction_on with
  | _ m ih =>
    rw [numBytesNeg_eq]
    split
    · norm_num; omega
    · rename_i h
      have hdiv : (m + 255) / 256 < m := by
        have h2 : m + 255 < m * 256 := by omega
        exact (Nat.div_lt_iff_lt_mul (by omega)).mpr h2
      have hrec := ih ((m + 255) / 256) hdiv
      have h1 := numBytesNeg_ge_one ((m + 255) / 256)
      set k := numBytesNeg ((m + 255) / 256) with hk
      have harith : 8 * (1 + k) - 1 = (8 * k - 1) + 8 := by omega
      rw [harith, pow_add]
      -- from ceil(m/256) ≤ 2^(8k-1) deduce m ≤ 2^(8k-1) * 256
      have hceil : m ≤ (m + 255) / 256 * 256 := by
        have := Nat.div_add_mod (m + 255) 256
        have hlt : (m + 255) % 256 < 256 := Nat.mod_lt _ (by omega)
        omega
      calc m ≤ (m + 255) / 256 * 256 := hceil
        _ ≤ 2 ^ (8 * k - 1) * 2 ^ 8 := by
            apply Nat.mul_le_mul hrec
            norm_num

theorem numBytesNeg_lower (m : Nat) (hm : 129 ≤ m) :
    2 ^ (8 * (numBytesNeg m - 1) - 1) < m := by
  induction m using Nat.strong_induction_on with
  | _ m ih =>
    rw [numBytesNeg_eq]
    split
    · omega
    · rename_i h
      by_cases hsmall : (m + 255) / 256 ≤ 128
      · have : numBytesNeg ((m + 255) / 256) = 1 := by rw [numBytesNeg_eq]; simp [hsmall]
        rw [this]
        norm_num; omega
      · have hdiv : (m + 255) / 256 < m := by
          have h2 : m + 255 < m * 256 := by omega
          exact (Nat.div_lt_iff_lt_mul (by omega)).mpr h2
        have hrec := ih ((m + 255) / 256) hdiv (by omega)
        have h1 := numBytesNeg_ge_one ((m + 255) / 256)
        set k := numBytesNeg ((m + 255) / 256) with hk
        have hk2 : 2 ≤ k := by
          rw [hk, numBytesNeg_eq]
          split
          · omega
          · have := numBytesNeg_ge_one (((m + 255) / 256 + 255) / 256)
            omega
        have harith : 8 * (1 + k - 1) - 1 = (8 * (k - 1) - 1) + 8 := by omega
        rw [harith, pow_add]
        -- from 2^(8(k-1)-1) < ceil(m/256) deduce 2^(8(k-1)-1) * 256 < m
        have hceil : (m + 255) / 256 * 256 < m + 256 := by
          have := Nat.div_add_mod (m + 255) 256
          omega
        have hmul : (2 ^ (8 * (k - 1) - 1) + 1) * 2 ^ 8 ≤ (m + 255) / 256 * 256 := by
          apply Nat.mul_le_mul
          · omega
          · norm_num
        have hpow : 1 ≤ 2 ^ (8 * (k - 1) - 1) := Nat.one_le_two_pow
        nlinarith [hmul, hceil]

theorem encode_long_valid (n : Int) : ∀ b ∈ encode_long n, b < 256 := by
  rw [encode_long]
  split
  · simp
  · split <;> exact toLE_lt _ _

theorem toLE_getLastD_of_pos (k v : Nat) (hk : 1 ≤ k) :
    (toLE k v).getLastD 0 = v / 2 ^ (8 * (k - 1)) % 256 := by
  obtain ⟨k', rfl⟩ : ∃ k', k = k' + 1 := ⟨k - 1, by omega⟩
  simpa using toLE_getLastD k' v

theorem pow_split_top (k : Nat) (hk : 1 ≤ k) :
    2 ^ (8 * k) = 2 ^ (8 * (k - 1)) * 256 ∧
    2 ^ (8 * k - 1) = 2 ^ (8 * (k - 1)) * 128 := by
  constructor
  · rw [show 8 * k = 8 * (k - 1) + 8 by omega, pow_add]; norm_num
  · rw [show 8 * k - 1 = 8 * (k - 1) + 7 by omega, pow_add]; norm_num

theorem decode_encode_pos (n : Int) (hn : 0 < n) :
    decode_long (encode_long n) = n := by
  rw [encode_long, if_neg (by omega), if_pos hn]
  have hk1 : 1 ≤ numBytesPos n.toNat := numBytesPos_ge_one n.toNat
  have hup : n.toNat < 2 ^ (8 * numBytesPos n.toNat - 1) := numBytesPos_upper n.toNat
  obtain ⟨hs1, hs2⟩ := pow_split_top (numBytesPos n.toNat) hk1
  have htop : (toLE (numBytesPos n.toNat) n.toNat).getLastD 0 < 128 := by
    rw [toLE_getLastD_of_pos _ _ hk1]
    have hdivlt : n.toNat / 2 ^ (8 * (numBytesPos n.toNat - 1)) < 128 := by
      rw [Nat.div_lt_iff_lt_mul (Nat.pos_pow_of_pos _ (by omega))]
      omega
    exact lt_of_le_of_lt (Nat.mod_le _ _) hdivlt
  rw [decode_long, if_neg (by omega), fromLE_toLE]
  have hlt : n.toNat < 2 ^ (8 * numBytesPos n.toNat) := by omega
  rw [Nat.mod_eq_of_lt hlt]
  omega

theorem decode_encode_neg (n : Int) (hn : n < 0) :
    decode_long (encode_long n) = n := by
  rw [encode_long, if_neg (by omega), if_neg (by omega)]
  have hm1 : 1 ≤ n.natAbs := by omega
  have hk1 : 1 ≤ numBytesNeg n.natAbs := numBytesNeg_ge_one n.natAbs
  have hup : n.natAbs ≤ 2 ^ (8 * numBytesNeg n.natAbs - 1) := numBytesNeg_upper n.natAbs
  obtain ⟨hs1, hs2⟩ := pow_split_top (numBytesNeg n.natAbs) hk1
  have hvlo : 2 ^ (8 * numBytesNeg n.natAbs - 1) ≤
      2 ^ (8 * numBytesNeg n.natAbs) - n.natAbs := by omega
  have hvhi : 2 ^ (8 * numBytesNeg n.natAbs) - n.natAbs <
      2 ^ (8 * numBytesNeg n.natAbs) := by
    have : 0 < 2 ^ (8 * numBytesNeg n.natAbs) := Nat.pos_pow_of_pos _ (by omega)
    omega
  have htop : 128 ≤
      (toLE (numBytesNeg n.natAbs) (2 ^ (8 * numBytesNeg n.natAbs) - n.natAbs)).getLastD 0 := by
    rw [toLE_getLastD_of_pos _ _ hk1]
    have hdge : 128 ≤ (2 ^ (8 * numBytesNeg n.natAbs) - n.natAbs) /
        2 ^ (8 * (numBytesNeg n.natAbs - 1)) := by
      rw [Nat.le_div_iff_mul_le (Nat.pos_pow_of_pos _ (by omega))]
      omega
    have hdlt : (2 ^ (8 * numBytesNeg n.natAbs) - n.natAbs) /
        2 ^ (8 * (numBytesNeg n.natAbs - 1)) < 256 := by
      rw [Nat.div_lt_iff_lt_mul (Nat.pos_pow_of_pos _ (by omega))]
      omega
    rw [Nat.mod_eq_of_lt hdlt]
    exact hdge
  rw [decode_long, if_pos htop, fromLE_toLE, toLE_length, Nat.mod_eq_of_lt hvhi]
  have hcast : ((2 ^ (8 * numBytesNeg n.natAbs) - n.natAbs : Nat) : Int) =
      (2 : Int) ^ (8 * numBytesNeg n.natAbs) - (n.natAbs : Int) := by
    rw [Nat.cast_sub (by omega)]
    push_cast
    ring
  rw [hcast]
  omega

theorem decode_encode_long (n : Int) : decode_long (encode_long n) = n := by
  rcases lt_trichotomy n 0 with h | h | h
  · exact decode_encode_neg n h
  · subst h; rw [encode_long, if_pos rfl]; rfl
  · exact decode_encode_pos n h

theorem fromLE_top_lt (bs : List Nat) (hv : ∀ b ∈ bs, b < 256)
    (ht : bs.getLastD 0 < 128) : fromLE bs < 2 ^ (8 * bs.length - 1) := by
  induction bs with
  | nil => simp [fromLE]
  | cons b t ih =>
    cases t with
    | nil =>
      have : fromLE [b] = b := by simp [fromLE]
      rw [this]
      simpa using ht
    | cons c t' =>
      have hne : (c :: t') ≠ [] := by simp
      have ht' : (c :: t').getLastD 0 < 128 := by
        rw [List.getLastD_cons] at ht
        rwa [getLastD_of_ne_nil hne 0 b]
      have hrec := ih (fun x hx => hv x (by simp [hx])) ht'
      have hb : b < 256 := hv b (by simp)
      simp only [fromLE, List.length_cons] at *
      have hexp : 8 * (t'.length + 1 + 1) - 1 = (8 * (t'.length + 1) - 1) + 8 := by
        omega
      rw [hexp, pow_add]
      rw [show (2 : Nat) ^ 8 = 256 from rfl]
      omega

theorem fromLE_top_ge (bs : List Nat) (hne : bs ≠ [])
    (ht : 128 ≤ bs.getLastD 0) : 2 ^ (8 * bs.length - 1) ≤ fromLE bs := by
  induction bs with
  | nil => exact absurd rfl hne
  | cons b t ih =>
    cases t with
    | nil =>
      have : fromLE [b] = b := by simp [fromLE]
      rw [this]
      simpa using ht
    | cons c t' =>
      have hne2 : (c :: t') ≠ [] := by simp
      have ht' : 128 ≤ (c :: t').getLastD 0 := by
        rw [List.getLastD_cons] at ht
        rwa [getLastD_of_ne_nil hne2 0 b]
      have hrec := ih hne2 ht'
      simp only [fromLE, List.length_cons] at *
      have hexp : 8 * (t'.length + 1 + 1) - 1 = (8 * (t'.length + 1) - 1) + 8 := by
        omega
      rw [hexp, pow_add]
      rw [show (2 : Nat) ^ 8 = 256 from rfl]
      omega

theorem numBytesPos_min (n L : Nat) (hL : 1 ≤ L) (h : n < 2 ^ (8 * L - 1)) :
    numBytesPos n ≤ L := by
  by_cases hsmall : n < 128
  · rw [numBytesPos_eq, if_pos hsmall]; omega
  · by_contra hcon
    push_neg at hcon
    have hlow := numBytesPos_lower n (by omega)
    have hmono : 2 ^ (8 * L - 1) ≤ 2 ^ (8 * (numBytesPos n - 1) - 1) :=
      Nat.pow_le_pow_right (by omega) (by omega)
    omega

theorem numBytesNeg_min (m L : Nat) (hL : 1 ≤ L) (h : m ≤ 2 ^ (8 * L - 1)) :
    numBytesNeg m ≤ L := by
  by_cases hsmall : m ≤ 128
  · rw [numBytesNeg_eq, if_pos hsmall]; omega
  · by_contra hcon
    push_neg at hcon
    have hlow := numBytesNeg_lower m (by omega)
    have hmono : 2 ^ (8 * L - 1) ≤ 2 ^ (8 * (numBytesNeg m - 1) - 1) :=
      Nat.pow_le_pow_right (by omega) (by omega)
    omega

theorem encode_long_minimal (n : Int) (bs : List Nat)
    (hv : ∀ b ∈ bs, b < 256) (h : decode_long bs = n) :
    (encode_long n).length ≤ bs.length := by
  rcases lt_trichotomy n 0 with hn | hn | hn
  · -- negative case
    have hne : bs ≠ [] := by
      intro he
      rw [he] at h
      simp [decode_long, fromLE] at h
      omega
    have hL : 1 ≤ bs.length := by
      cases bs with
      | nil => exact absurd rfl hne
      | cons x t => simp
    have hbr : 128 ≤ bs.getLastD 0 := by
      by_contra hc
      push_neg at hc
      rw [decode_long, if_neg (by omega)] at h
      omega
    have hge := fromLE_top_ge bs hne hbr
    have hlt := fromLE_lt bs hv
    rw [decode_long, if_pos hbr] at h
    have hbound : -(2 ^ (8 * bs.length - 1) : Int) ≤ n := by
      rw [← h]
      have h2 : (2 : Int) ^ (8 * bs.length - 1) * 2 = 2 ^ (8 * bs.length) := by
        rw [← pow_succ]
        congr 1
        omega
      have hc1 : (2 : Int) ^ (8 * bs.length - 1) ≤ (fromLE bs : Int) := by
        exact_mod_cast hge
      omega
    have hm : n.natAbs ≤ 2 ^ (8 * bs.length - 1) := by
      have : (n.natAbs : Int) = -n := by omega
      have h2 : ((2 : Nat) ^ (8 * bs.length - 1) : Int) = (2 : Int) ^ (8 * bs.length - 1) := by
        push_cast
        rfl
      omega
    rw [encode_long, if_neg (by omega), if_neg (by omega), toLE_length]
    exact numBytesNeg_min _ _ hL hm
  · subst hn
    rw [encode_long, if_pos rfl]
    simp
  · -- positive case
    have hne : bs ≠ [] := by
      intro he
      rw [he] at h
      simp [decode_long, fromLE] at h
      omega
    have hL : 1 ≤ bs.length := by
      cases bs with
      | nil => exact absurd rfl hne
      | cons x t => simp
    have hbr : bs.getLastD 0 < 128 := by
      by_contra hc
      push_neg at hc
      rw [decode_long, if_pos hc] at h
      have hlt := fromLE_lt bs hv
      have : (fromLE bs : Int) < 2 ^ (8 * bs.length) := by exact_mod_cast hlt
      omega
    have hup := fromLE_top_lt bs hv hbr
    rw [decode_long, if_neg (by omega)] at h
    have hnt : n.toNat < 2 ^ (8 * bs.length - 1) := by
      have : n.toNat = fromLE bs := by omega
      omega
    rw [encode_long, if_neg (by omega), if_pos hn, toLE_length]
    exact numBytesPos_min _ _ hL hnt

/-- C3: for every integer `n` (including magnitudes beyond 64 bits, since
`n` ranges over all of `Int`), `decode_long (encode_long n) = n`, and the
empty byte sequence decodes to `0`. The enumerated values `0`, `±1`,
`±127`, `±128`, `±255`, `±32767`, `±32768` are instances of the
universally quantified round trip. -/
theorem encode_decode_long_round_trip :
    (∀ n : Int, decode_long (encode_long n) = n) ∧ decode_long [] = 0 :=
  ⟨decode_encode_long, rfl⟩

/-- C4: `encode_long n` is a minimal-length little-endian
two's-complement representation of `n`: it decodes back to `n`, its
bytes are valid, no valid byte sequence that decodes to `n` is shorter,
`encode_long 0` is empty, `encode_long 127` is exactly one byte, and
`encode_long 128` is exactly two bytes whose second byte is zero. -/
theorem encode_long_minimal_twos_complement :
    (∀ n : Int, decode_long (encode_long n) = n ∧ ∀ b ∈ encode_long n, b < 256) ∧
    (∀ (n : Int) (bs : List Nat), (∀ b ∈ bs, b < 256) → decode_long bs = n →
      (encode_long n).length ≤ bs.length) ∧
    encode_long 0 = [] ∧ encode_long 127 = [127] ∧ encode_long 128 = [128, 0] :=
  ⟨fun n => ⟨decode_encode_long n, encode_long_valid n⟩,
   encode_long_minimal, by decide, by decide, by decide⟩

/-- Witness for C4's minimality hypothesis at a concrete input. -/
theorem encode_long_minimal_twos_complement_witness :
    (encode_long (300 : Int)).length ≤ ([44, 1] : List Nat).length :=
  encode_long_minimal_twos_complement.2.1 300 [44, 1] (by decide) (by decide)

/-! ## Text codecs (translated from `src/mPickle/mpickle/codecs.py`)

Host-language strings are represented by their lists of Unicode code
points (`ord` of each character). -/

inductive CodecError
  | unicodeEncodeError
  | valueError
deriving DecidableEq, Repr

namespace Codecs

/-- `ascii_encoder` from `codecs.py`:
`bytes([ord(char) for char in input_string if ord(char) < 128])`. -/
def ascii_encoder (s : List Nat) : List Nat :=
  (s.filter (fun c => c < 128))

/-- `latin1_encoder` from `codecs.py`:
`bytes([ord(char) for char in input_string if ord(char) < 256])`. -/
def latin1_encoder (s : List Nat) : List Nat :=
  (s.filter (fun c => c < 256))

/-- The per-character byte emission of `utf8_encoder` from `codecs.py`
(the body of its `for` loop, for a code point below `0x110000`). -/
def utf8Char (c : Nat) : List Nat :=
  if c < 0x80 then [c]
  else if c < 0x800 then [0xC0 ||| (c >>> 6), 0x80 ||| (c &&& 0x3F)]
  else if c < 0x10000 then
    [0xE0 ||| (c >>> 12), 0x80 ||| ((c >>> 6) &&& 0x3F), 0x80 ||| (c &&& 0x3F)]
  else
    [0xF0 ||| (c >>> 18), 0x80 ||| ((c >>> 12) &&& 0x3F),
     0x80 ||| ((c >>> 6) &&& 0x3F), 0x80 ||| (c &&& 0x3F)]

/-- `utf8_encoder` from `codecs.py`: encodes each code point in turn and
raises `UnicodeEncodeError` on a code point at or above `0x110000`. -/
def utf8_encoder : List Nat → Except CodecError (List Nat)
  | [] => .ok []
  | c :: rest =>
    if c < 0x110000 then
      match utf8_encoder rest with
      | .ok tail => .ok (utf8Char c ++ tail)
      | .error e => .error e
    else .error .unicodeEncodeError

/-- `encode` from `codecs.py`: dispatch on the encoding name; an
unsupported encoding raises `ValueError`. -/
def encode (s : List Nat) (encoding : String) : Except CodecError (List Nat) :=
  if encoding = "ascii" then .ok (ascii_encoder s)
  else if encoding = "latin1" then .ok (latin1_encoder s)
  else if encoding = "utf-8" then utf8_encoder s
  else .error .valueError

end Codecs

/-- C10: the text encoder's `ascii` mode returns exactly the bytes of the
characters whose code point is below 128, and its `latin1` mode exactly
those below 256, silently dropping every out-of-range character (the
result is always `ok`, never an encoding error), so out-of-range text
yields shortened output rather than a failure. -/
theorem codecs_encode_drops_out_of_range :
    (∀ s : List Nat,
      Codecs.encode s "ascii" = .ok (s.filter (fun c => c < 128)) ∧
      Codecs.encode s "latin1" = .ok (s.filter (fun c => c < 256))) ∧
    (∀ (s : List Nat) (c : Nat), c ∈ s → 128 ≤ c →
      (s.filter (fun c => c < 128)).length < s.length) ∧
    (∀ (s : List Nat) (c : Nat), c ∈ s → 256 ≤ c →
      (s.filter (fun c => c < 256)).length < s.length) := by
  refine ⟨fun s => ⟨rfl, rfl⟩, fun s c hc hge => ?_, fun s c hc hge => ?_⟩
  · apply List.length_filter_lt_length_iff_exists.mpr
    exact ⟨c, hc, by simpa using hge⟩
  · apply List.length_filter_lt_length_iff_exists.mpr
    exact ⟨c, hc, by simpa using hge⟩

/-- Witness for C10 at a concrete input: `"hé7"` (code points 104, 233,
55) in ascii mode drops the `é`. -/
theorem codecs_encode_drops_out_of_range_witness :
    Codecs.encode [104, 233, 55] "ascii" = .ok ([104, 233, 55].filter (fun c => c < 128)) ∧
    (([104, 233, 55] : List Nat).filter (fun c => c < 128)).length < ([104, 233, 55] : List Nat).length :=
  ⟨(codecs_encode_drops_out_of_range.1 [104, 233, 55]).1,
   codecs_encode_drops_out_of_range.2.1 [104, 233, 55] 233 (by decide) (by decide)⟩

/-! ## The type registry -/

/-- A decode-side function value; only its name is observable to the
registration bookkeeping. -/
structure FuncRef where
  name : String
deriving DecidableEq, Repr

/-- One entry of `registered_pickle_dict_list`. -/
structure RegEntry where
  obj_type : Nat
  obj_full_name : Option String
  obj_module : Option String
  obj_reconstructor_func : Option String
  reduce_func : Option FuncRef
  reconstruct_func : Option FuncRef
  setstate_func : Option FuncRef
  map_obj_module : Option String
  map_obj_full_name : Option String
  map_reconstructor_func : Option String
deriving DecidableEq, Repr

/-- Modelled from the spec: `register_pickle` (the Type Registry's
`register`, §4.3), whose implementation is not among the source files.
The reconstructor-path synthesis ("a fixed internal namespace plus the
function's name") and the handling of an explicitly given path are
pinned by the spec's words and by the repository's own tests
(`TestRegistrationSystem.test_register_pickle_with_existing_reconstructor_func`
asserts that when `obj_reconstructor_func` is supplied the entry keeps
that path verbatim and stores `None` for `reconstruct_func`;
`test_register_pickle_with_reconstructor_func_only` asserts the
synthesized path `"internal_reconstruct." + name` with the function
retained). -/
def register_pickle (obj_type : Nat) (obj_full_name obj_module : Option String)
    (obj_reconstructor_func : Option String)
    (reduce_func reconstruct_func setstate_func : Option FuncRef)
    (map_obj_module map_obj_full_name map_reconstructor_func : Option String)
    (reg : List RegEntry) : List RegEntry :=
  let stored_path : Option String :=
    match obj_reconstructor_func, reconstruct_func with
    | some p, _ => some p
    | none, some f => some ("internal_reconstruct." ++ f.name)
    | none, none => none
  let stored_fn : Option FuncRef :=
    match obj_reconstructor_func with
    | some _ => none
    | none => reconstruct_func
  reg ++ [{ obj_type := obj_type, obj_full_name := obj_full_name,
            obj_module := obj_module, obj_reconstructor_func := stored_path,
            reduce_func := reduce_func, reconstruct_func := stored_fn,
            setstate_func := setstate_func, map_obj_module := map_obj_module,
            map_obj_full_name := map_obj_full_name,
            map_reconstructor_func := map_reconstructor_func }]

/-- C8 counterexample: registering with both an explicit reconstructor
path and a `reconstruct_func` yields an entry whose `reconstruct_func`
slot is `None` — the function is NOT retained, contradicting the claim
(this mirrors `test_register_pickle_with_existing_reconstructor_func`,
which asserts `assertIsNone(reg_dict["reconstruct_func"])`). -/
theorem register_pickle_does_not_retain_fn :
    (register_pickle 1 none none (some "custom.module.reconstruct_func")
        none (some ⟨"reconstruct_func"⟩) none none none none []).map
      (fun e => (e.obj_reconstructor_func, e.reconstruct_func)) =
      [(some "custom.module.reconstruct_func", none)] ∧
    ¬ ((some (⟨"reconstruct_func"⟩ : FuncRef) : Option FuncRef) = none) := by
  constructor
  · rfl
  · simp

/-- C8 (amended): when an explicit reconstructor path is supplied, the
resulting registry entry preserves that path verbatim and stores `None`
in the `reconstruct_func` slot (the registered function is not retained;
the explicit path takes full precedence). -/
theorem register_pickle_explicit_path_entry
    (t : Nat) (fn md : Option String) (rp : String)
    (red rf ss : Option FuncRef) (m1 m2 m3 : Option String)
    (reg : List RegEntry) :
    ∃ e : RegEntry,
      register_pickle t fn md (some rp) red rf ss m1 m2 m3 reg = reg ++ [e] ∧
      e.obj_reconstructor_func = some rp ∧ e.reconstruct_func = none := by
  refine ⟨_, rfl, rfl, rfl⟩

/-! ## Placeholder modules

The synthetic-module table stands for the host's module registry
(`sys.modules`): each entry associates a module path — the segments of
the dotted name — with the list of symbol names the module exposes. -/

abbrev ModTable := List (List String × List String)

def lookupMod : ModTable → List String → Option (List String)
  | [], _ => none
  | e :: rest, q => if e.1 = q then some e.2 else lookupMod rest q

def isPresent (S : ModTable) (q : List String) : Bool :=
  (lookupMod S q).isSome

/-- Does some present module lie strictly below `q` in the package tree? -/
def hasSubmoduleB (S : ModTable) (q : List String) : Bool :=
  S.any (fun e => decide (q.length < e.1.length) && decide (e.1.take q.length = q))

def ensureMod (S : ModTable) (q : List String) : ModTable :=
  if isPresent S q then S else S ++ [(q, [])]

/-- All nonempty initial chains of a module path, shortest first
(for `a.b.c`: `a`, `a.b`, `a.b.c`). -/
def ancestorsIncl (p : List String) : List (List String) :=
  (List.range p.length).map (fun i => p.take (i + 1))

def addSymbol (S : ModTable) (p : List String) (sym : String) : ModTable :=
  S.map (fun e =>
    if e.1 = p then (e.1, if sym ∈ e.2 then e.2 else e.2 ++ [sym]) else e)

/-- Modelled from the spec: `inject_dummy_module_func` (the registry's
`inject_placeholder`, §4.3), absent from the source files: "creates, if
absent, a synthetic module chain (parent packages auto-created) exposing
a callable under `symbol_name`; repeated calls with the same path are
idempotent". -/
def inject_dummy_module_func (S : ModTable) (p : List String) (sym : String) :
    ModTable :=
  addSymbol ((ancestorsIncl p).foldl ensureMod S) p sym

def delMod (S : ModTable) (q : List String) : ModTable :=
  S.filter (fun e => decide (e.1 ≠ q))

def setSymbols (S : ModTable) (p : List String) (syms : List String) : ModTable :=
  S.map (fun e => if e.1 = p then (e.1, syms) else e)

/-- A module that is present yet has neither symbols nor submodules
(the removal cascade must never leave one behind on the removed path). -/
def dangling (S : ModTable) (q : List String) : Bool :=
  match lookupMod S q with
  | none => false
  | some syms => syms.isEmpty && !(hasSubmoduleB S q)

/-- The upward removal walk of `revert_dummy_module_func`: starting at the
owning module, delete it while it is present with no symbols and no
submodules, and continue with its parent package. The fuel is the path
length, which bounds the walk. -/
def cascadeFuel : Nat → ModTable → List String → ModTable
  | 0, S, _ => S
  | fuel+1, S, q =>
    if q.isEmpty then S
    else if dangling S q then cascadeFuel fuel (delMod S q) q.dropLast
    else S

/-- Modelled from the spec: `revert_dummy_module_func` (the registry's
`remove_placeholder`, §4.3), absent from the source files: "removes the
symbol; if the owning module becomes empty (no remaining symbols and no
submodules), the module itself is removed, cascading upward through
now-empty ancestor packages. Removing a non-existent symbol/module is a
no-op, never an error." -/
def revert_dummy_module_func (S : ModTable) (p : List String) (sym : String) :
    ModTable :=
  match lookupMod S p with
  | none => S
  | some syms =>
    if sym ∈ syms then
      cascadeFuel p.length (setSymbols S p (syms.erase sym)) p
    else S

/-- Is the symbol `sym` of module `p` resolvable in the table? -/
def resolvable (S : ModTable) (p : List String) (sym : String) : Bool :=
  match lookupMod S p with
  | none => false
  | some syms => decide (sym ∈ syms)

/-- Well-formedness of a module table: distinct module paths, and no
module lists a symbol twice (module attributes are a mapping). -/
def ModTableWF (S : ModTable) : Prop :=
  (S.map Prod.fst).Nodup ∧ ∀ e ∈ S, (e.2 : List String).Nodup

theorem isPresent_iff_mem_keys (S : ModTable) (q : List String) :
    isPresent S q = true ↔ q ∈ S.map Prod.fst := by
  induction S with
  | nil => simp [isPresent, lookupMod]
  | cons e rest ih =>
    simp only [isPresent, lookupMod, List.map_cons, List.mem_cons]
    by_cases he : e.1 = q
    · simp [he]
    · simp only [he, if_false]
      rw [isPresent] at ih
      rw [ih]
      constructor
      · exact Or.inr
      · rintro (h | h)
        · exact absurd h.symm he
        · exact h

theorem lookupMod_delMod_self (S : ModTable) (q : List String) :
    lookupMod (delMod S q) q = none := by
  induction S with
  | nil => rfl
  | cons e rest ih =>
    simp only [delMod, List.filter_cons]
    by_cases he : e.1 = q
    · simp only [he]
      simp only [decide_eq_true_eq]
      rw [if_neg (by simp)]
      exact ih
    · rw [if_pos (by simpa using he)]
      rw [lookupMod, if_neg he]
      exact ih

theorem lookupMod_delMod_ne (S : ModTable) (q r : List String) (h : r ≠ q) :
    lookupMod (delMod S q) r = lookupMod S r := by
  induction S with
  | nil => rfl
  | cons e rest ih =>
    simp only [delMod, List.filter_cons]
    by_cases he : e.1 = q
    · rw [if_neg (by simpa using he)]
      rw [lookupMod, if_neg (by rw [he]; exact fun hh => h hh.symm)]
      exact ih
    · rw [if_pos (by simpa using he)]
      rw [lookupMod, lookupMod]
      by_cases her : e.1 = r
      · simp [her]
      · rw [if_neg her, if_neg her]
        exact ih

theorem lookupMod_setSymbols_self (S : ModTable) (p : List String)
    (syms : List String) :
    lookupMod (setSymbols S p syms) p = (lookupMod S p).map (fun _ => syms) := by
  induction S with
  | nil => rfl
  | cons e rest ih =>
    simp only [setSymbols, List.map_cons]
    by_cases he : e.1 = p
    · rw [if_pos he]
      rw [lookupMod, if_pos he, lookupMod, if_pos he]
      rfl
    · rw [if_neg he]
      rw [lookupMod, if_neg he, lookupMod, if_neg he]
      exact ih

theorem lookupMod_setSymbols_ne (S : ModTable) (p r : List String)
    (syms : List String) (h : r ≠ p) :
    lookupMod (setSymbols S p syms) r = lookupMod S r := by
  induction S with
  | nil => rfl
  | cons e rest ih =>
    simp only [setSymbols, List.map_cons]
    by_cases he : e.1 = p
    · rw [if_pos he]
      rw [lookupMod, lookupMod, if_neg (by rw [he]; exact fun hh => h hh.symm),
        if_neg (by rw [he]; exact fun hh => h hh.symm)]
      exact ih
    · rw [if_neg he]
      rw [lookupMod, lookupMod]
      by_cases her : e.1 = r
      · simp [her]
      · rw [if_neg her, if_neg her]
        exact ih

theorem lookupMod_addSymbol_self (S : ModTable) (p : List String) (sym : String) :
    lookupMod (addSymbol S p sym) p =
      (lookupMod S p).map (fun syms => if sym ∈ syms then syms else syms ++ [sym]) := by
  induction S with
  | nil => rfl
  | cons e rest ih =>
    simp only [addSymbol, List.map_cons]
    by_cases he : e.1 = p
    · rw [if_pos he]
      rw [lookupMod, if_pos he, lookupMod, if_pos he]
      rfl
    · rw [if_neg he]
      rw [lookupMod, if_neg he, lookupMod, if_neg he]
      exact ih

theorem keys_setSymbols (S : ModTable) (p : List String) (syms : List String) :
    (setSymbols S p syms).map Prod.fst = S.map Prod.fst := by
  induction S with
  | nil => rfl
  | cons e rest ih =>
    simp only [setSymbols, List.map_cons] at *
    by_cases he : e.1 = p
    · rw [if_pos he]
      simp [ih]
    · rw [if_neg he]
      simp [ih]

theorem keys_addSymbol (S : ModTable) (p : List String) (sym : String) :
    (addSymbol S p sym).map Prod.fst = S.map Prod.fst := by
  induction S with
  | nil => rfl
  | cons e rest ih =>
    simp only [addSymbol, List.map_cons] at *
    by_cases he : e.1 = p
    · rw [if_pos he]
      simp [ih]
    · rw [if_neg he]
      simp [ih]

theorem isPresent_addSymbol (S : ModTable) (p q : List String) (sym : String) :
    isPresent (addSymbol S p sym) q = isPresent S q := by
  by_cases h : isPresent S q = true
  · have h2 : isPresent (addSymbol S p sym) q = true := by
      rw [isPresent_iff_mem_keys, keys_addSymbol]
      exact (isPresent_iff_mem_keys S q).mp h
    rw [h, h2]
  · have h2 : ¬ isPresent (addSymbol S p sym) q = true := by
      rw [isPresent_iff_mem_keys, keys_addSymbol]
      exact fun hm => h ((isPresent_iff_mem_keys S q).mpr hm)
    simp only [Bool.not_eq_true] at h h2
    rw [h, h2]

theorem lookupMod_mem (S : ModTable) (p syms : List String)
    (h : lookupMod S p = some syms) : (p, syms) ∈ S := by
  induction S with
  | nil => simp [lookupMod] at h
  | cons e rest ih =>
    rw [lookupMod] at h
    by_cases he : e.1 = p
    · rw [if_pos he] at h
      have : e = (p, syms) := by
        cases e
        simp only [Option.some_inj] at h
        simp_all
      simp [this]
    · rw [if_neg he] at h
      exact List.mem_cons_of_mem _ (ih h)

theorem keys_ensureMod (S : ModTable) (q : List String) :
    (ensureMod S q).map Prod.fst = S.map Prod.fst ∨
    (ensureMod S q).map Prod.fst = S.map Prod.fst ++ [q] := by
  rw [ensureMod]
  by_cases h : isPresent S q = true
  · rw [if_pos h]; exact Or.inl rfl
  · rw [if_neg h]; right; simp

theorem isPresent_ensureMod (S : ModTable) (q r : List String) :
    isPresent (ensureMod S q) r = true ↔ isPresent S r = true ∨ r = q := by
  rw [ensureMod]
  by_cases h : isPresent S q = true
  · rw [if_pos h]
    constructor
    · exact Or.inl
    · rintro (hr | rfl)
      · exact hr
      · exact h
  · rw [if_neg h]
    rw [isPresent_iff_mem_keys, isPresent_iff_mem_keys]
    simp

theorem isPresent_foldl_ensure (l : List (List String)) (S : ModTable)
    (q : List String) :
    isPresent (l.foldl ensureMod S) q = true ↔ isPresent S q = true ∨ q ∈ l := by
  induction l generalizing S with
  | nil => simp
  | cons a l ih =>
    rw [List.foldl_cons, ih, isPresent_ensureMod]
    simp only [List.mem_cons]
    tauto

theorem take_mem_ancestorsIncl (p : List String) (k : Nat) (hk1 : 1 ≤ k)
    (hk2 : k ≤ p.length) : p.take k ∈ ancestorsIncl p := by
  rw [ancestorsIncl, List.mem_map]
  exact ⟨k - 1, by simp [List.mem_range]; omega⟩

theorem self_mem_ancestorsIncl (p : List String) (hp : p ≠ []) :
    p ∈ ancestorsIncl p := by
  have h := take_mem_ancestorsIncl p p.length (by cases p <;> simp_all) le_rfl
  rwa [List.take_length] at h

theorem mem_ancestorsIncl_iff (p q : List String) :
    q ∈ ancestorsIncl p ↔ q ≠ [] ∧ q.length ≤ p.length ∧ q = p.take q.length := by
  rw [ancestorsIncl]
  simp only [List.mem_map, List.mem_range]
  constructor
  · rintro ⟨i, hi, rfl⟩
    have hlen : (p.take (i + 1)).length = i + 1 := by
      rw [List.length_take]
      omega
    refine ⟨?_, ?_, ?_⟩
    · intro h
      rw [h] at hlen
      simp at hlen
    · omega
    · rw [hlen]
  · rintro ⟨hne, hle, heq⟩
    have h1 : 1 ≤ q.length := by
      cases q with
      | nil => exact absurd rfl hne
      | cons a t => simp
    exact ⟨q.length - 1, by omega,
      by rw [show q.length - 1 + 1 = q.length by omega]; exact heq.symm⟩

theorem ModTableWF_ensureMod (S : ModTable) (q : List String)
    (h : ModTableWF S) : ModTableWF (ensureMod S q) := by
  obtain ⟨hkeys, hsyms⟩ := h
  rw [ensureMod]
  by_cases hq : isPresent S q = true
  · rw [if_pos hq]; exact ⟨hkeys, hsyms⟩
  · rw [if_neg hq]
    constructor
    · rw [List.map_append]
      simp only [List.map_cons, List.map_nil]
      rw [List.nodup_append]
      refine ⟨hkeys, by simp, ?_⟩
      intro a ha hb
      simp only [List.mem_singleton] at hb
      subst hb
      exact hq ((isPresent_iff_mem_keys S a).mpr ha)
    · intro e he
      rcases List.mem_append.mp he with h1 | h1
      · exact hsyms e h1
      · simp only [List.mem_singleton] at h1
        subst h1
        simp

theorem ModTableWF_foldl_ensure (l : List (List String)) (S : ModTable)
    (h : ModTableWF S) : ModTableWF (l.foldl ensureMod S) := by
  induction l generalizing S with
  | nil => exact h
  | cons a l ih => exact ih _ (ModTableWF_ensureMod S a h)

theorem lookupMod_nodup (S : ModTable) (p syms : List String)
    (hwf : ModTableWF S) (h : lookupMod S p = some syms) : syms.Nodup :=
  hwf.2 _ (lookupMod_mem S p syms h)

theorem cascadeFuel_nil (f : Nat) (S : ModTable) : cascadeFuel f S [] = S := by
  cases f with
  | zero => rfl
  | succ f => simp [cascadeFuel]

theorem isPresent_delMod_imp (S : ModTable) (q r : List String)
    (h : isPresent (delMod S q) r = true) : isPresent S r = true := by
  rw [isPresent_iff_mem_keys] at h ⊢
  rw [delMod] at h
  obtain ⟨e, he, rfl⟩ := List.mem_map.mp h
  exact List.mem_map.mpr ⟨e, List.mem_of_mem_filter he, rfl⟩

theorem cascadeFuel_not_present (f : Nat) (S : ModTable) (q r : List String)
    (h : isPresent S r = false) : isPresent (cascadeFuel f S q) r = false := by
  induction f generalizing S q with
  | zero => exact h
  | succ f ih =>
    rw [cascadeFuel]
    by_cases hq : q.isEmpty
    · rw [if_pos hq]; exact h
    · rw [if_neg hq]
      by_cases hbr : dangling S q = true
      · rw [if_pos hbr]
        apply ih
        by_contra hc
        simp only [Bool.not_eq_false] at hc
        have h2 := isPresent_delMod_imp S q r hc
        rw [h2] at h
        cases h
      · rw [if_neg hbr]
        exact h

theorem dangling_not_present (S : ModTable) (r : List String)
    (h : isPresent S r = false) : dangling S r = false := by
  rw [dangling]
  rw [isPresent] at h
  cases hl : lookupMod S r with
  | none => rfl
  | some syms => rw [hl] at h; simp at h

theorem hasSubmoduleB_of_present (S : ModTable) (q r : List String)
    (hq : isPresent S q = true) (hlen : r.length < q.length)
    (heq : r = q.take r.length) : hasSubmoduleB S r = true := by
  rw [isPresent] at hq
  cases hl : lookupMod S q with
  | none => rw [hl] at hq; simp at hq
  | some syms =>
    have hmem := lookupMod_mem S q syms hl
    rw [hasSubmoduleB, List.any_eq_true]
    refine ⟨(q, syms), hmem, ?_⟩
    simp only [Bool.and_eq_true, decide_eq_true_eq]
    exact ⟨hlen, heq.symm⟩

theorem dangling_eq_false_of_sub (S : ModTable) (r : List String)
    (h : hasSubmoduleB S r = true) : dangling S r = false := by
  rw [dangling]
  cases hl : lookupMod S r with
  | none => rfl
  | some syms => rw [h]; simp

theorem dangling_eq_false_of_not (S : ModTable) (q : List String)
    (h : ¬ dangling S q = true) : dangling S q = false := by
  simp only [Bool.not_eq_true] at h
  exact h

theorem dropLast_eq_take_pred : ∀ q : List String, q.dropLast = q.take (q.length - 1)
  | [] => rfl
  | [_] => rfl
  | a :: b :: t => by
    simp only [List.dropLast_cons₂, List.length_cons]
    rw [show (t.length + 1 + 1 - 1) = t.length + 1 by omega, List.take_succ_cons]
    rw [dropLast_eq_take_pred (b :: t)]
    simp only [List.length_cons]
    rw [show (t.length + 1 - 1) = t.length by omega]

theorem cascadeFuel_no_dangling :
    ∀ (fuel : Nat) (S : ModTable) (q : List String),
      q ≠ [] → q.length ≤ fuel →
      isPresent S q = true →
      (∀ r, r ≠ [] → r.length < q.length → r = q.take r.length →
        isPresent S r = true) →
      ∀ r, r ≠ [] → r.length ≤ q.length → r = q.take r.length →
        dangling (cascadeFuel fuel S q) r = false := by
  intro fuel
  induction fuel with
  | zero =>
    intro S q hq hlen
    have : q.length = 0 := by omega
    rw [List.length_eq_zero] at this
    exact absurd this hq
  | succ fuel ih =>
    intro S q hqne hfuel hpres hanc r hrne hrlen hreq
    rw [cascadeFuel]
    have hqe : ¬ (q.isEmpty = true) := by
      cases q with
      | nil => exact absurd rfl hqne
      | cons a t => simp
    rw [if_neg hqe]
    by_cases hd : dangling S q = true
    · rw [if_pos hd]
      by_cases hq1 : q.dropLast = []
      · rw [hq1, cascadeFuel_nil]
        have hql : q.length = 1 := by
          have h1 : q.dropLast.length = q.length - 1 := List.length_dropLast q
          rw [hq1] at h1
          simp only [List.length_nil] at h1
          have h2 : 1 ≤ q.length := by
            cases q with
            | nil => exact absurd rfl hqne
            | cons a t => simp
          omega
        have hrq : r = q := by
          have h1 : 1 ≤ r.length := by
            cases r with
            | nil => exact absurd rfl hrne
            | cons a t => simp
          have h2 : r.length = q.length := by omega
          rw [hreq, h2, List.take_length]
        rw [hrq]
        apply dangling_not_present
        rw [isPresent, lookupMod_delMod_self]
        rfl
      · have hdll : q.dropLast.length = q.length - 1 := List.length_dropLast q
        have hq2 : 1 ≤ q.length := by
          cases q with
          | nil => exact absurd rfl hqne
          | cons a t => simp
        have hdlq : q.dropLast = q.take (q.length - 1) := dropLast_eq_take_pred q
        have hdlne : q.dropLast ≠ q := by
          intro hcon
          have := congrArg List.length hcon
          rw [hdll] at this
          omega
        rcases Nat.lt_or_ge r.length q.length with hlt | hge
        · -- r is an ancestor chain of the parent; use the inductive step
          have hself : isPresent (delMod S q) q.dropLast = true := by
            rw [isPresent, lookupMod_delMod_ne S q q.dropLast hdlne]
            have h3 := hanc q.dropLast hq1 (by omega) (by rw [hdll]; exact hdlq)
            rwa [isPresent] at h3
          have hanc2 : ∀ r', r' ≠ [] → r'.length < q.dropLast.length →
              r' = q.dropLast.take r'.length → isPresent (delMod S q) r' = true := by
            intro r' hr'ne hr'len hr'eq
            have htt : q.dropLast.take r'.length = q.take r'.length := by
              rw [hdlq, List.take_take]
              congr 1
              omega
            rw [htt] at hr'eq
            have hr'nq : r' ≠ q := by
              intro hcon
              have := congrArg List.length hcon
              omega
            rw [isPresent, lookupMod_delMod_ne S q r' hr'nq]
            have h4 := hanc r' hr'ne (by omega) hr'eq
            rwa [isPresent] at h4
          have hreq2 : r = q.dropLast.take r.length := by
            have htt : q.dropLast.take r.length = q.take r.length := by
              rw [hdlq, List.take_take]
              congr 1
              omega
            rw [htt]
            exact hreq
          exact ih (delMod S q) q.dropLast hq1 (by omega) hself hanc2 r hrne
            (by omega) hreq2
        · -- r = q, which has been deleted
          have hrq : r = q := by
            have h2 : r.length = q.length := by omega
            rw [hreq, h2, List.take_length]
          rw [hrq]
          apply dangling_not_present
          apply cascadeFuel_not_present
          rw [isPresent, lookupMod_delMod_self]
          rfl
    · rw [if_neg hd]
      rcases Nat.lt_or_ge r.length q.length with hlt | hge
      · exact dangling_eq_false_of_sub S r
          (hasSubmoduleB_of_present S q r hpres hlt hreq)
      · have hrq : r = q := by
          have h2 : r.length = q.length := by omega
          rw [hreq, h2, List.take_length]
        rw [hrq]
        exact dangling_eq_false_of_not S q hd

theorem isPresent_setSymbols (S : ModTable) (p q : List String)
    (syms : List String) :
    isPresent (setSymbols S p syms) q = isPresent S q := by
  by_cases h : isPresent S q = true
  · have h2 : isPresent (setSymbols S p syms) q = true := by
      rw [isPresent_iff_mem_keys, keys_setSymbols]
      exact (isPresent_iff_mem_keys S q).mp h
    rw [h, h2]
  · have h2 : ¬ isPresent (setSymbols S p syms) q = true := by
      rw [isPresent_iff_mem_keys, keys_setSymbols]
      exact fun hm => h ((isPresent_iff_mem_keys S q).mpr hm)
    simp only [Bool.not_eq_true] at h h2
    rw [h, h2]

theorem resolvable_not_present (S : ModTable) (p : List String) (s : String)
    (h : isPresent S p = false) : resolvable S p s = false := by
  rw [resolvable]
  rw [isPresent] at h
  cases hl : lookupMod S p with
  | none => rfl
  | some syms => rw [hl] at h; simp at h

theorem inject_lookup_self (S : ModTable) (p : List String) (s : String)
    (hwf : ModTableWF S) (hp : p ≠ []) :
    ∃ syms, lookupMod (inject_dummy_module_func S p s) p = some syms ∧
      s ∈ syms ∧ syms.Nodup := by
  have hpres : isPresent ((ancestorsIncl p).foldl ensureMod S) p = true :=
    (isPresent_foldl_ensure _ S p).mpr (Or.inr (self_mem_ancestorsIncl p hp))
  rw [isPresent] at hpres
  cases hl : lookupMod ((ancestorsIncl p).foldl ensureMod S) p with
  | none => rw [hl] at hpres; simp at hpres
  | some syms0 =>
    have hwf1 : ModTableWF ((ancestorsIncl p).foldl ensureMod S) :=
      ModTableWF_foldl_ensure _ S hwf
    have hnd0 : syms0.Nodup := lookupMod_nodup _ p syms0 hwf1 hl
    rw [inject_dummy_module_func]
    rw [lookupMod_addSymbol_self, hl]
    refine ⟨if s ∈ syms0 then syms0 else syms0 ++ [s], rfl, ?_, ?_⟩
    · by_cases hs : s ∈ syms0
      · rw [if_pos hs]; exact hs
      · rw [if_neg hs]; simp
    · by_cases hs : s ∈ syms0
      · rw [if_pos hs]; exact hnd0
      · rw [if_neg hs]
        rw [List.nodup_append]
        refine ⟨hnd0, by simp, ?_⟩
        intro a ha hmem
        simp only [List.mem_singleton] at hmem
        subst hmem
        exact hs ha

theorem inject_present (S : ModTable) (p q : List String) (s : String)
    (hq : q ∈ ancestorsIncl p) :
    isPresent (inject_dummy_module_func S p s) q = true := by
  rw [inject_dummy_module_func, isPresent_addSymbol]
  exact (isPresent_foldl_ensure _ S q).mpr (Or.inr hq)

theorem resolvable_eq_decide (S : ModTable) (p : List String) (s : String)
    (syms : List String) (h : lookupMod S p = some syms) :
    resolvable S p s = decide (s ∈ syms) := by
  rw [resolvable]
  cases hl : lookupMod S p with
  | none => rw [hl] at h; cases h
  | some syms2 =>
    rw [hl] at h
    injection h with heq
    subst heq
    rfl

theorem revert_eq_of_lookup (S : ModTable) (p : List String) (sym : String)
    (syms : List String) (h : lookupMod S p = some syms) :
    revert_dummy_module_func S p sym =
      if sym ∈ syms then
        cascadeFuel p.length (setSymbols S p (syms.erase sym)) p
      else S := by
  rw [revert_dummy_module_func]
  cases hl : lookupMod S p with
  | none => rw [hl] at h; cases h
  | some syms2 =>
    rw [hl] at h
    injection h with heq
    subst heq
    rfl

/-- C9: the placeholder lifecycle. (1) Injecting a placeholder symbol and
then removing it leaves the symbol unresolvable. (2) After the removal,
no module on the injected path is left present-but-empty (no symbols and
no submodules): the owning module and every now-empty ancestor package
have been removed. (3) Removing a non-resolvable symbol (missing module
or missing symbol) is a no-op that returns the table unchanged — it is a
total function, so it never raises. -/
theorem placeholder_inject_remove_lifecycle :
    (∀ (S : ModTable) (p : List String) (s : String), ModTableWF S → p ≠ [] →
      resolvable
        (revert_dummy_module_func (inject_dummy_module_func S p s) p s) p s
        = false) ∧
    (∀ (S : ModTable) (p q : List String) (s : String), ModTableWF S → p ≠ [] →
      q ∈ ancestorsIncl p →
      dangling
        (revert_dummy_module_func (inject_dummy_module_func S p s) p s) q
        = false) ∧
    (∀ (S : ModTable) (p : List String) (s : String),
      resolvable S p s = false → revert_dummy_module_func S p s = S) := by
  refine ⟨?part1, ?part2, ?part3⟩
  case part1 =>
    intro S p s hwf hp
    obtain ⟨syms, hl, hs, hnd⟩ := inject_lookup_self S p s hwf hp
    rw [revert_eq_of_lookup _ p s syms hl, if_pos hs]
    obtain ⟨f, hf⟩ : ∃ f, p.length = f + 1 := by
      cases p with
      | nil => exact absurd rfl hp
      | cons a t => exact ⟨t.length, rfl⟩
    rw [hf, cascadeFuel]
    have hqe : ¬ (p.isEmpty = true) := by
      cases p with
      | nil => exact absurd rfl hp
      | cons a t => simp
    rw [if_neg hqe]
    by_cases hd :
        dangling (setSymbols (inject_dummy_module_func S p s) p (syms.erase s)) p = true
    · rw [if_pos hd]
      apply resolvable_not_present
      apply cascadeFuel_not_present
      rw [isPresent, lookupMod_delMod_self]
      rfl
    · rw [if_neg hd]
      have hS2 :
          lookupMod (setSymbols (inject_dummy_module_func S p s) p (syms.erase s)) p
            = some (syms.erase s) := by
        rw [lookupMod_setSymbols_self, hl]
        rfl
      rw [resolvable_eq_decide _ p s (syms.erase s) hS2]
      simp only [decide_eq_false_iff_not]
      rw [hnd.mem_erase_iff]
      simp
  case part2 =>
    intro S p q s hwf hp hq
    obtain ⟨syms, hl, hs, hnd⟩ := inject_lookup_self S p s hwf hp
    rw [revert_eq_of_lookup _ p s syms hl, if_pos hs]
    obtain ⟨hqne, hqlen, hqeq⟩ := (mem_ancestorsIncl_iff p q).mp hq
    apply cascadeFuel_no_dangling p.length _ p hp le_rfl
    · rw [isPresent_setSymbols]
      exact inject_present S p p s (self_mem_ancestorsIncl p hp)
    · intro r hrne hrlen hreq
      rw [isPresent_setSymbols]
      exact inject_present S p r s
        ((mem_ancestorsIncl_iff p r).mpr ⟨hrne, Nat.le_of_lt hrlen, hreq⟩)
    · exact hqne
    · exact hqlen
    · exact hqeq
  case part3 =>
    intro S p s hres
    cases hl : lookupMod S p with
    | none =>
      rw [revert_dummy_module_func, hl]
    | some syms =>
      rw [resolvable_eq_decide S p s syms hl] at hres
      simp only [decide_eq_false_iff_not] at hres
      rw [revert_eq_of_lookup S p s syms hl, if_neg hres]

/-- Witness for C9 at a concrete instance: inject `f` into `a.b.c` over
the empty table, remove it, and observe that `f` is unresolvable, that
the whole chain was cleaned up, and that a removal on the empty table is
a no-op. -/
theorem placeholder_inject_remove_lifecycle_witness :
    resolvable
      (revert_dummy_module_func
        (inject_dummy_module_func [] ["a", "b", "c"] "f") ["a", "b", "c"] "f")
      ["a", "b", "c"] "f" = false ∧
    dangling
      (revert_dummy_module_func
        (inject_dummy_module_func [] ["a", "b", "c"] "f") ["a", "b", "c"] "f")
      ["a"] = false ∧
    revert_dummy_module_func [] ["x"] "g" = [] :=
  ⟨placeholder_inject_remove_lifecycle.1 [] ["a", "b", "c"] "f"
      (by constructor <;> simp) (by simp),
   placeholder_inject_remove_lifecycle.2.1 [] ["a", "b", "c"] ["a"] "f"
      (by constructor <;> simp) (by simp) (by decide),
   placeholder_inject_remove_lifecycle.2.2 [] ["x"] "g" rfl⟩

/-! ## The object-graph codec: data model

Modelled from the spec: the Pickler/Unpickler core (§4.5, §4.6) lives in
`mpickle.py`, which is not among the source files; the definitions below
follow the spec's component design. The value universe (§3) is a graph:
`Node`s stored at addresses (list indices), object identity being
address equality. Atoms carry their payloads directly; floats and
complex numbers are binary64 bit patterns, strings are code-point lists,
byte strings are byte lists. -/

inductive Atom
  | noneA
  | boolA (b : Bool)
  | intA (n : Int)
  | floatA (bits : Nat)
  | complexA (re im : Nat)
  | strA (cps : List Nat)
  | bytesA (bs : List Nat)
deriving DecidableEq, Repr

/-- A dynamically-typed host value as returned by an object's reduce
hook: the Reconstruction Descriptor universe (a record of 2–6 slots when
well-formed, but the hook may return anything, e.g. a bare string). -/
inductive RawPy
  | rint (n : Int)
  | rstr (s : List Nat)
  | rtuple (elems : List RawPy)
  | rglobal (modPath qualName : List Nat)
deriving Repr

inductive Node
  | atomN (a : Atom)
  | listN (elems : List Nat)
  | tupleN (elems : List Nat)
  | dictN (kvs : List (Nat × Nat))
  | setN (elems : List Nat)
  | objN (rv : RawPy)
deriving Repr

structure Graph where
  nodes : List Node
  root : Nat
deriving Repr

/-- The child addresses a node references (dictionaries interleave key
and value addresses in iteration order). -/
def childAddrs : Node → List Nat
  | .atomN _ => []
  | .listN es => es
  | .tupleN es => es
  | .dictN kvs => kvs.flatMap (fun kv => [kv.1, kv.2])
  | .setN es => es
  | .objN _ => []

/-- The decoded-value universe. Every composite carries the instance id
assigned when the decoder materialized it (its memo id); two decoded
composites are the same host object precisely when they are the same
materialization, observed here as carrying the same id. `globalD` is a
resolved global reference and `objD` the (symbolic) result of calling a
reconstructor, with its optionally applied state. -/
inductive DVal
  | atomD (a : Atom)
  | listD (id : Nat) (elems : List DVal)
  | tupleD (id : Nat) (elems : List DVal)
  | dictD (id : Nat) (kvs : List (DVal × DVal))
  | setD (id : Nat) (elems : List DVal)
  | globalD (modPath qualName : List Nat)
  | objD (id : Nat) (callable : DVal) (args : List DVal) (state : Option DVal)
deriving Repr

/-- The error taxonomy (§7). -/
inductive MpErr
  | picklingError
  | unpicklingError
  | eofError
  | valueError
deriving DecidableEq, Repr

/-- Association lookup for memo tables. -/
def alook {α : Type} : List (Nat × α) → Nat → Option α
  | [], _ => none
  | e :: rest, k => if e.1 = k then some e.2 else alook rest k

/-! ## The Pickler (encoder) -/

structure EncSt where
  memo : List (Nat × Nat)
  nextId : Nat
deriving Repr

/-- Protocol-appropriate encoding of an atomic value (§4.5): fixed- or
variable-length opcodes, the large-integer forms backed by the integer
codec, binary64 big-endian floats, UTF-8 strings with short
(protocol ≥ 4) or 4-byte length-prefixed forms, byte strings with short
(protocol ≥ 3) or 4-byte length-prefixed forms. -/
def encodeAtom (p : Nat) (a : Atom) : Except MpErr (List Nat) :=
  match a with
  | .noneA => .ok [0x4E]
  | .boolA b => .ok [if b then 0x88 else 0x89]
  | .intA n =>
    if 1 ≤ p ∧ 0 ≤ n ∧ n < 256 then .ok [0x4B, n.toNat]
    else
      let bs := encode_long n
      if bs.length < 256 then .ok ([0x8A, bs.length] ++ bs)
      else if bs.length < 2 ^ 32 then .ok ([0x8B] ++ toLE 4 bs.length ++ bs)
      else .error .picklingError
  | .floatA bits =>
    if bits < 2 ^ 64 then .ok ([0x47] ++ (toLE 8 bits).reverse)
    else .error .picklingError
  | .complexA re im =>
    if re < 2 ^ 64 ∧ im < 2 ^ 64 then
      .ok ([0xA0] ++ (toLE 8 re).reverse ++ (toLE 8 im).reverse)
    else .error .picklingError
  | .strA cps =>
    match Codecs.utf8_encoder cps with
    | .error _ => .error .picklingError
    | .ok bs =>
      if 4 ≤ p ∧ bs.length < 256 then .ok ([0x8C, bs.length] ++ bs)
      else if bs.length < 2 ^ 32 then .ok ([0x58] ++ toLE 4 bs.length ++ bs)
      else .error .picklingError
  | .bytesA bs =>
    if 3 ≤ p ∧ bs.length < 256 then .ok ([0x43, bs.length] ++ bs)
    else if bs.length < 2 ^ 32 then .ok ([0x42] ++ toLE 4 bs.length ++ bs)
    else .error .picklingError

/-- Emit a put-memo opcode for a memo id (1-byte or 4-byte form). -/
def putBytes (id : Nat) : Except MpErr (List Nat) :=
  if id < 256 then .ok [0x71, id]
  else if id < 2 ^ 32 then .ok ([0x72] ++ toLE 4 id)
  else .error .picklingError

/-- Emit a get-memo opcode for a memo id (1-byte or 4-byte form). -/
def getBytes (id : Nat) : Except MpErr (List Nat) :=
  if id < 256 then .ok [0x68, id]
  else if id < 2 ^ 32 then .ok ([0x6A] ++ toLE 4 id)
  else .error .picklingError

/-- Emit a global-reference opcode: the qualified name as two
newline-terminated UTF-8 strings. An unencodable or newline-bearing name
(or a callable that is not a global reference at all) fails with
`PicklingError` — the Name Resolver cannot produce a qualified name. -/
def encGlobal : RawPy → Except MpErr (List Nat)
  | .rglobal modPath qualName =>
    match Codecs.utf8_encoder modPath, Codecs.utf8_encoder qualName with
    | .ok mb, .ok nb =>
      if 0x0A ∈ mb ∨ 0x0A ∈ nb then .error .picklingError
      else .ok ([0x63] ++ mb ++ [0x0A] ++ nb ++ [0x0A])
    | _, _ => .error .picklingError
  | _ => .error .picklingError

mutual

/-- Encode one raw (descriptor-payload) value. -/
def encRaw (p : Nat) : RawPy → Except MpErr (List Nat)
  | .rint n => encodeAtom p (.intA n)
  | .rstr s => encodeAtom p (.strA s)
  | .rglobal m q => encGlobal (.rglobal m q)
  | .rtuple elems =>
    match encRawList p elems with
    | .ok body => .ok ([0x28] ++ body ++ [0x74])
    | .error e => .error e

def encRawList (p : Nat) : List RawPy → Except MpErr (List Nat)
  | [] => .ok []
  | r :: rest =>
    match encRaw p r with
    | .ok b =>
      match encRawList p rest with
      | .ok bs => .ok (b ++ bs)
      | .error e => .error e
    | .error e => .error e

end

/-- Validate a Reconstruction Descriptor and emit the reduce-protocol
opcodes (§4.5): the result of a reduce hook must be a 2–6 element
record, its constructor-argument slot an ordered sequence, else
`PicklingError`; then a global reference for the callable, the argument
sequence, a REDUCE opcode, an optional state application. -/
def encReduce (p : Nat) (rv : RawPy) : Except MpErr (List Nat) :=
  match rv with
  | .rtuple elems =>
    if elems.length < 2 ∨ 6 < elems.length then .error .picklingError
    else
      match elems.get? 0, elems.get? 1 with
      | some callable, some (.rtuple args) =>
        match encGlobal callable with
        | .error e => .error e
        | .ok cb =>
          match encRawList p args with
          | .error e => .error e
          | .ok ab =>
            match elems.get? 2 with
            | none => .ok (cb ++ [0x28] ++ ab ++ [0x74, 0x52])
            | some st =>
              match encRaw p st with
              | .error e => .error e
              | .ok sb => .ok (cb ++ [0x28] ++ ab ++ [0x74, 0x52] ++ sb ++ [0x62])
      | some _, some _ => .error .picklingError
      | _, _ => .error .picklingError
  | _ => .error .picklingError

mutual

/-- Encode the value graph rooted at address `a` (§4.5): atoms directly
with no memoization; composites are looked up in the memo by identity
first (emitting a get-memo opcode on a hit), otherwise the next memo id
is assigned, the container is emitted with its contents in batched
form, and a put-memo opcode associates the id with the fully-built
value. -/
def encNode (g : Graph) (p : Nat) : Nat → Nat → EncSt → Except MpErr (List Nat × EncSt)
  | 0, _, _ => .error .picklingError
  | fuel+1, a, es =>
    match g.nodes.get? a with
    | none => .error .picklingError
    | some (.atomN at0) =>
      match encodeAtom p at0 with
      | .ok bs => .ok (bs, es)
      | .error e => .error e
    | some n =>
      match alook es.memo a with
      | some k =>
        match getBytes k with
        | .ok gb => .ok (gb, es)
        | .error e => .error e
      | none =>
        let id := es.nextId
        let es1 : EncSt := ⟨(a, id) :: es.memo, es.nextId + 1⟩
        match n with
        | .atomN _ => .error .picklingError
        | .listN elems =>
          match encAddrs g p fuel elems es1 with
          | .error e => .error e
          | .ok (body, es2) =>
            match putBytes id with
            | .error e => .error e
            | .ok pb => .ok ([0x5D, 0x28] ++ body ++ [0x65] ++ pb, es2)
        | .tupleN elems =>
          match encAddrs g p fuel elems es1 with
          | .error e => .error e
          | .ok (body, es2) =>
            match putBytes id with
            | .error e => .error e
            | .ok pb => .ok ([0x28] ++ body ++ [0x74] ++ pb, es2)
        | .dictN kvs =>
          match encAddrs g p fuel (kvs.flatMap (fun kv => [kv.1, kv.2])) es1 with
          | .error e => .error e
          | .ok (body, es2) =>
            match putBytes id with
            | .error e => .error e
            | .ok pb => .ok ([0x7D, 0x28] ++ body ++ [0x75] ++ pb, es2)
        | .setN elems =>
          match encAddrs g p fuel elems es1 with
          | .error e => .error e
          | .ok (body, es2) =>
            match putBytes id with
            | .error e => .error e
            | .ok pb => .ok ([0x8F, 0x28] ++ body ++ [0x90] ++ pb, es2)
        | .objN rv =>
          match encReduce p rv with
          | .error e => .error e
          | .ok body =>
            match putBytes id with
            | .error e => .error e
            | .ok pb => .ok (body ++ pb, es1)

/-- Encode a sequence of addresses in order, threading the memo state. -/
def encAddrs (g : Graph) (p : Nat) : Nat → List Nat → EncSt → Except MpErr (List Nat × EncSt)
  | _, [], es => .ok ([], es)
  | fuel, a :: rest, es =>
    match encNode g p fuel a es with
    | .error e => .error e
    | .ok (b1, es1) =>
      match encAddrs g p fuel rest es1 with
      | .error e => .error e
      | .ok (b2, es2) => .ok (b1 ++ b2, es2)

end

/-- Modelled from the spec: `dumps` (§6). An explicitly requested
protocol outside `[0, HIGHEST_PROTOCOL]` fails with `ValueError` before
any bytes are emitted (§4.5). For protocol ≥ 2 a PROTO marker leads the
stream; for protocol ≥ 4 the body is wrapped in a length-prefixed frame
once the payload exceeds a small threshold (§4.4); the stream ends with
a STOP opcode. -/
def HIGHEST_PROTOCOL : Int := 5

def dumps (g : Graph) (p : Int) : Except MpErr (List Nat) :=
  if p < 0 ∨ HIGHEST_PROTOCOL < p then .error .valueError
  else
    match encNode g p.toNat (g.root + 1) g.root ⟨[], 0⟩ with
    | .error e => .error e
    | .ok (body, _) =>
      let payload := body ++ [0x2E]
      let framed :=
        if 4 ≤ p.toNat ∧ 4 ≤ payload.length then
          [0x95] ++ toLE 8 payload.length ++ payload
        else payload
      let header := if 2 ≤ p.toNat then [0x80, p.toNat] else []
      .ok (header ++ framed)

/-! ## The Unpickler (decoder)

A stack machine (§4.6): an operand stack of `DVal`s, a mark stack of
stack-depth snapshots, a memo table from memo ids to values. The main
loop reads one opcode byte, dispatches, and repeats until STOP; an
exhausted source at an opcode boundary is `EOFError`, any truncated
argument read, unknown opcode, stack-depth violation or invalid memo
reference is `UnpicklingError`. -/

/-- Modelled from the spec: the decode-side text decoder for the
"declared encoding" of string opcodes (§4.6, §6); reassembles UTF-8
sequences (leniently: over-long forms are accepted). `utf8Step` decodes
one code point from a lead byte and the following bytes. -/
def utf8Step (b : Nat) (rest : List Nat) : Option (Nat × List Nat) :=
  if b < 0x80 then some (b, rest)
  else if b < 0xC0 then none
  else if b < 0xE0 then
    match rest with
    | b2 :: rest2 =>
      if 0x80 ≤ b2 ∧ b2 < 0xC0 then
        some ((b - 0xC0) * 64 + (b2 - 0x80), rest2)
      else none
    | _ => none
  else if b < 0xF0 then
    match rest with
    | b2 :: b3 :: rest2 =>
      if 0x80 ≤ b2 ∧ b2 < 0xC0 ∧ 0x80 ≤ b3 ∧ b3 < 0xC0 then
        some ((b - 0xE0) * 4096 + (b2 - 0x80) * 64 + (b3 - 0x80), rest2)
      else none
    | _ => none
  else if b < 0xF8 then
    match rest with
    | b2 :: b3 :: b4 :: rest2 =>
      if 0x80 ≤ b2 ∧ b2 < 0xC0 ∧ 0x80 ≤ b3 ∧ b3 < 0xC0 ∧ 0x80 ≤ b4 ∧ b4 < 0xC0 then
        some ((b - 0xF0) * 262144 + (b2 - 0x80) * 4096 + (b3 - 0x80) * 64 + (b4 - 0x80),
          rest2)
      else none
    | _ => none
  else none

def utf8DecodeFuel : Nat → List Nat → Option (List Nat)
  | _, [] => some []
  | 0, _ :: _ => none
  | fuel+1, b :: rest =>
    match utf8Step b rest with
    | some (c, rest2) => (utf8DecodeFuel fuel rest2).map (c :: ·)
    | none => none

def utf8Decode (bs : List Nat) : Option (List Nat) :=
  utf8DecodeFuel bs.length bs

structure UState where
  stack : List DVal
  marks : List Nat
  memo : List (Nat × DVal)
deriving Repr

/-- Read exactly `n` argument bytes. -/
def readN (n : Nat) (bs : List Nat) : Option (List Nat × List Nat) :=
  if n ≤ bs.length then some (bs.take n, bs.drop n) else none

/-- Read bytes up to and including a newline; the newline is consumed
but not returned. -/
def readline1 : List Nat → Option (List Nat × List Nat)
  | [] => none
  | b :: rest =>
    if b = 0x0A then some ([], rest)
    else
      match readline1 rest with
      | some (line, rest2) => some (b :: line, rest2)
      | none => none

/-- Replace a freshly memoized composite's instance id (atoms and
global references are unaffected). -/
def DVal.setId : DVal → Nat → DVal
  | .listD _ es, id => .listD id es
  | .tupleD _ es, id => .tupleD id es
  | .dictD _ kvs, id => .dictD id kvs
  | .setD _ es, id => .setD id es
  | .objD _ c as st, id => .objD id c as st
  | v, _ => v

/-- Pair up a flat key/value run (fails on an odd-length run). -/
def pairUpO {α : Type} : List α → Option (List (α × α))
  | [] => some []
  | a :: b :: rest => (pairUpO rest).map (fun l => (a, b) :: l)
  | [_] => none

/-- Pop the values pushed since the last mark (in push order) and drop
that mark. -/
def popToMark (st : UState) : Option (List DVal × UState) :=
  match st.marks with
  | [] => none
  | d :: ms =>
    let k := st.stack.length - d
    some ((st.stack.take k).reverse, ⟨st.stack.drop k, ms, st.memo⟩)

def push (st : UState) (v : DVal) : UState :=
  ⟨v :: st.stack, st.marks, st.memo⟩

/-- One opcode dispatch (§4.6): returns the decode result on STOP, or
the remaining bytes and successor state. -/
def doOp (op : Nat) (bs : List Nat) (st : UState) :
    Except MpErr (Sum DVal (List Nat × UState)) :=
  match op with
  | 0x2E =>   -- STOP: the single remaining top of stack is the result
    match st.stack with
    | v :: _ => .ok (.inl v)
    | [] => .error .unpicklingError
  | 0x28 =>   -- MARK: push the stack depth onto the mark stack
    .ok (.inr (bs, ⟨st.stack, st.stack.length :: st.marks, st.memo⟩))
  | 0x4E => .ok (.inr (bs, push st (.atomD .noneA)))          -- NONE
  | 0x88 => .ok (.inr (bs, push st (.atomD (.boolA true))))   -- NEWTRUE
  | 0x89 => .ok (.inr (bs, push st (.atomD (.boolA false))))  -- NEWFALSE
  | 0x4B =>   -- BININT1
    match bs with
    | b :: rest => .ok (.inr (rest, push st (.atomD (.intA b))))
    | [] => .error .unpicklingError
  | 0x8A =>   -- LONG1: 1-byte length, then integer-codec payload
    match bs with
    | n :: rest =>
      match readN n rest with
      | some (payload, rest2) =>
        .ok (.inr (rest2, push st (.atomD (.intA (decode_long payload)))))
      | none => .error .unpicklingError
    | [] => .error .unpicklingError
  | 0x8B =>   -- LONG4: 4-byte length, then integer-codec payload
    match readN 4 bs with
    | some (lb, rest) =>
      match readN (fromLE lb) rest with
      | some (payload, rest2) =>
        .ok (.inr (rest2, push st (.atomD (.intA (decode_long payload)))))
      | none => .error .unpicklingError
    | none => .error .unpicklingError
  | 0x47 =>   -- BINFLOAT: 8 bytes big-endian
    match readN 8 bs with
    | some (payload, rest) =>
      .ok (.inr (rest, push st (.atomD (.floatA (fromLE payload.reverse)))))
    | none => .error .unpicklingError
  | 0xA0 =>   -- COMPLEX: two binary64 big-endian patterns
    match readN 8 bs with
    | some (rb, rest) =>
      match readN 8 rest with
      | some (ib, rest2) =>
        .ok (.inr (rest2, push st
          (.atomD (.complexA (fromLE rb.reverse) (fromLE ib.reverse)))))
      | none => .error .unpicklingError
    | none => .error .unpicklingError
  | 0x8C =>   -- SHORT_BINUNICODE
    match bs with
    | n :: rest =>
      match readN n rest with
      | some (payload, rest2) =>
        match utf8Decode payload with
        | some cps => .ok (.inr (rest2, push st (.atomD (.strA cps))))
        | none => .error .unpicklingError
      | none => .error .unpicklingError
    | [] => .error .unpicklingError
  | 0x58 =>   -- BINUNICODE
    match readN 4 bs with
    | some (lb, rest) =>
      match readN (fromLE lb) rest with
      | some (payload, rest2) =>
        match utf8Decode payload with
        | some cps => .ok (.inr (rest2, push st (.atomD (.strA cps))))
        | none => .error .unpicklingError
      | none => .error .unpicklingError
    | none => .error .unpicklingError
  | 0x43 =>   -- SHORT_BINBYTES
    match bs with
    | n :: rest =>
      match readN n rest with
      | some (payload, rest2) =>
        .ok (.inr (rest2, push st (.atomD (.bytesA payload))))
      | none => .error .unpicklingError
    | [] => .error .unpicklingError
  | 0x42 =>   -- BINBYTES
    match readN 4 bs with
    | some (lb, rest) =>
      match readN (fromLE lb) rest with
      | some (payload, rest2) =>
        .ok (.inr (rest2, push st (.atomD (.bytesA payload))))
      | none => .error .unpicklingError
    | none => .error .unpicklingError
  | 0x5D => .ok (.inr (bs, push st (.listD 0 [])))    -- EMPTY_LIST
  | 0x7D => .ok (.inr (bs, push st (.dictD 0 [])))    -- EMPTY_DICT
  | 0x8F => .ok (.inr (bs, push st (.setD 0 [])))     -- EMPTY_SET
  | 0x29 => .ok (.inr (bs, push st (.tupleD 0 [])))   -- EMPTY_TUPLE
  | 0x74 =>   -- TUPLE: pop to mark, build immutable sequence
    match popToMark st with
    | some (items, st2) => .ok (.inr (bs, push st2 (.tupleD 0 items)))
    | none => .error .unpicklingError
  | 0x65 =>   -- APPENDS: pop to mark, extend the list below
    match popToMark st with
    | some (items, st2) =>
      match st2.stack with
      | .listD id xs :: rest =>
        .ok (.inr (bs, ⟨.listD id (xs ++ items) :: rest, st2.marks, st2.memo⟩))
      | _ => .error .unpicklingError
    | none => .error .unpicklingError
  | 0x75 =>   -- SETITEMS: pop to mark, update the dict below
    match popToMark st with
    | some (items, st2) =>
      match pairUpO items with
      | some pairs =>
        match st2.stack with
        | .dictD id kvs :: rest =>
          .ok (.inr (bs, ⟨.dictD id (kvs ++ pairs) :: rest, st2.marks, st2.memo⟩))
        | _ => .error .unpicklingError
      | none => .error .unpicklingError
    | none => .error .unpicklingError
  | 0x90 =>   -- ADDITEMS: pop to mark, extend the set below
    match popToMark st with
    | some (items, st2) =>
      match st2.stack with
      | .setD id xs :: rest =>
        .ok (.inr (bs, ⟨.setD id (xs ++ items) :: rest, st2.marks, st2.memo⟩))
      | _ => .error .unpicklingError
    | none => .error .unpicklingError
  | 0x71 =>   -- BINPUT
    match bs with
    | id :: rest =>
      match st.stack with
      | v :: vs =>
        .ok (.inr (rest,
          ⟨v.setId id :: vs, st.marks, (id, v.setId id) :: st.memo⟩))
      | [] => .error .unpicklingError
    | [] => .error .unpicklingError
  | 0x72 =>   -- LONG_BINPUT
    match readN 4 bs with
    | some (ib, rest) =>
      match st.stack with
      | v :: vs =>
        .ok (.inr (rest,
          ⟨v.setId (fromLE ib) :: vs, st.marks, (fromLE ib, v.setId (fromLE ib)) :: st.memo⟩))
      | [] => .error .unpicklingError
    | none => .error .unpicklingError
  | 0x68 =>   -- BINGET: an unknown id fails with UnpicklingError
    match bs with
    | id :: rest =>
      match alook st.memo id with
      | some v => .ok (.inr (rest, push st v))
      | none => .error .unpicklingError
    | [] => .error .unpicklingError
  | 0x6A =>   -- LONG_BINGET
    match readN 4 bs with
    | some (ib, rest) =>
      match alook st.memo (fromLE ib) with
      | some v => .ok (.inr (rest, push st v))
      | none => .error .unpicklingError
    | none => .error .unpicklingError
  | 0x80 =>   -- PROTO: self-describing protocol marker
    match bs with
    | v :: rest =>
      if v ≤ 5 then .ok (.inr (rest, st)) else .error .valueError
    | [] => .error .unpicklingError
  | 0x95 =>   -- FRAME: consume the 8-byte header; reassembly of the
              -- contiguous payloads is transparent to the dispatch loop
    match readN 8 bs with
    | some (_, rest) => .ok (.inr (rest, st))
    | none => .error .unpicklingError
  | 0x63 =>   -- GLOBAL: two newline-terminated names
    match readline1 bs with
    | some (mb, rest) =>
      match readline1 rest with
      | some (nb, rest2) =>
        match utf8Decode mb, utf8Decode nb with
        | some m, some n => .ok (.inr (rest2, push st (.globalD m n)))
        | _, _ => .error .unpicklingError
      | none => .error .unpicklingError
    | none => .error .unpicklingError
  | 0x52 =>   -- REDUCE: pop args (an ordered sequence) and a callable
    match st.stack with
    | .tupleD _ args :: callable :: rest =>
      .ok (.inr (bs, ⟨.objD 0 callable args none :: rest, st.marks, st.memo⟩))
    | _ => .error .unpicklingError
  | 0x62 =>   -- BUILD: pop a state value and an object, apply the state
    match st.stack with
    | state :: .objD id c as _ :: rest =>
      .ok (.inr (bs, ⟨.objD id c as (some state) :: rest, st.marks, st.memo⟩))
    | _ => .error .unpicklingError
  | _ => .error .unpicklingError

/-- The decoder main loop. The fuel is only an induction handle: every
step consumes at least its opcode byte, so any fuel above the input
length computes the machine's result; `none` cannot occur then. -/
def run : Nat → List Nat → UState → Option (Except MpErr DVal)
  | 0, _, _ => none
  | _+1, [], _ => some (.error .eofError)
  | fuel+1, op :: bs, st =>
    match doOp op bs st with
    | .error e => some (.error e)
    | .ok (.inl v) => some (.ok v)
    | .ok (.inr (bs2, st2)) => run fuel bs2 st2

/-- Modelled from the spec: `loads` (§6). It takes only the byte stream;
the protocol is self-describing (§4.6), never supplied by the caller. -/
def loads (bs : List Nat) : Except MpErr DVal :=
  match run (bs.length + 1) bs ⟨[], [], []⟩ with
  | some r => r
  | none => .error .unpicklingError

/-! ## Error classification (malformed input, invalid protocol, bad descriptors) -/

/-- C5: decoding an empty byte sequence raises `EOFError` (exhaustion at
an opcode boundary is incomplete input), decoding a single invalid
opcode byte followed by nothing raises `UnpicklingError`, and decoding a
truncated frame header (a FRAME opcode with fewer than 8 length bytes)
raises `UnpicklingError`; the two error kinds are distinct, so callers
can tell incomplete input from invalid input. -/
theorem loads_malformed_input_classification :
    loads [] = .error .eofError ∧
    loads [0xFF] = .error .unpicklingError ∧
    loads [0x80, 0x05, 0x95, 0x00] = .error .unpicklingError ∧
    (MpErr.eofError ≠ MpErr.unpicklingError) :=
  ⟨rfl, rfl, rfl, by decide⟩

/-- C6: an explicitly requested protocol outside `[0, HIGHEST_PROTOCOL]`
fails with `ValueError` before any bytes are emitted (the result carries
no bytes for any value graph). -/
theorem dumps_invalid_protocol_value_error :
    ∀ (g : Graph) (p : Int), (p < 0 ∨ HIGHEST_PROTOCOL < p) →
      dumps g p = .error .valueError := by
  intro g p hp
  rw [dumps, if_pos hp]

/-- Witness for C6 at concrete inputs: protocols `-1` and `6`. -/
theorem dumps_invalid_protocol_value_error_witness :
    dumps ⟨[], 0⟩ (-1) = .error .valueError ∧
    dumps ⟨[], 0⟩ 6 = .error .valueError :=
  ⟨dumps_invalid_protocol_value_error ⟨[], 0⟩ (-1) (Or.inl (by decide)),
   dumps_invalid_protocol_value_error ⟨[], 0⟩ 6 (Or.inr (by decide))⟩

theorem encReduce_not_record (p : Nat) (rv : RawPy)
    (h : ∀ elems, rv ≠ .rtuple elems) :
    encReduce p rv = .error .picklingError := by
  cases rv with
  | rint n => rfl
  | rstr s => rfl
  | rglobal m q => rfl
  | rtuple elems => exact absurd rfl (h elems)

theorem encReduce_bad_length (p : Nat) (elems : List RawPy)
    (h : elems.length < 2 ∨ 6 < elems.length) :
    encReduce p (.rtuple elems) = .error .picklingError := by
  rw [encReduce, if_pos h]

theorem encReduce_bad_args (p : Nat) (elems : List RawPy) (arg1 : RawPy)
    (hlen : 2 ≤ elems.length) (hlen2 : elems.length ≤ 6)
    (h1 : elems.get? 1 = some arg1) (hna : ∀ xs, arg1 ≠ .rtuple xs) :
    encReduce p (.rtuple elems) = .error .picklingError := by
  rw [encReduce, if_neg (by omega)]
  cases he0 : elems.get? 0 with
  | none =>
    have h0 := List.get?_eq_none.mp he0
    omega
  | some e0 =>
    simp only [he0, h1]

/-- C7: during encode, a Reconstruction Descriptor that is not a 2–6
element record (e.g. a bare string), or whose constructor-argument slot
is not an ordered sequence, makes `dumps` fail with `PicklingError`
(stated for the object at the root of the graph, over every valid
protocol). -/
theorem dumps_bad_reduce_pickling_error :
    ∀ (g : Graph) (p : Int) (rv : RawPy), 0 ≤ p → p ≤ HIGHEST_PROTOCOL →
      g.nodes.get? g.root = some (.objN rv) →
      ((∀ elems, rv ≠ .rtuple elems) ∨
       (∃ elems, rv = .rtuple elems ∧ (elems.length < 2 ∨ 6 < elems.length)) ∨
       (∃ elems arg1, rv = .rtuple elems ∧ 2 ≤ elems.length ∧ elems.length ≤ 6 ∧
         elems.get? 1 = some arg1 ∧ ∀ xs, arg1 ≠ .rtuple xs)) →
      dumps g p = .error .picklingError := by
  intro g p rv hp0 hp5 hroot hbad
  have hred : encReduce p.toNat rv = .error .picklingError := by
    rcases hbad with h | ⟨elems, rfl, h⟩ | ⟨elems, arg1, rfl, h2, h6, h1, hna⟩
    · exact encReduce_not_record p.toNat rv h
    · exact encReduce_bad_length p.toNat elems h
    · exact encReduce_bad_args p.toNat elems arg1 h2 h6 h1 hna
  have henc : encNode g p.toNat (g.root + 1) g.root ⟨[], 0⟩ =
      .error .picklingError := by
    rw [encNode]
    simp only [hroot, alook, hred]
  rw [dumps, if_neg (by simp only [HIGHEST_PROTOCOL] at hp5 ⊢; omega), henc]

/-- Witness for C7 at a concrete input: an object whose reduce hook
returned the bare string `"h"`, at protocol 3. -/
theorem dumps_bad_reduce_pickling_error_witness :
    dumps ⟨[.objN (.rstr [104])], 0⟩ 3 = .error .picklingError :=
  dumps_bad_reduce_pickling_error ⟨[.objN (.rstr [104])], 0⟩ 3 (.rstr [104])
    (by decide) (by decide) rfl
    (Or.inl (fun elems h => RawPy.noConfusion h))

/-! ## Well-formed value graphs

`Graph.wfB` delimits the builtin-value universe the round-trip and
identity-preservation properties quantify over: a closed graph whose
references always point at strictly smaller addresses (object graphs
are acyclic — circular references are out of scope, §9), whose atoms
respect the wire format's size limits, and without reduce-protocol
objects. -/

def Atom.wfB : Atom → Bool
  | .noneA => true
  | .boolA _ => true
  | .intA n => decide ((encode_long n).length < 2 ^ 32)
  | .floatA bits => decide (bits < 2 ^ 64)
  | .complexA re im => decide (re < 2 ^ 64) && decide (im < 2 ^ 64)
  | .strA cps => cps.all (fun c => decide (c < 0x110000)) && decide (cps.length < 2 ^ 30)
  | .bytesA bs => bs.all (fun b => decide (b < 256)) && decide (bs.length < 2 ^ 32)

def Node.wfB : Node → Nat → Bool
  | .atomN at0, _ => at0.wfB
  | .objN _, _ => false
  | .listN es, a => (childAddrs (.listN es)).all (fun c => decide (c < a))
  | .tupleN es, a => (childAddrs (.tupleN es)).all (fun c => decide (c < a))
  | .dictN kvs, a => (childAddrs (.dictN kvs)).all (fun c => decide (c < a))
  | .setN es, a => (childAddrs (.setN es)).all (fun c => decide (c < a))

def Graph.wfB (g : Graph) : Bool :=
  decide (g.root < g.nodes.length) && decide (g.nodes.length < 2 ^ 32) &&
  (List.range g.nodes.length).all (fun a =>
    match g.nodes.get? a with
    | some n => n.wfB a
    | none => false)

theorem Graph.wfB_node {g : Graph} (hwf : g.wfB = true) {a : Nat}
    (ha : a < g.nodes.length) :
    ∃ n, g.nodes.get? a = some n ∧ n.wfB a = true := by
  rw [Graph.wfB, Bool.and_eq_true, Bool.and_eq_true] at hwf
  obtain ⟨⟨_, _⟩, hall⟩ := hwf
  rw [List.all_eq_true] at hall
  have := hall a (List.mem_range.mpr ha)
  cases hn : g.nodes.get? a with
  | none => rw [hn] at this; cases this
  | some n => rw [hn] at this; exact ⟨n, rfl, this⟩

theorem Graph.wfB_root {g : Graph} (hwf : g.wfB = true) :
    g.root < g.nodes.length := by
  rw [Graph.wfB, Bool.and_eq_true, Bool.and_eq_true] at hwf
  exact of_decide_eq_true hwf.1.1

theorem Graph.wfB_size {g : Graph} (hwf : g.wfB = true) :
    g.nodes.length < 2 ^ 32 := by
  rw [Graph.wfB, Bool.and_eq_true, Bool.and_eq_true] at hwf
  exact of_decide_eq_true hwf.1.2

theorem Node.wfB_child {n : Node} {a : Nat} (hwf : n.wfB a = true)
    (hno : ∀ at0, n ≠ .atomN at0) {c : Nat} (hc : c ∈ childAddrs n) : c < a := by
  cases n with
  | atomN at0 => exact absurd rfl (hno at0)
  | objN rv => cases hwf
  | listN es =>
    rw [Node.wfB, List.all_eq_true] at hwf
    exact of_decide_eq_true (hwf c hc)
  | tupleN es =>
    rw [Node.wfB, List.all_eq_true] at hwf
    exact of_decide_eq_true (hwf c hc)
  | dictN kvs =>
    rw [Node.wfB, List.all_eq_true] at hwf
    exact of_decide_eq_true (hwf c hc)
  | setN es =>
    rw [Node.wfB, List.all_eq_true] at hwf
    exact of_decide_eq_true (hwf c hc)

/-! ## The reference denotation

`denNode` computes, with no bytes involved, the value the decoder
reconstructs for a graph address: it mirrors the encoder's memo
discipline (ids assigned at first encounter, pre-order) and records each
fully-built composite in `vals`. It is the bridge between `dumps` and
`loads` in the simulation proof. -/

structure DenSt where
  es : EncSt
  vals : List (Nat × DVal)
deriving Repr

mutual

def denNode (g : Graph) : Nat → Nat → DenSt → Option (DVal × DenSt)
  | 0, _, _ => none
  | fuel+1, a, ds =>
    match g.nodes.get? a with
    | none => none
    | some (.atomN at0) => some (.atomD at0, ds)
    | some n =>
      match alook ds.es.memo a with
      | some _ =>
        match alook ds.vals a with
        | some v => some (v, ds)
        | none => none
      | none =>
        let id := ds.es.nextId
        let ds1 : DenSt := ⟨⟨(a, id) :: ds.es.memo, ds.es.nextId + 1⟩, ds.vals⟩
        match n with
        | .atomN _ => none
        | .objN _ => none
        | .listN elems =>
          match denAddrs g fuel elems ds1 with
          | none => none
          | some (vs, ds2) =>
            some (.listD id vs, ⟨ds2.es, (a, .listD id vs) :: ds2.vals⟩)
        | .tupleN elems =>
          match denAddrs g fuel elems ds1 with
          | none => none
          | some (vs, ds2) =>
            some (.tupleD id vs, ⟨ds2.es, (a, .tupleD id vs) :: ds2.vals⟩)
        | .dictN kvs =>
          match denAddrs g fuel (kvs.flatMap (fun kv => [kv.1, kv.2])) ds1 with
          | none => none
          | some (vs, ds2) =>
            match pairUpO vs with
            | none => none
            | some pairs =>
              some (.dictD id pairs, ⟨ds2.es, (a, .dictD id pairs) :: ds2.vals⟩)
        | .setN elems =>
          match denAddrs g fuel elems ds1 with
          | none => none
          | some (vs, ds2) =>
            some (.setD id vs, ⟨ds2.es, (a, .setD id vs) :: ds2.vals⟩)

def denAddrs (g : Graph) : Nat → List Nat → DenSt → Option (List DVal × DenSt)
  | _, [], ds => some ([], ds)
  | fuel, a :: rest, ds =>
    match denNode g fuel a ds with
    | none => none
    | some (v, ds1) =>
      match denAddrs g fuel rest ds1 with
      | none => none
      | some (vs, ds2) => some (v :: vs, ds2)

end

/-! ## UTF-8 round trip -/

theorem utf8_encoder_ok (cps : List Nat) (h : ∀ c ∈ cps, c < 0x110000) :
    Codecs.utf8_encoder cps = .ok (cps.flatMap Codecs.utf8Char) := by
  induction cps with
  | nil => rfl
  | cons c rest ih =>
    rw [Codecs.utf8_encoder, if_pos (h c (by simp)), ih (fun x hx => h x (by simp [hx]))]
    simp [List.flatMap_cons]

theorem utf8Char_length_pos (c : Nat) : 1 ≤ (Codecs.utf8Char c).length := by
  rw [Codecs.utf8Char]
  split
  · simp
  · split
    · simp
    · split <;> simp

theorem lor_c0 : ∀ k, k < 64 → 0xC0 ||| k = 0xC0 + k := by decide
theorem lor_80 : ∀ k, k < 64 → 0x80 ||| k = 0x80 + k := by decide
theorem lor_e0 : ∀ k, k < 16 → 0xE0 ||| k = 0xE0 + k := by decide
theorem lor_f0 : ∀ k, k < 8 → 0xF0 ||| k = 0xF0 + k := by decide

theorem and_63 (c : Nat) : c &&& 0x3F = c % 64 :=
  Nat.and_pow_two_sub_one_eq_mod c 6

theorem shr_6 (c : Nat) : c >>> 6 = c / 64 := Nat.shiftRight_eq_div_pow c 6
theorem shr_12 (c : Nat) : c >>> 12 = c / 4096 := Nat.shiftRight_eq_div_pow c 12
theorem shr_18 (c : Nat) : c >>> 18 = c / 262144 := Nat.shiftRight_eq_div_pow c 18

theorem utf8Step_char (c : Nat) (hc : c < 0x110000) (rest : List Nat) :
    ∃ x tail, Codecs.utf8Char c = x :: tail ∧ utf8Step x (tail ++ rest) = some (c, rest) := by
  rw [Codecs.utf8Char]
  by_cases h1 : c < 0x80
  · rw [if_pos h1]
    refine ⟨c, [], rfl, ?_⟩
    simp only [List.nil_append]
    unfold utf8Step
    rw [if_pos h1]
  · rw [if_neg h1]
    by_cases h2 : c < 0x800
    · rw [if_pos h2]
      have hb1 : 0xC0 ||| (c >>> 6) = 0xC0 + c / 64 := by
        rw [shr_6]; exact lor_c0 _ (by omega)
      have hb2 : 0x80 ||| (c &&& 0x3F) = 0x80 + c % 64 := by
        rw [and_63]; exact lor_80 _ (by omega)
      refine ⟨_, _, rfl, ?_⟩
      simp only [List.cons_append, List.nil_append, hb1, hb2]
      unfold utf8Step
      rw [if_neg (by omega), if_neg (by omega), if_pos (by omega)]
      simp only []
      rw [if_pos (by omega)]
      have hval : (0xC0 + c / 64 - 0xC0) * 64 + (0x80 + c % 64 - 0x80) = c := by omega
      rw [hval]
    · rw [if_neg h2]
      by_cases h3 : c < 0x10000
      · rw [if_pos h3]
        have hb1 : 0xE0 ||| (c >>> 12) = 0xE0 + c / 4096 := by
          rw [shr_12]; exact lor_e0 _ (by omega)
        have hb2 : 0x80 ||| ((c >>> 6) &&& 0x3F) = 0x80 + c / 64 % 64 := by
          rw [shr_6, and_63]; exact lor_80 _ (by omega)
        have hb3 : 0x80 ||| (c &&& 0x3F) = 0x80 + c % 64 := by
          rw [and_63]; exact lor_80 _ (by omega)
        refine ⟨_, _, rfl, ?_⟩
        simp only [List.cons_append, List.nil_append, hb1, hb2, hb3]
        unfold utf8Step
        rw [if_neg (by omega), if_neg (by omega), if_neg (by omega),
          if_pos (by omega)]
        simp only []
        rw [if_pos (by refine ⟨by omega, by omega, by omega, by omega⟩)]
        have hval : (0xE0 + c / 4096 - 0xE0) * 4096 + (0x80 + c / 64 % 64 - 0x80) * 64 +
            (0x80 + c % 64 - 0x80) = c := by
          have e1 : c / 64 / 64 = c / 4096 := by rw [Nat.div_div_eq_div_mul]
          have e2 := Nat.div_add_mod (c / 64) 64
          have e3 := Nat.div_add_mod c 64
          have e5 : c / 4096 * 4096 + c / 64 % 64 * 64 + c % 64 = c := by
            nlinarith [e1, e2, e3]
          omega
        rw [hval]
      · rw [if_neg h3]
        have hb1 : 0xF0 ||| (c >>> 18) = 0xF0 + c / 262144 := by
          rw [shr_18]; exact lor_f0 _ (by omega)
        have hb2 : 0x80 ||| ((c >>> 12) &&& 0x3F) = 0x80 + c / 4096 % 64 := by
          rw [shr_12, and_63]; exact lor_80 _ (by omega)
        have hb3 : 0x80 ||| ((c >>> 6) &&& 0x3F) = 0x80 + c / 64 % 64 := by
          rw [shr_6, and_63]; exact lor_80 _ (by omega)
        have hb4 : 0x80 ||| (c &&& 0x3F) = 0x80 + c % 64 := by
          rw [and_63]; exact lor_80 _ (by omega)
        refine ⟨_, _, rfl, ?_⟩
        simp only [List.cons_append, List.nil_append, hb1, hb2, hb3, hb4]
        unfold utf8Step
        rw [if_neg (by omega), if_neg (by omega), if_neg (by omega),
          if_neg (by omega), if_pos (by omega)]
        simp only []
        rw [if_pos (by
          refine ⟨by omega, by omega, by omega, by omega, by omega, by omega⟩)]
        have hval : (0xF0 + c / 262144 - 0xF0) * 262144 +
            (0x80 + c / 4096 % 64 - 0x80) * 4096 +
            (0x80 + c / 64 % 64 - 0x80) * 64 + (0x80 + c % 64 - 0x80) = c := by
          have e1 : c / 64 / 64 = c / 4096 := by rw [Nat.div_div_eq_div_mul]
          have e0 : c / 4096 / 64 = c / 262144 := by rw [Nat.div_div_eq_div_mul]
          have e2 := Nat.div_add_mod (c / 4096) 64
          have e3 := Nat.div_add_mod (c / 64) 64
          have e4 := Nat.div_add_mod c 64
          have e5 : c / 262144 * 262144 + c / 4096 % 64 * 4096 +
              c / 64 % 64 * 64 + c % 64 = c := by
            nlinarith [e0, e1, e2, e3, e4]
          omega
        rw [hval]

theorem utf8DecodeFuel_char (fuel : Nat) (c : Nat) (hc : c < 0x110000)
    (rest : List Nat) :
    utf8DecodeFuel (fuel + 1) (Codecs.utf8Char c ++ rest) =
      (utf8DecodeFuel fuel rest).map (c :: ·) := by
  obtain ⟨x, tail, hchar, hstep⟩ := utf8Step_char c hc rest
  rw [hchar]
  simp only [List.cons_append]
  rw [utf8DecodeFuel, hstep]

theorem utf8DecodeFuel_flat (cps : List Nat) :
    ∀ fuel, cps.length ≤ fuel → (∀ c ∈ cps, c < 0x110000) →
      utf8DecodeFuel fuel (cps.flatMap Codecs.utf8Char) = some cps := by
  induction cps with
  | nil =>
    intro fuel hf hc
    cases fuel <;> rfl
  | cons c rest ih =>
    intro fuel hf hc
    obtain ⟨f, rfl⟩ : ∃ f, fuel = f + 1 := ⟨fuel - 1, by simp at hf ⊢; omega⟩
    rw [List.flatMap_cons, utf8DecodeFuel_char f c (hc c (by simp)),
      ih f (by simp at hf; omega) (fun x hx => hc x (by simp [hx]))]
    rfl

theorem utf8Decode_flat (cps : List Nat) (hc : ∀ c ∈ cps, c < 0x110000) :
    utf8Decode (cps.flatMap Codecs.utf8Char) = some cps := by
  rw [utf8Decode]
  apply utf8DecodeFuel_flat cps _ _ hc
  clear hc
  induction cps with
  | nil => simp
  | cons c2 rest ih =>
    simp only [List.flatMap_cons, List.length_append, List.length_cons]
    have h1 := utf8Char_length_pos c2
    omega

/-! ## Decoder-run composition

`Runs bs st st'` : started in `st` on input `bs` followed by anything,
the decoder performs some number of opcode steps that consume exactly
`bs` and reach `st'`. Each step consumes at least its opcode byte, so
the step count is bounded by the byte count; the quantified tail makes
the relation compose. -/

def Runs (bs : List Nat) (st st' : UState) : Prop :=
  ∃ m, m ≤ bs.length ∧ ∀ k rest, run (m + k) (bs ++ rest) st = run k rest st'

theorem runs_refl (st : UState) : Runs [] st st :=
  ⟨0, Nat.le_refl 0, fun k rest => by simp⟩

theorem runs_trans {bs1 bs2 : List Nat} {st1 st2 st3 : UState}
    (h1 : Runs bs1 st1 st2) (h2 : Runs bs2 st2 st3) :
    Runs (bs1 ++ bs2) st1 st3 := by
  obtain ⟨m1, hm1, hr1⟩ := h1
  obtain ⟨m2, hm2, hr2⟩ := h2
  refine ⟨m1 + m2, by simp; omega, fun k rest => ?_⟩
  calc run (m1 + m2 + k) (bs1 ++ bs2 ++ rest) st1
      = run (m1 + (m2 + k)) (bs1 ++ (bs2 ++ rest)) st1 := by
        rw [Nat.add_assoc, List.append_assoc]
    _ = run (m2 + k) (bs2 ++ rest) st2 := hr1 (m2 + k) (bs2 ++ rest)
    _ = run k rest st3 := hr2 k rest

theorem runs_single {op : Nat} {args : List Nat} {st st' : UState}
    (h : ∀ rest, doOp op (args ++ rest) st = .ok (.inr (rest, st'))) :
    Runs (op :: args) st st' := by
  refine ⟨1, by simp, fun k rest => ?_⟩
  show run (1 + k) (op :: (args ++ rest)) st = run k rest st'
  rw [Nat.add_comm, run, h rest]

/-! ## Argument-reading lemmas -/

theorem readN_exact (xs rest : List Nat) :
    readN xs.length (xs ++ rest) = some (xs, rest) := by
  rw [readN, if_pos (by simp)]
  rw [List.take_left, List.drop_left]

theorem readN_len {n : Nat} (xs rest : List Nat) (h : xs.length = n) :
    readN n (xs ++ rest) = some (xs, rest) := by
  rw [← h]; exact readN_exact xs rest

/-! ## Association-list lemmas -/

theorem alook_cons_self {α : Type} (k : Nat) (v : α) (l : List (Nat × α)) :
    alook ((k, v) :: l) k = some v := by
  rw [alook, if_pos rfl]

theorem alook_cons_ne {α : Type} (k k' : Nat) (v : α) (l : List (Nat × α))
    (h : k ≠ k') : alook ((k, v) :: l) k' = alook l k' := by
  rw [alook, if_neg h]

theorem alook_eq_none_iff {α : Type} (l : List (Nat × α)) (k : Nat) :
    alook l k = none ↔ k ∉ l.map Prod.fst := by
  induction l with
  | nil => simp [alook]
  | cons e rest ih =>
    rw [alook]
    by_cases h : e.1 = k
    · simp [h]
    · simp only [if_neg h, ih, List.map_cons, List.mem_cons]
      constructor
      · intro hn hmem
        rcases hmem with h1 | h2
        · exact h h1.symm
        · exact hn h2
      · intro hn
        exact fun h2 => hn (Or.inr h2)

theorem alook_append_left {α : Type} (l1 l2 : List (Nat × α)) (k : Nat)
    (h : k ∉ l1.map Prod.fst) : alook (l1 ++ l2) k = alook l2 k := by
  induction l1 with
  | nil => rfl
  | cons e rest ih =>
    rw [List.cons_append, alook]
    simp only [List.map_cons, List.mem_cons] at h
    rw [if_neg (fun he => h (Or.inl he.symm))]
    exact ih (fun h2 => h (Or.inr h2))

theorem alook_append_isSome {α : Type} (l1 l2 : List (Nat × α)) (k : Nat)
    (h : (alook l2 k).isSome = true) : (alook (l1 ++ l2) k).isSome = true := by
  induction l1 with
  | nil => exact h
  | cons e rest ih =>
    rw [List.cons_append, alook]
    by_cases he : e.1 = k
    · rw [if_pos he]; rfl
    · rw [if_neg he]; exact ih

theorem alook_mem {α : Type} (l : List (Nat × α)) (k : Nat) (v : α)
    (h : alook l k = some v) : (k, v) ∈ l := by
  induction l with
  | nil => cases h
  | cons e rest ih =>
    rw [alook] at h
    by_cases he : e.1 = k
    · rw [if_pos he] at h
      injection h with h
      subst h; subst he
      exact List.mem_cons_self e rest
    · rw [if_neg he] at h
      exact List.mem_cons_of_mem e (ih h)

theorem alook_isSome_iff {α : Type} (l : List (Nat × α)) (k : Nat) :
    (alook l k).isSome = true ↔ k ∈ l.map Prod.fst := by
  rcases ha : alook l k with _ | v
  · simp only [Option.isSome_none]
    rw [alook_eq_none_iff] at ha
    simp [ha]
  · simp only [Option.isSome_some, true_iff]
    exact List.mem_map_of_mem Prod.fst (alook_mem l k v ha)

/-! ## Per-opcode step lemmas -/

theorem popToMark_eq (vs stk : List DVal) (marks : List Nat)
    (memo : List (Nat × DVal)) :
    popToMark ⟨vs.reverse ++ stk, stk.length :: marks, memo⟩ =
      some (vs, ⟨stk, marks, memo⟩) := by
  rw [popToMark]
  have hk : (vs.reverse ++ stk).length - stk.length = vs.length := by simp
  simp only [hk]
  rw [List.take_left' (by simp), List.drop_left' (by simp), List.reverse_reverse]

theorem runs_mark (st : UState) :
    Runs [0x28] st ⟨st.stack, st.stack.length :: st.marks, st.memo⟩ := by
  apply runs_single
  intro rest
  rfl

theorem runs_empty_list (st : UState) : Runs [0x5D] st (push st (.listD 0 [])) := by
  apply runs_single; intro rest; rfl

theorem runs_empty_dict (st : UState) : Runs [0x7D] st (push st (.dictD 0 [])) := by
  apply runs_single; intro rest; rfl

theorem runs_empty_set (st : UState) : Runs [0x8F] st (push st (.setD 0 [])) := by
  apply runs_single; intro rest; rfl

theorem runs_tuple (vs stk : List DVal) (marks : List Nat)
    (memo : List (Nat × DVal)) :
    Runs [0x74] ⟨vs.reverse ++ stk, stk.length :: marks, memo⟩
      ⟨.tupleD 0 vs :: stk, marks, memo⟩ := by
  apply runs_single
  intro rest
  simp only [doOp]
  rw [popToMark_eq]
  rfl

theorem runs_appends (vs stk : List DVal) (marks : List Nat)
    (memo : List (Nat × DVal)) (id : Nat) (xs : List DVal) :
    Runs [0x65]
      ⟨vs.reverse ++ (DVal.listD id xs :: stk),
        (DVal.listD id xs :: stk).length :: marks, memo⟩
      ⟨.listD id (xs ++ vs) :: stk, marks, memo⟩ := by
  apply runs_single
  intro rest
  simp only [doOp]
  rw [popToMark_eq]
  rfl

theorem runs_setitems (vs stk : List DVal) (marks : List Nat)
    (memo : List (Nat × DVal)) (id : Nat) (kvs pairs : List (DVal × DVal))
    (hp : pairUpO vs = some pairs) :
    Runs [0x75]
      ⟨vs.reverse ++ (DVal.dictD id kvs :: stk),
        (DVal.dictD id kvs :: stk).length :: marks, memo⟩
      ⟨.dictD id (kvs ++ pairs) :: stk, marks, memo⟩ := by
  apply runs_single
  intro rest
  simp only [doOp]
  rw [popToMark_eq]
  simp only [hp]
  rfl

theorem runs_additems (vs stk : List DVal) (marks : List Nat)
    (memo : List (Nat × DVal)) (id : Nat) (xs : List DVal) :
    Runs [0x90]
      ⟨vs.reverse ++ (DVal.setD id xs :: stk),
        (DVal.setD id xs :: stk).length :: marks, memo⟩
      ⟨.setD id (xs ++ vs) :: stk, marks, memo⟩ := by
  apply runs_single
  intro rest
  simp only [doOp]
  rw [popToMark_eq]
  rfl

theorem runs_put {id : Nat} {pb : List Nat} (h : putBytes id = .ok pb)
    (v : DVal) (vs : List DVal) (marks : List Nat) (memo : List (Nat × DVal)) :
    Runs pb ⟨v :: vs, marks, memo⟩
      ⟨v.setId id :: vs, marks, (id, v.setId id) :: memo⟩ := by
  rw [putBytes] at h
  by_cases h1 : id < 256
  · rw [if_pos h1] at h
    injection h with h
    subst h
    apply runs_single
    intro rest
    rfl
  · rw [if_neg h1] at h
    by_cases h2 : id < 2 ^ 32
    · rw [if_pos h2] at h
      injection h with h
      subst h
      apply runs_single
      intro rest
      show doOp 0x72 (toLE 4 id ++ rest) _ = _
      simp only [doOp]
      rw [readN_len (toLE 4 id) rest (toLE_length 4 id)]
      simp only [fromLE_toLE, Nat.mod_eq_of_lt h2]
    · rw [if_neg h2] at h
      cases h

theorem runs_get {k : Nat} {gb : List Nat} (hg : getBytes k = .ok gb)
    {memo : List (Nat × DVal)} {v : DVal} (hv : alook memo k = some v)
    (stk : List DVal) (marks : List Nat) :
    Runs gb ⟨stk, marks, memo⟩ (push ⟨stk, marks, memo⟩ v) := by
  rw [getBytes] at hg
  by_cases h1 : k < 256
  · rw [if_pos h1] at hg
    injection hg with hg
    subst hg
    apply runs_single
    intro rest
    show doOp 0x68 (k :: rest) _ = _
    simp only [doOp]
    rw [hv]
  · rw [if_neg h1] at hg
    by_cases h2 : k < 2 ^ 32
    · rw [if_pos h2] at hg
      injection hg with hg
      subst hg
      apply runs_single
      intro rest
      show doOp 0x6A (toLE 4 k ++ rest) _ = _
      simp only [doOp]
      rw [readN_len (toLE 4 k) rest (toLE_length 4 k)]
      simp only [fromLE_toLE, Nat.mod_eq_of_lt h2, hv]
    · rw [if_neg h2] at hg
      cases hg

theorem runs_proto (v : Nat) (hv : v ≤ 5) (st : UState) :
    Runs [0x80, v] st st := by
  apply runs_single
  intro rest
  show doOp 0x80 (v :: rest) _ = _
  simp only [doOp]
  rw [if_pos hv]

theorem runs_frame (L : Nat) (st : UState) :
    Runs (0x95 :: toLE 8 L) st st := by
  apply runs_single
  intro rest
  show doOp 0x95 (toLE 8 L ++ rest) _ = _
  simp only [doOp]
  rw [readN_len (toLE 8 L) rest (toLE_length 8 L)]

/-! ## Atom encoding: success and decoding -/

theorem utf8Char_length_le (c : Nat) : (Codecs.utf8Char c).length ≤ 4 := by
  rw [Codecs.utf8Char]
  split
  · simp
  · split
    · simp
    · split <;> simp

theorem flatMap_utf8_length_le (cps : List Nat) :
    (cps.flatMap Codecs.utf8Char).length ≤ 4 * cps.length := by
  induction cps with
  | nil => simp
  | cons c rest ih =>
    simp only [List.flatMap_cons, List.length_append, List.length_cons]
    have := utf8Char_length_le c
    omega

theorem putBytes_ok (id : Nat) (h : id < 2 ^ 32) :
    ∃ pb, putBytes id = .ok pb := by
  rw [putBytes]
  by_cases h1 : id < 256
  · exact ⟨_, by rw [if_pos h1]⟩
  · exact ⟨_, by rw [if_neg h1, if_pos h]⟩

theorem getBytes_ok (k : Nat) (h : k < 2 ^ 32) :
    ∃ gb, getBytes k = .ok gb := by
  rw [getBytes]
  by_cases h1 : k < 256
  · exact ⟨_, by rw [if_pos h1]⟩
  · exact ⟨_, by rw [if_neg h1, if_pos h]⟩

theorem encodeAtom_ok (p : Nat) (a : Atom) (hwf : a.wfB = true) :
    ∃ bs, encodeAtom p a = .ok bs := by
  cases a with
  | noneA => exact ⟨_, rfl⟩
  | boolA b => exact ⟨_, rfl⟩
  | intA n =>
    rw [Atom.wfB] at hwf
    have hlen : (encode_long n).length < 2 ^ 32 := of_decide_eq_true hwf
    simp only [encodeAtom]
    by_cases hc : 1 ≤ p ∧ 0 ≤ n ∧ n < 256
    · exact ⟨_, by rw [if_pos hc]⟩
    · rw [if_neg hc]
      by_cases h1 : (encode_long n).length < 256
      · exact ⟨_, by rw [if_pos h1]⟩
      · exact ⟨_, by rw [if_neg h1, if_pos hlen]⟩
  | floatA bits =>
    rw [Atom.wfB] at hwf
    exact ⟨_, by simp only [encodeAtom]; rw [if_pos (of_decide_eq_true hwf)]⟩
  | complexA re im =>
    rw [Atom.wfB, Bool.and_eq_true] at hwf
    exact ⟨_, by
      simp only [encodeAtom]
      rw [if_pos ⟨of_decide_eq_true hwf.1, of_decide_eq_true hwf.2⟩]⟩
  | strA cps =>
    rw [Atom.wfB, Bool.and_eq_true] at hwf
    have hc : ∀ c ∈ cps, c < 0x110000 := by
      intro c hcm
      have := List.all_eq_true.mp hwf.1 c hcm
      exact of_decide_eq_true this
    have hn : cps.length < 2 ^ 30 := of_decide_eq_true hwf.2
    have hlen : (cps.flatMap Codecs.utf8Char).length < 2 ^ 32 := by
      have := flatMap_utf8_length_le cps
      omega
    simp only [encodeAtom, utf8_encoder_ok cps hc]
    by_cases h1 : 4 ≤ p ∧ (cps.flatMap Codecs.utf8Char).length < 256
    · exact ⟨_, by rw [if_pos h1]⟩
    · exact ⟨_, by rw [if_neg h1, if_pos hlen]⟩
  | bytesA bs0 =>
    rw [Atom.wfB, Bool.and_eq_true] at hwf
    have hlen : bs0.length < 2 ^ 32 := of_decide_eq_true hwf.2
    simp only [encodeAtom]
    by_cases h1 : 3 ≤ p ∧ bs0.length < 256
    · exact ⟨_, by rw [if_pos h1]⟩
    · exact ⟨_, by rw [if_neg h1, if_pos hlen]⟩

theorem encodeAtom_runs {p : Nat} {a : Atom} {bs : List Nat}
    (hwf : a.wfB = true) (he : encodeAtom p a = .ok bs) (st : UState) :
    Runs bs st (push st (.atomD a)) := by
  cases a with
  | noneA =>
    simp only [encodeAtom] at he
    injection he with he
    subst he
    apply runs_single
    intro rest
    rfl
  | boolA b =>
    simp only [encodeAtom] at he
    injection he with he
    subst he
    cases b
    · apply runs_single; intro rest; rfl
    · apply runs_single; intro rest; rfl
  | intA n =>
    simp only [encodeAtom] at he
    by_cases hc : 1 ≤ p ∧ 0 ≤ n ∧ n < 256
    · rw [if_pos hc] at he
      injection he with he
      subst he
      have hn : ((n.toNat : Int)) = n := Int.toNat_of_nonneg hc.2.1
      have h3 : Runs [0x4B, n.toNat] st (push st (.atomD (.intA n.toNat))) := by
        apply runs_single
        intro rest
        rfl
      rw [hn] at h3
      exact h3
    · rw [if_neg hc] at he
      by_cases h1 : (encode_long n).length < 256
      · rw [if_pos h1] at he
        injection he with he
        subst he
        have h3 : Runs ([0x8A, (encode_long n).length] ++ encode_long n) st
            (push st (.atomD (.intA (decode_long (encode_long n))))) := by
          apply runs_single
          intro rest
          show doOp 0x8A ((encode_long n).length :: (encode_long n ++ rest)) st = _
          simp only [doOp]
          rw [readN_exact]
        rw [decode_encode_long n] at h3
        exact h3
      · rw [if_neg h1] at he
        by_cases h2 : (encode_long n).length < 2 ^ 32
        · rw [if_pos h2] at he
          injection he with he
          subst he
          have h3 : Runs ([0x8B] ++ toLE 4 (encode_long n).length ++ encode_long n) st
              (push st (.atomD (.intA (decode_long (encode_long n))))) := by
            apply runs_single
            intro rest
            show doOp 0x8B ((toLE 4 (encode_long n).length ++ encode_long n) ++ rest) st = _
            simp only [doOp]
            rw [List.append_assoc, readN_len (toLE 4 _) _ (toLE_length 4 _)]
            simp only [fromLE_toLE, Nat.mod_eq_of_lt h2]
            rw [readN_exact]
          rw [decode_encode_long n] at h3
          exact h3
        · rw [if_neg h2] at he
          cases he
  | floatA bits =>
    simp only [encodeAtom] at he
    by_cases hb : bits < 2 ^ 64
    · rw [if_pos hb] at he
      injection he with he
      subst he
      have h3 : Runs ([0x47] ++ (toLE 8 bits).reverse) st
          (push st (.atomD (.floatA (fromLE ((toLE 8 bits).reverse).reverse)))) := by
        apply runs_single
        intro rest
        show doOp 0x47 ((toLE 8 bits).reverse ++ rest) st = _
        simp only [doOp]
        rw [readN_len ((toLE 8 bits).reverse) _ (by simp [toLE_length])]
      rw [List.reverse_reverse, fromLE_toLE, Nat.mod_eq_of_lt hb] at h3
      exact h3
    · rw [if_neg hb] at he
      cases he
  | complexA re im =>
    simp only [encodeAtom] at he
    by_cases hb : re < 2 ^ 64 ∧ im < 2 ^ 64
    · rw [if_pos hb] at he
      injection he with he
      subst he
      have h3 : Runs ([0xA0] ++ (toLE 8 re).reverse ++ (toLE 8 im).reverse) st
          (push st (.atomD (.complexA (fromLE ((toLE 8 re).reverse).reverse)
            (fromLE ((toLE 8 im).reverse).reverse)))) := by
        apply runs_single
        intro rest
        show doOp 0xA0 (((toLE 8 re).reverse ++ (toLE 8 im).reverse) ++ rest) st = _
        simp only [doOp]
        rw [List.append_assoc, readN_len ((toLE 8 re).reverse) _ (by simp [toLE_length])]
        simp only []
        rw [readN_len ((toLE 8 im).reverse) _ (by simp [toLE_length])]
      rw [List.reverse_reverse, List.reverse_reverse, fromLE_toLE, fromLE_toLE,
        Nat.mod_eq_of_lt hb.1, Nat.mod_eq_of_lt hb.2] at h3
      exact h3
    · rw [if_neg hb] at he
      cases he
  | strA cps =>
    rw [Atom.wfB, Bool.and_eq_true] at hwf
    have hc : ∀ c ∈ cps, c < 0x110000 := by
      intro c hcm
      exact of_decide_eq_true (List.all_eq_true.mp hwf.1 c hcm)
    simp only [encodeAtom, utf8_encoder_ok cps hc] at he
    by_cases h1 : 4 ≤ p ∧ (cps.flatMap Codecs.utf8Char).length < 256
    · rw [if_pos h1] at he
      injection he with he
      subst he
      apply runs_single
      intro rest
      show doOp 0x8C ((cps.flatMap Codecs.utf8Char).length ::
        (cps.flatMap Codecs.utf8Char ++ rest)) st = _
      simp only [doOp]
      rw [readN_exact]
      simp only [utf8Decode_flat cps hc]
    · rw [if_neg h1] at he
      by_cases h2 : (cps.flatMap Codecs.utf8Char).length < 2 ^ 32
      · rw [if_pos h2] at he
        injection he with he
        subst he
        apply runs_single
        intro rest
        show doOp 0x58 ((toLE 4 (cps.flatMap Codecs.utf8Char).length ++
          cps.flatMap Codecs.utf8Char) ++ rest) st = _
        simp only [doOp]
        rw [List.append_assoc, readN_len (toLE 4 _) _ (toLE_length 4 _)]
        simp only [fromLE_toLE, Nat.mod_eq_of_lt h2]
        rw [readN_exact]
        simp only [utf8Decode_flat cps hc]
      · rw [if_neg h2] at he
        cases he
  | bytesA bs0 =>
    simp only [encodeAtom] at he
    by_cases h1 : 3 ≤ p ∧ bs0.length < 256
    · rw [if_pos h1] at he
      injection he with he
      subst he
      apply runs_single
      intro rest
      show doOp 0x43 (bs0.length :: (bs0 ++ rest)) st = _
      simp only [doOp]
      rw [readN_exact]
    · rw [if_neg h1] at he
      by_cases h2 : bs0.length < 2 ^ 32
      · rw [if_pos h2] at he
        injection he with he
        subst he
        apply runs_single
        intro rest
        show doOp 0x42 ((toLE 4 bs0.length ++ bs0) ++ rest) st = _
        simp only [doOp]
        rw [List.append_assoc, readN_len (toLE 4 _) _ (toLE_length 4 _)]
        simp only [fromLE_toLE, Nat.mod_eq_of_lt h2]
        rw [readN_exact]
      · rw [if_neg h2] at he
        cases he

/-! ## The simulation invariant

Ties together the encoder memo (`es`), the denotation's completed-value
table (`vals`, by graph address), and the decoder memo (`dmem`, by memo
id). `n` is the pending ceiling: a memo entry whose composite is still
being encoded (an ancestor of the current position) has address ≥ `n`
and no recorded value yet; every other entry is completed, with the
same value recorded under its address in `vals` and under its id in
`dmem`. -/

structure Inv (g : Graph) (es : EncSt) (vals dmem : List (Nat × DVal))
    (n : Nat) : Prop where
  addrNodup : (es.memo.map Prod.fst).Nodup
  idNodup : (es.memo.map Prod.snd).Nodup
  entryBound : ∀ e ∈ es.memo, e.1 < g.nodes.length ∧ e.2 < es.nextId
  idCount : es.nextId = es.memo.length
  valsDom : ∀ x, (alook vals x).isSome = true → (alook es.memo x).isSome = true
  classify : ∀ x k, alook es.memo x = some k →
    (n ≤ x ∧ alook vals x = none ∧ alook dmem k = none) ∨
    (∃ v, alook vals x = some v ∧ alook dmem k = some v)
  dmemDom : ∀ k, (alook dmem k).isSome = true → ∃ e ∈ es.memo, e.2 = k

theorem Inv.mono {g : Graph} {es : EncSt} {vals dmem : List (Nat × DVal)}
    {n m : Nat} (h : Inv g es vals dmem n) (hm : m ≤ n) :
    Inv g es vals dmem m where
  addrNodup := h.addrNodup
  idNodup := h.idNodup
  entryBound := h.entryBound
  idCount := h.idCount
  valsDom := h.valsDom
  classify := fun x k hx =>
    (h.classify x k hx).imp (fun ⟨h1, h2, h3⟩ => ⟨Nat.le_trans hm h1, h2, h3⟩) id
  dmemDom := h.dmemDom

theorem nodup_lt_length (l : List Nat) (N : Nat) (hn : l.Nodup)
    (hlt : ∀ x ∈ l, x < N) : l.length ≤ N := by
  have h1 : l.toFinset.card = l.length := List.toFinset_card_of_nodup hn
  have h2 : l.toFinset ⊆ Finset.range N := by
    intro x hx
    exact Finset.mem_range.mpr (hlt x (List.mem_toFinset.mp hx))
  have := Finset.card_le_card h2
  rw [h1, Finset.card_range] at this
  exact this

theorem Inv.nextId_le {g : Graph} {es : EncSt} {vals dmem : List (Nat × DVal)}
    {n : Nat} (h : Inv g es vals dmem n) : es.nextId ≤ g.nodes.length := by
  rw [h.idCount]
  have : es.memo.length = (es.memo.map Prod.fst).length := by simp
  rw [this]
  exact nodup_lt_length _ _ h.addrNodup
    (fun x hx => by
      obtain ⟨e, he, hex⟩ := List.mem_map.mp hx
      exact hex ▸ (h.entryBound e he).1)

theorem snd_nodup_unique {α : Type} {l : List (Nat × α)} 
    (hn : (l.map Prod.snd).Nodup) {x y : Nat} {k : α}
    (hx : (x, k) ∈ l) (hy : (y, k) ∈ l) : x = y := by
  induction l with
  | nil => cases hx
  | cons e rest ih =>
    rw [List.map_cons, List.nodup_cons] at hn
    rcases List.mem_cons.mp hx with h1 | h1
    · rcases List.mem_cons.mp hy with h2 | h2
      · rw [← h1] at h2
        injection h2 with h2
        exact h2.symm
      · exfalso
        apply hn.1
        rw [← h1]
        exact List.mem_map.mpr ⟨(y, k), h2, rfl⟩
    · rcases List.mem_cons.mp hy with h2 | h2
      · exfalso
        apply hn.1
        rw [← h2]
        exact List.mem_map.mpr ⟨(x, k), h1, rfl⟩
      · exact ih hn.2 h1 h2

theorem alook_append_eq {α : Type} (l1 l2 : List (Nat × α)) (x : Nat) :
    alook (l1 ++ l2) x =
      match alook l1 x with
      | some v => some v
      | none => alook l2 x := by
  induction l1 with
  | nil => rfl
  | cons e rest ih =>
    rw [List.cons_append, alook]
    by_cases he : e.1 = x
    · rw [if_pos he, alook, if_pos he]
    · rw [if_neg he, ih, alook, if_neg he]

theorem alook_append_none {α : Type} {l1 l2 : List (Nat × α)} {x : Nat}
    (h : alook (l1 ++ l2) x = none) : alook l2 x = none := by
  rw [alook_append_eq] at h
  rcases h1 : alook l1 x with _ | v
  · rw [h1] at h
    exact h
  · rw [h1] at h
    cases h

theorem alook_cons_none {α : Type} {e : Nat × α} {l : List (Nat × α)} {x : Nat}
    (h : alook (e :: l) x = none) : alook l x = none := by
  rw [alook] at h
  by_cases he : e.1 = x
  · rw [if_pos he] at h
    cases h
  · rw [if_neg he] at h
    exact h

theorem inv_push_pending {g : Graph} {es : EncSt} {vals dmem : List (Nat × DVal)}
    {a : Nat} (inv : Inv g es vals dmem (a + 1)) (ha : a < g.nodes.length)
    (hmiss : alook es.memo a = none) :
    Inv g ⟨(a, es.nextId) :: es.memo, es.nextId + 1⟩ vals dmem a := by
  refine ⟨?_, ?_, ?_, ?_, ?_, ?_, ?_⟩
  · rw [List.map_cons, List.nodup_cons]
    exact ⟨(alook_eq_none_iff _ _).mp hmiss, inv.addrNodup⟩
  · rw [List.map_cons, List.nodup_cons]
    refine ⟨?_, inv.idNodup⟩
    intro hmem
    obtain ⟨e, he, hee⟩ := List.mem_map.mp hmem
    have := (inv.entryBound e he).2
    omega
  · intro e he
    rcases List.mem_cons.mp he with h1 | h1
    · subst h1
      exact ⟨ha, by show es.nextId < es.nextId + 1; omega⟩
    · have := inv.entryBound e h1
      exact ⟨this.1, by show e.2 < es.nextId + 1; omega⟩
  · have h := inv.idCount
    simp only [List.length_cons]
    omega
  · intro x hx
    exact alook_append_isSome [(a, es.nextId)] es.memo x (inv.valsDom x hx)
  · intro x k hx
    by_cases hax : a = x
    · subst hax
      rw [alook_cons_self] at hx
      injection hx with hx
      subst hx
      left
      refine ⟨Nat.le_refl a, ?_, ?_⟩
      · rcases hv : alook vals a with _ | w
        · rfl
        · have h2 := inv.valsDom a (by rw [hv]; rfl)
          rw [hmiss] at h2
          simp at h2
      · rcases hd : alook dmem es.nextId with _ | w
        · rfl
        · obtain ⟨e, he, hek⟩ := inv.dmemDom es.nextId (by rw [hd]; rfl)
          have := (inv.entryBound e he).2
          omega
    · rw [alook_cons_ne _ _ _ _ hax] at hx
      rcases inv.classify x k hx with ⟨h1, h2, h3⟩ | hc
      · left
        exact ⟨by omega, h2, h3⟩
      · right
        exact hc
  · intro k hk
    obtain ⟨e, he, hek⟩ := inv.dmemDom k hk
    exact ⟨e, List.mem_cons_of_mem _ he, hek⟩

theorem inv_restore {g : Graph} {es es' : EncSt}
    {vals dmem vals' dmem' : List (Nat × DVal)} {B c : Nat} (hcB : c < B)
    (inv0 : Inv g es vals dmem B)
    (inv1 : Inv g es' vals' dmem' (c + 1))
    (hm : ∃ newm, es'.memo = newm ++ es.memo ∧
      ∀ e ∈ newm, e.1 ≤ c ∧ es.nextId ≤ e.2 ∧ alook es.memo e.1 = none)
    (hv : ∃ newv, vals' = newv ++ vals ∧
      ∀ e ∈ newv, e.1 ≤ c ∧ alook vals e.1 = none)
    (hd : ∃ newd, dmem' = newd ++ dmem ∧ ∀ e ∈ newd, es.nextId ≤ e.1) :
    Inv g es' vals' dmem' B := by
  obtain ⟨newm, hme, hmp⟩ := hm
  obtain ⟨newv, hve, hvp⟩ := hv
  obtain ⟨newd, hde, hdp⟩ := hd
  refine ⟨inv1.addrNodup, inv1.idNodup, inv1.entryBound, inv1.idCount,
    inv1.valsDom, ?_, inv1.dmemDom⟩
  intro x k hx
  rcases hold : alook es.memo x with _ | k0
  · have hxnew : x ∈ newm.map Prod.fst := by
      by_contra hno
      rw [hme, alook_append_left newm es.memo x hno, hold] at hx
      cases hx
    obtain ⟨e, he, hex⟩ := List.mem_map.mp hxnew
    have hxc : x ≤ c := hex ▸ (hmp e he).1
    rcases inv1.classify x k hx with ⟨h1, _, _⟩ | hc
    · omega
    · exact Or.inr hc
  · have hxnotnew : x ∉ newm.map Prod.fst := by
      intro hmem
      obtain ⟨e, he, hex⟩ := List.mem_map.mp hmem
      have h5 := (hmp e he).2.2
      rw [hex, hold] at h5
      cases h5
    rw [hme, alook_append_left newm es.memo x hxnotnew, hold] at hx
    injection hx with hx
    subst hx
    have hkbound : k0 < es.nextId :=
      (inv0.entryBound (x, k0) (alook_mem es.memo x k0 hold)).2
    have hknotd : k0 ∉ newd.map Prod.fst := by
      intro hmem
      obtain ⟨e, he, hex⟩ := List.mem_map.mp hmem
      have := hdp e he
      omega
    rcases inv0.classify x k0 hold with ⟨h1, h2, h3⟩ | ⟨w, h2, h3⟩
    · left
      have hxnotv : x ∉ newv.map Prod.fst := by
        intro hmem
        obtain ⟨e, he, hex⟩ := List.mem_map.mp hmem
        have := (hvp e he).1
        omega
      refine ⟨h1, ?_, ?_⟩
      · rw [hve, alook_append_left newv vals x hxnotv, h2]
      · rw [hde, alook_append_left newd dmem k0 hknotd, h3]
    · right
      have hxnotv : x ∉ newv.map Prod.fst := by
        intro hmem
        obtain ⟨e, he, hex⟩ := List.mem_map.mp hmem
        have h5 := (hvp e he).2
        rw [hex, h2] at h5
        cases h5
      refine ⟨w, ?_, ?_⟩
      · rw [hve, alook_append_left newv vals x hxnotv, h2]
      · rw [hde, alook_append_left newd dmem k0 hknotd, h3]

theorem inv_complete {g : Graph} {es2 : EncSt} {vals2 dmem2 : List (Nat × DVal)}
    {a id : Nat} (v : DVal)
    (inv2 : Inv g es2 vals2 dmem2 a)
    (hA : alook es2.memo a = some id)
    (hva : alook vals2 a = none)
    (hdi : alook dmem2 id = none) :
    Inv g es2 ((a, v) :: vals2) ((id, v) :: dmem2) (a + 1) := by
  refine ⟨inv2.addrNodup, inv2.idNodup, inv2.entryBound, inv2.idCount, ?_, ?_, ?_⟩
  · intro x hx
    by_cases hax : a = x
    · subst hax
      rw [hA]
      rfl
    · rw [alook_cons_ne _ _ _ _ hax] at hx
      exact inv2.valsDom x hx
  · intro x k hx
    by_cases hax : a = x
    · subst hax
      rw [hA] at hx
      injection hx with hx
      subst hx
      exact Or.inr ⟨v, alook_cons_self a v vals2, alook_cons_self id v dmem2⟩
    · rcases inv2.classify x k hx with ⟨h1, h2, h3⟩ | ⟨w, h2, h3⟩
      · left
        have hkne : id ≠ k := by
          intro he
          subst he
          have h4 := alook_mem es2.memo x id hx
          have h5 := alook_mem es2.memo a id hA
          exact hax (snd_nodup_unique inv2.idNodup h5 h4)
        refine ⟨by omega, ?_, ?_⟩
        · rw [alook_cons_ne _ _ _ _ hax]
          exact h2
        · rw [alook_cons_ne _ _ _ _ hkne]
          exact h3
      · right
        have hkne : id ≠ k := by
          intro he
          subst he
          rw [h3] at hdi
          cases hdi
        refine ⟨w, ?_, ?_⟩
        · rw [alook_cons_ne _ _ _ _ hax]
          exact h2
        · rw [alook_cons_ne _ _ _ _ hkne]
          exact h3
  · intro k hk
    by_cases hik : id = k
    · subst hik
      exact ⟨(a, id), alook_mem es2.memo a id hA, rfl⟩
    · rw [alook_cons_ne _ _ _ _ hik] at hk
      exact inv2.dmemDom k hk

/-! ## The simulation: encoded bytes drive the decoder to the denotation -/

theorem pairUpO_even {α : Type} : ∀ (l : List α), l.length % 2 = 0 →
    ∃ ps, pairUpO l = some ps
  | [], _ => ⟨[], rfl⟩
  | [x], h => by simp at h
  | a :: b :: rest, h => by
    obtain ⟨ps, hp⟩ := pairUpO_even rest (by
      simp only [List.length_cons] at h
      omega)
    exact ⟨(a, b) :: ps, by rw [pairUpO, hp]; rfl⟩

theorem flatMap_pair_length {α : Type} (kvs : List (α × α)) :
    (kvs.flatMap (fun kv => [kv.1, kv.2])).length = 2 * kvs.length := by
  induction kvs with
  | nil => rfl
  | cons e rest ih =>
    simp only [List.flatMap_cons, List.length_append, List.length_cons,
      List.length_nil, ih]
    omega

def SimNodeP (g : Graph) (p : Nat) (fuel : Nat) : Prop :=
  ∀ a es vals dmem, g.wfB = true → a < g.nodes.length → a + 1 ≤ fuel →
    Inv g es vals dmem (a + 1) →
    ∃ bytes es' vals' dmem' v,
      encNode g p fuel a es = .ok (bytes, es') ∧
      denNode g fuel a ⟨es, vals⟩ = some (v, ⟨es', vals'⟩) ∧
      (∀ stk marks, Runs bytes ⟨stk, marks, dmem⟩ ⟨v :: stk, marks, dmem'⟩) ∧
      Inv g es' vals' dmem' (a + 1) ∧
      (∃ newm, es'.memo = newm ++ es.memo ∧
        ∀ e ∈ newm, e.1 ≤ a ∧ es.nextId ≤ e.2 ∧ alook es.memo e.1 = none) ∧
      (∃ newv, vals' = newv ++ vals ∧
        ∀ e ∈ newv, e.1 ≤ a ∧ alook vals e.1 = none) ∧
      (∃ newd, dmem' = newd ++ dmem ∧ ∀ e ∈ newd, es.nextId ≤ e.1) ∧
      es.nextId ≤ es'.nextId

def SimAddrsP (g : Graph) (p : Nat) (fuel : Nat) : Prop :=
  ∀ addrs B es vals dmem, g.wfB = true → (∀ c ∈ addrs, c < B) →
    (∀ c ∈ addrs, c < g.nodes.length) → (∀ c ∈ addrs, c + 1 ≤ fuel) →
    Inv g es vals dmem B →
    ∃ bytes es' vals' dmem' vs,
      encAddrs g p fuel addrs es = .ok (bytes, es') ∧
      denAddrs g fuel addrs ⟨es, vals⟩ = some (vs, ⟨es', vals'⟩) ∧
      vs.length = addrs.length ∧
      (∀ stk marks, Runs bytes ⟨stk, marks, dmem⟩
        ⟨vs.reverse ++ stk, marks, dmem'⟩) ∧
      Inv g es' vals' dmem' B ∧
      (∃ newm, es'.memo = newm ++ es.memo ∧
        ∀ e ∈ newm, e.1 < B ∧ es.nextId ≤ e.2 ∧ alook es.memo e.1 = none) ∧
      (∃ newv, vals' = newv ++ vals ∧
        ∀ e ∈ newv, e.1 < B ∧ alook vals e.1 = none) ∧
      (∃ newd, dmem' = newd ++ dmem ∧ ∀ e ∈ newd, es.nextId ≤ e.1) ∧
      es.nextId ≤ es'.nextId

theorem simAddrs_of_simNode {g : Graph} {p : Nat} {fuel : Nat}
    (SN : SimNodeP g p fuel) : SimAddrsP g p fuel := by
  intro addrs
  induction addrs with
  | nil =>
    intro B es vals dmem hwf hB hlen hfuel inv
    refine ⟨[], es, vals, dmem, [], by simp only [encAddrs],
      by simp only [denAddrs], rfl, ?_, inv, ⟨[], rfl, by simp⟩,
      ⟨[], rfl, by simp⟩, ⟨[], rfl, by simp⟩, Nat.le_refl _⟩
    intro stk marks
    exact runs_refl _
  | cons c rest ih =>
    intro B es vals dmem hwf hB hlen hfuel inv
    have hcB : c < B := hB c (by simp)
    obtain ⟨bytes1, es1, vals1, dmem1, v, henc1, hden1, hruns1, inv1, hm1, hv1,
      hd1, hn1⟩ :=
      SN c es vals dmem hwf (hlen c (by simp)) (hfuel c (by simp))
        (inv.mono (by omega))
    have invB1 : Inv g es1 vals1 dmem1 B := inv_restore hcB inv inv1 hm1 hv1 hd1
    obtain ⟨bytes2, es2, vals2, dmem2, vs, henc2, hden2, hlen2, hruns2, inv2,
      hm2, hv2, hd2, hn2⟩ :=
      ih B es1 vals1 dmem1 hwf (fun x hx => hB x (by simp [hx]))
        (fun x hx => hlen x (by simp [hx]))
        (fun x hx => hfuel x (by simp [hx])) invB1
    refine ⟨bytes1 ++ bytes2, es2, vals2, dmem2, v :: vs, ?_, ?_, ?_, ?_, inv2,
      ?_, ?_, ?_, by omega⟩
    · simp only [encAddrs, henc1, henc2]
    · simp only [denAddrs, hden1, hden2]
    · simp [hlen2]
    · intro stk marks
      have h3 := runs_trans (hruns1 stk marks) (hruns2 (v :: stk) marks)
      rw [List.reverse_cons, List.append_assoc]
      exact h3
    · obtain ⟨n2, he2, hp2⟩ := hm2
      obtain ⟨n1, he1, hp1⟩ := hm1
      refine ⟨n2 ++ n1, by rw [he2, he1, List.append_assoc], ?_⟩
      intro e he
      rcases List.mem_append.mp he with h | h
      · have h4 := hp2 e h
        refine ⟨h4.1, Nat.le_trans hn1 h4.2.1, ?_⟩
        have h5 := h4.2.2
        rw [he1] at h5
        exact alook_append_none h5
      · have h4 := hp1 e h
        exact ⟨by omega, h4.2.1, h4.2.2⟩
    · obtain ⟨n2, he2, hp2⟩ := hv2
      obtain ⟨n1, he1, hp1⟩ := hv1
      refine ⟨n2 ++ n1, by rw [he2, he1, List.append_assoc], ?_⟩
      intro e he
      rcases List.mem_append.mp he with h | h
      · have h4 := hp2 e h
        refine ⟨h4.1, ?_⟩
        have h5 := h4.2
        rw [he1] at h5
        exact alook_append_none h5
      · have h4 := hp1 e h
        exact ⟨by omega, h4.2⟩
    · obtain ⟨n2, he2, hp2⟩ := hd2
      obtain ⟨n1, he1, hp1⟩ := hd1
      refine ⟨n2 ++ n1, by rw [he2, he1, List.append_assoc], ?_⟩
      intro e he
      rcases List.mem_append.mp he with h | h
      · exact Nat.le_trans hn1 (hp2 e h)
      · exact hp1 e h

theorem sim_vals_a_none {g : Graph} {es : EncSt} {vals dmem : List (Nat × DVal)}
    {a : Nat} {n : Nat} (inv : Inv g es vals dmem n)
    (hmiss : alook es.memo a = none) : alook vals a = none := by
  rcases hv : alook vals a with _ | w
  · rfl
  · have h2 := inv.valsDom a (by rw [hv]; rfl)
    rw [hmiss] at h2
    simp at h2

theorem sim_dmem_nid_none {g : Graph} {es : EncSt}
    {vals dmem : List (Nat × DVal)} {n : Nat} (inv : Inv g es vals dmem n) :
    alook dmem es.nextId = none := by
  rcases hd : alook dmem es.nextId with _ | w
  · rfl
  · obtain ⟨e, he, hek⟩ := inv.dmemDom es.nextId (by rw [hd]; rfl)
    have := (inv.entryBound e he).2
    omega

theorem sim_memo_hit {es2memo : List (Nat × Nat)} {esmemo : List (Nat × Nat)}
    {a nid : Nat}
    (hm2 : ∃ newm, es2memo = newm ++ ((a, nid) :: esmemo) ∧
      ∀ e ∈ newm, e.1 < a ∧ nid + 1 ≤ e.2 ∧
        alook ((a, nid) :: esmemo) e.1 = none) :
    alook es2memo a = some nid := by
  obtain ⟨newm, he2, hp2⟩ := hm2
  rw [he2]
  have hnm : a ∉ newm.map Prod.fst := by
    intro hmem
    obtain ⟨e, he, hex⟩ := List.mem_map.mp hmem
    have := (hp2 e he).1
    omega
  rw [alook_append_left newm _ a hnm, alook_cons_self]

theorem sim_vals2_a_none {vals vals2 : List (Nat × DVal)} {a : Nat}
    (hva : alook vals a = none)
    (hv2 : ∃ newv, vals2 = newv ++ vals ∧
      ∀ e ∈ newv, e.1 < a ∧ alook vals e.1 = none) :
    alook vals2 a = none := by
  obtain ⟨newv, he2, hp2⟩ := hv2
  rw [he2]
  have hnv : a ∉ newv.map Prod.fst := by
    intro hmem
    obtain ⟨e, he, hex⟩ := List.mem_map.mp hmem
    have := (hp2 e he).1
    omega
  rw [alook_append_left newv _ a hnv, hva]

theorem sim_dmem2_nid_none {dmem dmem2 : List (Nat × DVal)} {nid : Nat}
    (hdn : alook dmem nid = none)
    (hd2 : ∃ newd, dmem2 = newd ++ dmem ∧ ∀ e ∈ newd, nid + 1 ≤ e.1) :
    alook dmem2 nid = none := by
  obtain ⟨newd, he2, hp2⟩ := hd2
  rw [he2]
  have hnd : nid ∉ newd.map Prod.fst := by
    intro hmem
    obtain ⟨e, he, hex⟩ := List.mem_map.mp hmem
    have := hp2 e he
    omega
  rw [alook_append_left newd _ _ hnd, hdn]

theorem sim_ext_memo {esmemo memo2 : List (Nat × Nat)} {a nid : Nat}
    (hmiss : alook esmemo a = none)
    (hm2 : ∃ newm, memo2 = newm ++ ((a, nid) :: esmemo) ∧
      ∀ e ∈ newm, e.1 < a ∧ nid + 1 ≤ e.2 ∧
        alook ((a, nid) :: esmemo) e.1 = none) :
    ∃ newm, memo2 = newm ++ esmemo ∧
      ∀ e ∈ newm, e.1 ≤ a ∧ nid ≤ e.2 ∧ alook esmemo e.1 = none := by
  obtain ⟨newm, he2, hp2⟩ := hm2
  refine ⟨newm ++ [(a, nid)], by rw [he2, List.append_assoc]; rfl, ?_⟩
  intro e he
  rcases List.mem_append.mp he with h | h
  · have h4 := hp2 e h
    exact ⟨by omega, by omega, alook_cons_none h4.2.2⟩
  · have he3 := List.mem_singleton.mp h
    subst he3
    exact ⟨Nat.le_refl a, Nat.le_refl nid, hmiss⟩

theorem sim_ext_vals {vals vals2 : List (Nat × DVal)} {a : Nat} (V : DVal)
    (hva : alook vals a = none)
    (hv2 : ∃ newv, vals2 = newv ++ vals ∧
      ∀ e ∈ newv, e.1 < a ∧ alook vals e.1 = none) :
    ∃ newv, (a, V) :: vals2 = newv ++ vals ∧
      ∀ e ∈ newv, e.1 ≤ a ∧ alook vals e.1 = none := by
  obtain ⟨newv, he2, hp2⟩ := hv2
  refine ⟨(a, V) :: newv, by rw [he2]; rfl, ?_⟩
  intro e he
  rcases List.mem_cons.mp he with h | h
  · subst h
    exact ⟨Nat.le_refl a, hva⟩
  · have h4 := hp2 e h
    exact ⟨by omega, h4.2⟩

theorem sim_ext_dmem {dmem dmem2 : List (Nat × DVal)} {nid : Nat} (V : DVal)
    (hd2 : ∃ newd, dmem2 = newd ++ dmem ∧ ∀ e ∈ newd, nid + 1 ≤ e.1) :
    ∃ newd, (nid, V) :: dmem2 = newd ++ dmem ∧ ∀ e ∈ newd, nid ≤ e.1 := by
  obtain ⟨newd, he2, hp2⟩ := hd2
  refine ⟨(nid, V) :: newd, by rw [he2]; rfl, ?_⟩
  intro e he
  rcases List.mem_cons.mp he with h | h
  · subst h
    exact Nat.le_refl nid
  · have := hp2 e h
    omega

theorem simNode (g : Graph) (p : Nat) : ∀ fuel, SimNodeP g p fuel := by
  intro fuel
  induction fuel with
  | zero =>
    intro a es vals dmem hwf ha hf inv
    omega
  | succ fuel ih =>
    have SA : SimAddrsP g p fuel := simAddrs_of_simNode ih
    intro a es vals dmem hwf ha hf inv
    obtain ⟨n, hn, hnwf⟩ := Graph.wfB_node hwf ha
    have hsize := Graph.wfB_size hwf
    have hnext : es.nextId ≤ g.nodes.length := inv.nextId_le
    cases n with
    | atomN at0 =>
      rw [Node.wfB] at hnwf
      obtain ⟨bs, hbs⟩ := encodeAtom_ok p at0 hnwf
      refine ⟨bs, es, vals, dmem, .atomD at0, ?_, ?_, ?_, inv, ⟨[], rfl, by simp⟩,
        ⟨[], rfl, by simp⟩, ⟨[], rfl, by simp⟩, Nat.le_refl _⟩
      · simp only [encNode, hn, hbs]
      · simp only [denNode, hn]
      · intro stk marks
        exact encodeAtom_runs hnwf hbs _
    | objN rv =>
      rw [Node.wfB] at hnwf
      cases hnwf
    | listN elems =>
      have hchild : ∀ c ∈ elems, c < a := fun c hc =>
        Node.wfB_child hnwf (fun at0 h => Node.noConfusion h) hc
      rcases halk : alook es.memo a with _ | k
      · have inv1 : Inv g ⟨(a, es.nextId) :: es.memo, es.nextId + 1⟩ vals dmem a :=
          inv_push_pending inv ha halk
        obtain ⟨body, es2, vals2, dmem2, vs, hencA, hdenA, hlenvs, hrunsA, inv2,
          hm2, hv2, hd2, hn2⟩ :=
          SA elems a ⟨(a, es.nextId) :: es.memo, es.nextId + 1⟩ vals dmem hwf
            hchild (fun c hc => Nat.lt_trans (hchild c hc) ha)
            (fun c hc => by have := hchild c hc; omega) inv1
        obtain ⟨pb, hpb⟩ := putBytes_ok es.nextId (by omega)
        have hA : alook es2.memo a = some es.nextId := sim_memo_hit hm2
        have hva : alook vals a = none := sim_vals_a_none inv halk
        have hva2 : alook vals2 a = none := sim_vals2_a_none hva hv2
        have hdn : alook dmem es.nextId = none := sim_dmem_nid_none inv
        have hdi2 : alook dmem2 es.nextId = none := sim_dmem2_nid_none hdn hd2
        have hn2a : es.nextId + 1 ≤ es2.nextId := hn2
        refine ⟨[0x5D, 0x28] ++ body ++ [0x65] ++ pb, es2,
          (a, DVal.listD es.nextId vs) :: vals2,
          (es.nextId, DVal.listD es.nextId vs) :: dmem2,
          DVal.listD es.nextId vs, ?_, ?_, ?_,
          inv_complete _ inv2 hA hva2 hdi2,
          sim_ext_memo halk hm2, sim_ext_vals _ hva hv2, sim_ext_dmem _ hd2,
          by omega⟩
        · simp only [encNode, hn, halk, hencA, hpb]
        · simp only [denNode, hn, halk, hdenA]
        · intro stk marks
          rw [show ([0x5D, 0x28] ++ body ++ [0x65] ++ pb : List Nat) =
            [0x5D] ++ ([0x28] ++ (body ++ ([0x65] ++ pb))) by simp]
          have r1 := runs_empty_list ⟨stk, marks, dmem⟩
          have r2 := runs_mark ⟨DVal.listD 0 [] :: stk, marks, dmem⟩
          have r3 := hrunsA (DVal.listD 0 [] :: stk)
            ((DVal.listD 0 [] :: stk).length :: marks)
          have r4 := runs_appends vs stk marks dmem2 0 []
          have r5 := runs_put hpb (DVal.listD 0 ([] ++ vs)) stk marks dmem2
          exact runs_trans r1 (runs_trans r2 (runs_trans r3 (runs_trans r4 r5)))
      · rcases inv.classify a k halk with ⟨h1, h2x, h3x⟩ | ⟨v, hva, hdk⟩
        · omega
        · have hk32 : k < 2 ^ 32 := by
            have := (inv.entryBound (a, k) (alook_mem es.memo a k halk)).2
            omega
          obtain ⟨gb, hgb⟩ := getBytes_ok k hk32
          refine ⟨gb, es, vals, dmem, v, ?_, ?_, ?_, inv, ⟨[], rfl, by simp⟩,
            ⟨[], rfl, by simp⟩, ⟨[], rfl, by simp⟩, Nat.le_refl _⟩
          · simp only [encNode, hn, halk, hgb]
          · simp only [denNode, hn, halk, hva]
          · intro stk marks
            exact runs_get hgb hdk stk marks
    | tupleN elems =>
      have hchild : ∀ c ∈ elems, c < a := fun c hc =>
        Node.wfB_child hnwf (fun at0 h => Node.noConfusion h) hc
      rcases halk : alook es.memo a with _ | k
      · have inv1 : Inv g ⟨(a, es.nextId) :: es.memo, es.nextId + 1⟩ vals dmem a :=
          inv_push_pending inv ha halk
        obtain ⟨body, es2, vals2, dmem2, vs, hencA, hdenA, hlenvs, hrunsA, inv2,
          hm2, hv2, hd2, hn2⟩ :=
          SA elems a ⟨(a, es.nextId) :: es.memo, es.nextId + 1⟩ vals dmem hwf
            hchild (fun c hc => Nat.lt_trans (hchild c hc) ha)
            (fun c hc => by have := hchild c hc; omega) inv1
        obtain ⟨pb, hpb⟩ := putBytes_ok es.nextId (by omega)
        have hA : alook es2.memo a = some es.nextId := sim_memo_hit hm2
        have hva : alook vals a = none := sim_vals_a_none inv halk
        have hva2 : alook vals2 a = none := sim_vals2_a_none hva hv2
        have hdn : alook dmem es.nextId = none := sim_dmem_nid_none inv
        have hdi2 : alook dmem2 es.nextId = none := sim_dmem2_nid_none hdn hd2
        have hn2a : es.nextId + 1 ≤ es2.nextId := hn2
        refine ⟨[0x28] ++ body ++ [0x74] ++ pb, es2,
          (a, DVal.tupleD es.nextId vs) :: vals2,
          (es.nextId, DVal.tupleD es.nextId vs) :: dmem2,
          DVal.tupleD es.nextId vs, ?_, ?_, ?_,
          inv_complete _ inv2 hA hva2 hdi2,
          sim_ext_memo halk hm2, sim_ext_vals _ hva hv2, sim_ext_dmem _ hd2,
          by omega⟩
        · simp only [encNode, hn, halk, hencA, hpb]
        · simp only [denNode, hn, halk, hdenA]
        · intro stk marks
          rw [show ([0x28] ++ body ++ [0x74] ++ pb : List Nat) =
            [0x28] ++ (body ++ ([0x74] ++ pb)) by simp]
          have r2 := runs_mark ⟨stk, marks, dmem⟩
          have r3 := hrunsA stk (stk.length :: marks)
          have r4 := runs_tuple vs stk marks dmem2
          have r5 := runs_put hpb (DVal.tupleD 0 vs) stk marks dmem2
          exact runs_trans r2 (runs_trans r3 (runs_trans r4 r5))
      · rcases inv.classify a k halk with ⟨h1, h2x, h3x⟩ | ⟨v, hva, hdk⟩
        · omega
        · have hk32 : k < 2 ^ 32 := by
            have := (inv.entryBound (a, k) (alook_mem es.memo a k halk)).2
            omega
          obtain ⟨gb, hgb⟩ := getBytes_ok k hk32
          refine ⟨gb, es, vals, dmem, v, ?_, ?_, ?_, inv, ⟨[], rfl, by simp⟩,
            ⟨[], rfl, by simp⟩, ⟨[], rfl, by simp⟩, Nat.le_refl _⟩
          · simp only [encNode, hn, halk, hgb]
          · simp only [denNode, hn, halk, hva]
          · intro stk marks
            exact runs_get hgb hdk stk marks
    | dictN kvs =>
      have hchild : ∀ c ∈ (kvs.flatMap (fun kv => [kv.1, kv.2])), c < a := fun c hc =>
        Node.wfB_child hnwf (fun at0 h => Node.noConfusion h) hc
      rcases halk : alook es.memo a with _ | k
      · have inv1 : Inv g ⟨(a, es.nextId) :: es.memo, es.nextId + 1⟩ vals dmem a :=
          inv_push_pending inv ha halk
        obtain ⟨body, es2, vals2, dmem2, vs, hencA, hdenA, hlenvs, hrunsA, inv2,
          hm2, hv2, hd2, hn2⟩ :=
          SA (kvs.flatMap (fun kv => [kv.1, kv.2])) a ⟨(a, es.nextId) :: es.memo, es.nextId + 1⟩ vals dmem hwf
            hchild (fun c hc => Nat.lt_trans (hchild c hc) ha)
            (fun c hc => by have := hchild c hc; omega) inv1
        obtain ⟨pairs, hpairs⟩ := pairUpO_even vs (by
          rw [hlenvs, flatMap_pair_length]
          omega)
        obtain ⟨pb, hpb⟩ := putBytes_ok es.nextId (by omega)
        have hA : alook es2.memo a = some es.nextId := sim_memo_hit hm2
        have hva : alook vals a = none := sim_vals_a_none inv halk
        have hva2 : alook vals2 a = none := sim_vals2_a_none hva hv2
        have hdn : alook dmem es.nextId = none := sim_dmem_nid_none inv
        have hdi2 : alook dmem2 es.nextId = none := sim_dmem2_nid_none hdn hd2
        have hn2a : es.nextId + 1 ≤ es2.nextId := hn2
        refine ⟨[0x7D, 0x28] ++ body ++ [0x75] ++ pb, es2,
          (a, DVal.dictD es.nextId pairs) :: vals2,
          (es.nextId, DVal.dictD es.nextId pairs) :: dmem2,
          DVal.dictD es.nextId pairs, ?_, ?_, ?_,
          inv_complete _ inv2 hA hva2 hdi2,
          sim_ext_memo halk hm2, sim_ext_vals _ hva hv2, sim_ext_dmem _ hd2,
          by omega⟩
        · simp only [encNode, hn, halk, hencA, hpb]
        · simp only [denNode, hn, halk, hdenA, hpairs]
        · intro stk marks
          rw [show ([0x7D, 0x28] ++ body ++ [0x75] ++ pb : List Nat) =
            [0x7D] ++ ([0x28] ++ (body ++ ([0x75] ++ pb))) by simp]
          have r1 := runs_empty_dict ⟨stk, marks, dmem⟩
          have r2 := runs_mark ⟨DVal.dictD 0 [] :: stk, marks, dmem⟩
          have r3 := hrunsA (DVal.dictD 0 [] :: stk)
            ((DVal.dictD 0 [] :: stk).length :: marks)
          have r4 := runs_setitems vs stk marks dmem2 0 [] pairs hpairs
          have r5 := runs_put hpb (DVal.dictD 0 ([] ++ pairs)) stk marks dmem2
          exact runs_trans r1 (runs_trans r2 (runs_trans r3 (runs_trans r4 r5)))
      · rcases inv.classify a k halk with ⟨h1, h2x, h3x⟩ | ⟨v, hva, hdk⟩
        · omega
        · have hk32 : k < 2 ^ 32 := by
            have := (inv.entryBound (a, k) (alook_mem es.memo a k halk)).2
            omega
          obtain ⟨gb, hgb⟩ := getBytes_ok k hk32
          refine ⟨gb, es, vals, dmem, v, ?_, ?_, ?_, inv, ⟨[], rfl, by simp⟩,
            ⟨[], rfl, by simp⟩, ⟨[], rfl, by simp⟩, Nat.le_refl _⟩
          · simp only [encNode, hn, halk, hgb]
          · simp only [denNode, hn, halk, hva]
          · intro stk marks
            exact runs_get hgb hdk stk marks
    | setN elems =>
      have hchild : ∀ c ∈ elems, c < a := fun c hc =>
        Node.wfB_child hnwf (fun at0 h => Node.noConfusion h) hc
      rcases halk : alook es.memo a with _ | k
      · have inv1 : Inv g ⟨(a, es.nextId) :: es.memo, es.nextId + 1⟩ vals dmem a :=
          inv_push_pending inv ha halk
        obtain ⟨body, es2, vals2, dmem2, vs, hencA, hdenA, hlenvs, hrunsA, inv2,
          hm2, hv2, hd2, hn2⟩ :=
          SA elems a ⟨(a, es.nextId) :: es.memo, es.nextId + 1⟩ vals dmem hwf
            hchild (fun c hc => Nat.lt_trans (hchild c hc) ha)
            (fun c hc => by have := hchild c hc; omega) inv1
        obtain ⟨pb, hpb⟩ := putBytes_ok es.nextId (by omega)
        have hA : alook es2.memo a = some es.nextId := sim_memo_hit hm2
        have hva : alook vals a = none := sim_vals_a_none inv halk
        have hva2 : alook vals2 a = none := sim_vals2_a_none hva hv2
        have hdn : alook dmem es.nextId = none := sim_dmem_nid_none inv
        have hdi2 : alook dmem2 es.nextId = none := sim_dmem2_nid_none hdn hd2
        have hn2a : es.nextId + 1 ≤ es2.nextId := hn2
        refine ⟨[0x8F, 0x28] ++ body ++ [0x90] ++ pb, es2,
          (a, DVal.setD es.nextId vs) :: vals2,
          (es.nextId, DVal.setD es.nextId vs) :: dmem2,
          DVal.setD es.nextId vs, ?_, ?_, ?_,
          inv_complete _ inv2 hA hva2 hdi2,
          sim_ext_memo halk hm2, sim_ext_vals _ hva hv2, sim_ext_dmem _ hd2,
          by omega⟩
        · simp only [encNode, hn, halk, hencA, hpb]
        · simp only [denNode, hn, halk, hdenA]
        · intro stk marks
          rw [show ([0x8F, 0x28] ++ body ++ [0x90] ++ pb : List Nat) =
            [0x8F] ++ ([0x28] ++ (body ++ ([0x90] ++ pb))) by simp]
          have r1 := runs_empty_set ⟨stk, marks, dmem⟩
          have r2 := runs_mark ⟨DVal.setD 0 [] :: stk, marks, dmem⟩
          have r3 := hrunsA (DVal.setD 0 [] :: stk)
            ((DVal.setD 0 [] :: stk).length :: marks)
          have r4 := runs_additems vs stk marks dmem2 0 []
          have r5 := runs_put hpb (DVal.setD 0 ([] ++ vs)) stk marks dmem2
          exact runs_trans r1 (runs_trans r2 (runs_trans r3 (runs_trans r4 r5)))
      · rcases inv.classify a k halk with ⟨h1, h2x, h3x⟩ | ⟨v, hva, hdk⟩
        · omega
        · have hk32 : k < 2 ^ 32 := by
            have := (inv.entryBound (a, k) (alook_mem es.memo a k halk)).2
            omega
          obtain ⟨gb, hgb⟩ := getBytes_ok k hk32
          refine ⟨gb, es, vals, dmem, v, ?_, ?_, ?_, inv, ⟨[], rfl, by simp⟩,
            ⟨[], rfl, by simp⟩, ⟨[], rfl, by simp⟩, Nat.le_refl _⟩
          · simp only [encNode, hn, halk, hgb]
          · simp only [denNode, hn, halk, hva]
          · intro stk marks
            exact runs_get hgb hdk stk marks

/-! ## Top-level round trip -/

theorem loads_of_runs {pre : List Nat} {st' : UState} {v : DVal} {vs : List DVal}
    (hr : Runs pre ⟨[], [], []⟩ st') (hst : st'.stack = v :: vs)
    {bs : List Nat} (hbs : bs = pre ++ [0x2E]) :
    loads bs = .ok v := by
  subst hbs
  obtain ⟨m, hm, hrun⟩ := hr
  rw [loads]
  have hlen : (pre ++ [0x2E]).length + 1 =
      m + ((pre ++ [0x2E]).length + 1 - m) := by
    simp only [List.length_append, List.length_cons, List.length_nil]
    omega
  rw [hlen, hrun]
  obtain ⟨j, hj⟩ : ∃ j, (pre ++ [0x2E]).length + 1 - m = j + 1 :=
    ⟨(pre ++ [0x2E]).length - m, by
      simp only [List.length_append, List.length_cons, List.length_nil]
      omega⟩
  rw [hj, run]
  simp only [doOp, hst]

theorem emptyInv (g : Graph) (n : Nat) : Inv g ⟨[], 0⟩ [] [] n := by
  refine ⟨by simp, by simp, ?_, rfl, ?_, ?_, ?_⟩
  · intro e he
    cases he
  · intro x hx
    rw [alook] at hx
    cases hx
  · intro x k hx
    rw [alook] at hx
    cases hx
  · intro k hk
    rw [alook] at hk
    cases hk

theorem loads_dumps (g : Graph) (hwf : g.wfB = true) (p : Int)
    (hp0 : 0 ≤ p) (hp5 : p ≤ HIGHEST_PROTOCOL) :
    ∃ bytes v es' vals', dumps g p = .ok bytes ∧
      denNode g (g.root + 1) g.root ⟨⟨[], 0⟩, []⟩ = some (v, ⟨es', vals'⟩) ∧
      loads bytes = .ok v := by
  simp only [HIGHEST_PROTOCOL] at hp5
  have hroot := Graph.wfB_root hwf
  obtain ⟨body, es', vals', dmem', v, henc, hden, hruns, hinv, hm, hv, hd, hn⟩ :=
    simNode g p.toNat (g.root + 1) g.root ⟨[], 0⟩ [] [] hwf hroot
      (Nat.le_refl _) (emptyInv g (g.root + 1))
  refine ⟨(if 2 ≤ p.toNat then [0x80, p.toNat] else []) ++
    (if 4 ≤ p.toNat ∧ 4 ≤ (body ++ [0x2E]).length then
      [0x95] ++ toLE 8 (body ++ [0x2E]).length ++ (body ++ [0x2E])
    else (body ++ [0x2E])), v, es', vals', ?_, hden, ?_⟩
  · rw [dumps, if_neg (by simp only [HIGHEST_PROTOCOL]; omega), henc]
  · have r3 : Runs body ⟨[], [], []⟩ ⟨[v], [], dmem'⟩ := hruns [] []
    by_cases hfr : 4 ≤ p.toNat ∧ 4 ≤ (body ++ [0x2E]).length
    · rw [if_pos hfr]
      have r2 := runs_frame ((body ++ [0x2E]).length) (⟨[], [], []⟩ : UState)
      by_cases hh : 2 ≤ p.toNat
      · rw [if_pos hh]
        have r1 := runs_proto p.toNat (by omega) (⟨[], [], []⟩ : UState)
        exact loads_of_runs (runs_trans r1 (runs_trans r2 r3)) rfl (by simp)
      · rw [if_neg hh]
        exact loads_of_runs (runs_trans r2 r3) rfl (by simp)
    · rw [if_neg hfr]
      by_cases hh : 2 ≤ p.toNat
      · rw [if_pos hh]
        have r1 := runs_proto p.toNat (by omega) (⟨[], [], []⟩ : UState)
        exact loads_of_runs (runs_trans r1 r3) rfl (by simp)
      · rw [if_neg hh]
        exact loads_of_runs r3 rfl (by simp)

/-! ## Structural (identity-free) values, float equality, path access -/

mutual

/-- Forget the instance ids, keeping only structure: the value as
compared by the round-trip property's structural equality. -/
def DVal.eraseIds : DVal → DVal
  | .atomD a => .atomD a
  | .listD _ es => .listD 0 (eraseIdsList es)
  | .tupleD _ es => .tupleD 0 (eraseIdsList es)
  | .dictD _ kvs => .dictD 0 (eraseIdsPairs kvs)
  | .setD _ es => .setD 0 (eraseIdsList es)
  | .globalD m q => .globalD m q
  | .objD _ c as st => .objD 0 c.eraseIds (eraseIdsList as) (eraseIdsOpt st)

def eraseIdsList : List DVal → List DVal
  | [] => []
  | v :: rest => v.eraseIds :: eraseIdsList rest

def eraseIdsPairs : List (DVal × DVal) → List (DVal × DVal)
  | [] => []
  | (k, v) :: rest => (k.eraseIds, v.eraseIds) :: eraseIdsPairs rest

def eraseIdsOpt : Option DVal → Option DVal
  | none => none
  | some v => some v.eraseIds

end

mutual

/-- The pure structural denotation of a graph address: the value tree
with no sharing and no ids, by plain unfolding. This is what the
round-tripped value must be structurally equal to. -/
def pureNode (g : Graph) : Nat → Nat → Option DVal
  | 0, _ => none
  | fuel+1, a =>
    match g.nodes.get? a with
    | none => none
    | some (.atomN at0) => some (.atomD at0)
    | some (.listN es) =>
      match pureAddrs g fuel es with
      | none => none
      | some vs => some (.listD 0 vs)
    | some (.tupleN es) =>
      match pureAddrs g fuel es with
      | none => none
      | some vs => some (.tupleD 0 vs)
    | some (.dictN kvs) =>
      match pureAddrs g fuel (kvs.flatMap (fun kv => [kv.1, kv.2])) with
      | none => none
      | some vs =>
        match pairUpO vs with
        | none => none
        | some pairs => some (.dictD 0 pairs)
    | some (.setN es) =>
      match pureAddrs g fuel es with
      | none => none
      | some vs => some (.setD 0 vs)
    | some (.objN _) => none

def pureAddrs (g : Graph) : Nat → List Nat → Option (List DVal)
  | _, [] => some []
  | fuel, a :: rest =>
    match pureNode g fuel a with
    | none => none
    | some v =>
      match pureAddrs g fuel rest with
      | none => none
      | some vs => some (v :: vs)

end

/-- Modelled from the spec: the IEEE-754 binary64 NaN test on a bit
pattern (maximal exponent, nonzero mantissa). -/
def isNaN (bits : Nat) : Bool :=
  decide (bits / 2 ^ 52 % 2 ^ 11 = 2 ^ 11 - 1) && decide (bits % 2 ^ 52 ≠ 0)

/-- Modelled from the spec: host-language float equality on binary64 bit
patterns — NaN compares unequal to everything including itself; zero
compares equal to negative zero; any other value compares equal exactly
to its own pattern. -/
def floatPyEq (a b : Nat) : Bool :=
  if isNaN a || isNaN b then false
  else decide (a = b) || decide (a % 2 ^ 63 = 0 ∧ b % 2 ^ 63 = 0)

/-- Follow a path of child indexes through the graph (a dictionary's
children interleave key and value addresses). -/
def refAt (g : Graph) : Nat → List Nat → Option Nat
  | a, [] => some a
  | a, i :: rest =>
    match g.nodes.get? a with
    | none => none
    | some n =>
      match (childAddrs n).get? i with
      | none => none
      | some c => refAt g c rest

/-- The children of a decoded composite, in the same order as
`childAddrs` on the encode side. -/
def childVals : DVal → Option (List DVal)
  | .listD _ es => some es
  | .tupleD _ es => some es
  | .setD _ es => some es
  | .dictD _ kvs => some (kvs.flatMap (fun kv => [kv.1, kv.2]))
  | _ => none

/-- Follow a path of child indexes through a decoded value. -/
def dvalAt : DVal → List Nat → Option DVal
  | v, [] => some v
  | v, i :: rest =>
    match childVals v with
    | none => none
    | some cs =>
      match cs.get? i with
      | none => none
      | some u => dvalAt u rest

/-- `u` represents graph address `c` in the decoded heap: either `c` is
an atom and `u` its direct decoding, or `u` is the (unique) recorded
materialization of the composite at `c`. -/
def valRep (g : Graph) (vals : List (Nat × DVal)) (c : Nat) (u : DVal) : Prop :=
  (∃ at0, g.nodes.get? c = some (.atomN at0) ∧ u = .atomD at0) ∨
  alook vals c = some u

/-- Every recorded materialization's children are themselves the
recorded representations of the node's child addresses, index by
index. -/
def ValsOK (g : Graph) (vals : List (Nat × DVal)) : Prop :=
  ∀ a v, alook vals a = some v → ∃ n cs, g.nodes.get? a = some n ∧
    childVals v = some cs ∧
    (∀ i c, (childAddrs n).get? i = some c →
      ∃ u, cs.get? i = some u ∧ valRep g vals c u)

/-- Every recorded materialization erases to the pure structural
denotation of its address (at any sufficient fuel). -/
def ValsPure (g : Graph) (vals : List (Nat × DVal)) : Prop :=
  ∀ e ∈ vals, ∀ F, e.1 + 1 ≤ F → pureNode g F e.1 = some e.2.eraseIds

theorem valRep_mono {g : Graph} {vals vals' : List (Nat × DVal)} {c : Nat}
    {u : DVal}
    (h : valRep g vals c u)
    (hext : ∃ newv, vals' = newv ++ vals ∧
      ∀ e ∈ newv, alook vals e.1 = none) :
    valRep g vals' c u := by
  obtain ⟨newv, he, hp⟩ := hext
  rcases h with h | h
  · exact Or.inl h
  · right
    rw [he, alook_append_left]
    · exact h
    · intro hmem
      obtain ⟨e, hem, hex⟩ := List.mem_map.mp hmem
      have h5 := hp e hem
      rw [hex, h] at h5
      cases h5

theorem pairUpO_flatten {α : Type} : ∀ (l : List α) (ps : List (α × α)),
    pairUpO l = some ps → ps.flatMap (fun kv => [kv.1, kv.2]) = l
  | [], ps, h => by
    rw [pairUpO] at h
    injection h with h
    subst h
    rfl
  | [x], ps, h => by simp [pairUpO] at h
  | a :: b :: rest, ps, h => by
    rw [pairUpO] at h
    rcases hr : pairUpO rest with _ | ps2
    · rw [hr] at h
      cases h
    · rw [hr] at h
      injection h with h
      subst h
      simp only [List.flatMap_cons]
      rw [pairUpO_flatten rest ps2 hr]
      rfl

theorem pairUpO_erase : ∀ (l : List DVal) (ps : List (DVal × DVal)),
    pairUpO l = some ps →
    pairUpO (eraseIdsList l) = some (eraseIdsPairs ps)
  | [], ps, h => by
    rw [pairUpO] at h
    injection h with h
    subst h
    rfl
  | [x], ps, h => by simp [pairUpO] at h
  | a :: b :: rest, ps, h => by
    rw [pairUpO] at h
    rcases hr : pairUpO rest with _ | ps2
    · rw [hr] at h
      cases h
    · rw [hr] at h
      injection h with h
      subst h
      have := pairUpO_erase rest ps2 hr
      simp only [eraseIdsList, eraseIdsPairs, pairUpO, this]
      rfl

def DenP (g : Graph) (fuel : Nat) : Prop :=
  ∀ a ds v ds', g.wfB = true → denNode g fuel a ds = some (v, ds') →
    ValsPure g ds.vals → ValsOK g ds.vals →
    (∀ x, (alook ds.vals x).isSome = true →
      (alook ds.es.memo x).isSome = true) →
    ValsPure g ds'.vals ∧ ValsOK g ds'.vals ∧
    (∀ F, a + 1 ≤ F → pureNode g F a = some v.eraseIds) ∧
    valRep g ds'.vals a v ∧
    (∀ x, (alook ds'.vals x).isSome = true →
      (alook ds'.es.memo x).isSome = true) ∧
    (∀ x, (alook ds.es.memo x).isSome = true →
      (alook ds'.es.memo x).isSome = true) ∧
    (∃ newv, ds'.vals = newv ++ ds.vals ∧
      ∀ e ∈ newv, alook ds.vals e.1 = none ∧ alook ds.es.memo e.1 = none)

def DenAddrsP (g : Graph) (fuel : Nat) : Prop :=
  ∀ addrs ds vs ds', g.wfB = true → denAddrs g fuel addrs ds = some (vs, ds') →
    ValsPure g ds.vals → ValsOK g ds.vals →
    (∀ x, (alook ds.vals x).isSome = true →
      (alook ds.es.memo x).isSome = true) →
    ValsPure g ds'.vals ∧ ValsOK g ds'.vals ∧
    (∀ F, (∀ c ∈ addrs, c + 1 ≤ F) →
      pureAddrs g F addrs = some (eraseIdsList vs)) ∧
    (∀ i c, addrs.get? i = some c →
      ∃ u, vs.get? i = some u ∧ valRep g ds'.vals c u) ∧
    (∀ x, (alook ds'.vals x).isSome = true →
      (alook ds'.es.memo x).isSome = true) ∧
    (∀ x, (alook ds.es.memo x).isSome = true →
      (alook ds'.es.memo x).isSome = true) ∧
    (∃ newv, ds'.vals = newv ++ ds.vals ∧
      ∀ e ∈ newv, alook ds.vals e.1 = none ∧ alook ds.es.memo e.1 = none)

theorem denAddrs_den {g : Graph} {fuel : Nat} (DN : DenP g fuel) :
    DenAddrsP g fuel := by
  intro addrs
  induction addrs with
  | nil =>
    intro ds vs ds' hwf hden hP hOK hdom
    simp only [denAddrs] at hden
    injection hden with hden
    injection hden with h1 h2
    subst h1
    subst h2
    refine ⟨hP, hOK, ?_, ?_, hdom, fun x h => h, ⟨[], rfl, by simp⟩⟩
    · intro F hF
      simp only [pureAddrs, eraseIdsList]
    · intro i c hc
      simp at hc
  | cons c0 rest ih =>
    intro ds vs ds' hwf hden hP hOK hdom
    simp only [denAddrs] at hden
    rcases h1 : denNode g fuel c0 ds with _ | ⟨v1, ds1⟩
    · simp only [h1] at hden
      exact Option.noConfusion hden
    · simp only [h1] at hden
      obtain ⟨dn1, dn2, dn3, dn4, dn5, dn6, dn7⟩ := DN c0 ds v1 ds1 hwf h1 hP hOK hdom
      rcases h2 : denAddrs g fuel rest ds1 with _ | ⟨vs2, ds2⟩
      · simp only [h2] at hden
        exact Option.noConfusion hden
      · simp only [h2] at hden
        injection hden with hden
        injection hden with hv hd
        subst hv
        subst hd
        obtain ⟨da1, da2, da3, da4, da5, da6, da7⟩ := ih ds1 vs2 ds2 hwf h2 dn1 dn2 dn5
        refine ⟨da1, da2, ?_, ?_, da5, fun x hx => da6 x (dn6 x hx), ?_⟩
        · intro F hF
          simp only [pureAddrs]
          rw [dn3 F (hF c0 (by simp)), da3 F (fun x hx => hF x (by simp [hx]))]
          simp only [eraseIdsList]
        · intro i c hc
          obtain ⟨nv, hnv1, hnv2⟩ := da7
          cases i with
          | zero =>
            injection hc with hc
            subst hc
            refine ⟨v1, rfl, ?_⟩
            exact valRep_mono dn4 ⟨nv, hnv1, fun e he => (hnv2 e he).1⟩
          | succ j =>
            obtain ⟨u, hu, hurep⟩ := da4 j c hc
            exact ⟨u, hu, hurep⟩
        · obtain ⟨n2, he2, hp2⟩ := da7
          obtain ⟨n1, he1, hp1⟩ := dn7
          refine ⟨n2 ++ n1, by rw [he2, he1, List.append_assoc], ?_⟩
          intro e he
          rcases List.mem_append.mp he with h | h
          · have h4 := hp2 e h
            constructor
            · have h5 := h4.1
              rw [he1] at h5
              exact alook_append_none h5
            · rcases hh : alook ds.es.memo e.1 with _ | w
              · rfl
              · have h6 := dn6 e.1 (by rw [hh]; rfl)
                rw [h4.2] at h6
                simp at h6
          · exact hp1 e h

theorem denP_all (g : Graph) : ∀ fuel, DenP g fuel := by
  intro fuel
  induction fuel with
  | zero =>
    intro a ds v ds' hwf hden hP hOK hdom
    simp only [denNode] at hden
    exact Option.noConfusion hden
  | succ fuel ih =>
    have DA := denAddrs_den ih
    intro a ds v ds' hwf hden hP hOK hdom
    rcases hget : g.nodes.get? a with _ | n
    · simp only [denNode, hget] at hden
      exact Option.noConfusion hden
    · have ha : a < g.nodes.length := by
        by_contra hno
        rw [List.get?_eq_none.mpr (by omega)] at hget
        exact Option.noConfusion hget
      obtain ⟨n2, hn2, hnwf⟩ := Graph.wfB_node hwf ha
      rw [hget] at hn2
      injection hn2 with hn2
      subst hn2
      cases n with
      | atomN at0 =>
        simp only [denNode, hget] at hden
        injection hden with hden
        injection hden with hv hd
        subst hv
        subst hd
        refine ⟨hP, hOK, ?_, Or.inl ⟨at0, hget, rfl⟩, hdom, fun x h => h,
          ⟨[], rfl, by simp⟩⟩
        intro F hF
        obtain ⟨F2, rfl⟩ : ∃ F2, F = F2 + 1 := ⟨F - 1, by omega⟩
        simp only [pureNode, hget, DVal.eraseIds]
      | objN rv =>
        rw [Node.wfB] at hnwf
        exact Bool.noConfusion hnwf
      | listN elems =>
        have hchild : ∀ c ∈ elems, c < a := fun c hc =>
          Node.wfB_child hnwf (fun at0 h => Node.noConfusion h) hc
        rcases halk : alook ds.es.memo a with _ | k
        · simp only [denNode, hget, halk] at hden
          rcases hda : denAddrs g fuel elems
              ⟨⟨(a, ds.es.nextId) :: ds.es.memo, ds.es.nextId + 1⟩, ds.vals⟩
              with _ | ⟨vs, ds2⟩
          · simp only [hda] at hden
            exact Option.noConfusion hden
          · simp only [hda] at hden
            injection hden with hden
            injection hden with hv hd
            subst hv
            subst hd
            have hdom1 : ∀ x, (alook ds.vals x).isSome = true →
                (alook (((a, ds.es.nextId) :: ds.es.memo) :
                  List (Nat × Nat)) x).isSome = true := by
              intro x hx
              exact alook_append_isSome [(a, ds.es.nextId)] _ x (hdom x hx)
            obtain ⟨da1, da2, da3, da4, da5, da6, da7⟩ :=
              DA elems
                ⟨⟨(a, ds.es.nextId) :: ds.es.memo, ds.es.nextId + 1⟩, ds.vals⟩
                vs ds2 hwf hda hP hOK hdom1
            have hvalsa : alook ds.vals a = none := by
              rcases hh : alook ds.vals a with _ | w
              · rfl
              · have h6 := hdom a (by rw [hh]; rfl)
                rw [halk] at h6
                simp at h6
            have hvals2a : alook ds2.vals a = none := by
              obtain ⟨nv, hnv1, hnv2⟩ := da7
              rw [hnv1]
              have hnm : a ∉ nv.map Prod.fst := by
                intro hmem
                obtain ⟨e, hem, hex⟩ := List.mem_map.mp hmem
                have h5 := (hnv2 e hem).2
                rw [hex] at h5
                rw [alook_cons_self] at h5
                exact Option.noConfusion h5
              rw [alook_append_left nv _ a hnm, hvalsa]
            have hpure : ∀ F, a + 1 ≤ F →
                pureNode g F a = some (DVal.listD ds.es.nextId vs).eraseIds := by
              intro F hF
              obtain ⟨F2, rfl⟩ : ∃ F2, F = F2 + 1 := ⟨F - 1, by omega⟩
              have hch : ∀ c ∈ elems, c + 1 ≤ F2 := fun c hc => by
                have := hchild c hc
                omega
              simp only [pureNode, hget, da3 F2 hch, DVal.eraseIds]
            have hext2 : ∃ newv, (((a, DVal.listD ds.es.nextId vs) :: ds2.vals) :
                List (Nat × DVal)) = newv ++ ds2.vals ∧
                ∀ e ∈ newv, alook ds2.vals e.1 = none := by
              refine ⟨[(a, DVal.listD ds.es.nextId vs)], rfl, ?_⟩
              intro e he
              have he3 := List.mem_singleton.mp he
              subst he3
              exact hvals2a
            have hP2 : ValsPure g ((a, DVal.listD ds.es.nextId vs) :: ds2.vals) := by
              intro e he F hF
              rcases List.mem_cons.mp he with h | h
              · subst h
                exact hpure F hF
              · exact da1 e h F hF
            have hOK2 : ValsOK g ((a, DVal.listD ds.es.nextId vs) :: ds2.vals) := by
              intro x w hx
              by_cases hax : a = x
              · subst hax
                rw [alook_cons_self] at hx
                injection hx with hx
                subst hx
                refine ⟨Node.listN elems, vs, hget, rfl, ?_⟩
                intro i c hic
                obtain ⟨u, hu, hurep⟩ := da4 i c hic
                exact ⟨u, hu, valRep_mono hurep hext2⟩
              · rw [alook_cons_ne _ _ _ _ hax] at hx
                obtain ⟨n3, cs, hg3, hcv3, hch3⟩ := da2 x w hx
                refine ⟨n3, cs, hg3, hcv3, ?_⟩
                intro i c hic
                obtain ⟨u, hu, hurep⟩ := hch3 i c hic
                exact ⟨u, hu, valRep_mono hurep hext2⟩
            have hmono : ∀ x, (alook ds.es.memo x).isSome = true →
                (alook ds2.es.memo x).isSome = true := by
              intro x hx
              exact da6 x (alook_append_isSome [(a, ds.es.nextId)] _ x hx)
            have hdom2 : ∀ x,
                (alook ((a, DVal.listD ds.es.nextId vs) :: ds2.vals) x).isSome = true →
                (alook ds2.es.memo x).isSome = true := by
              intro x hx
              by_cases hax : a = x
              · subst hax
                exact da6 a (by rw [alook_cons_self]; rfl)
              · rw [alook_cons_ne _ _ _ _ hax] at hx
                exact da5 x hx
            refine ⟨hP2, hOK2, hpure, Or.inr (alook_cons_self _ _ _), hdom2,
              hmono, ?_⟩
            obtain ⟨nv, hnv1, hnv2⟩ := da7
            refine ⟨(a, DVal.listD ds.es.nextId vs) :: nv, by rw [hnv1]; rfl, ?_⟩
            intro e he
            rcases List.mem_cons.mp he with h | h
            · subst h
              exact ⟨hvalsa, halk⟩
            · have h4 := hnv2 e h
              exact ⟨h4.1, alook_cons_none h4.2⟩
        · simp only [denNode, hget, halk] at hden
          rcases hva2 : alook ds.vals a with _ | w
          · simp only [hva2] at hden
            exact Option.noConfusion hden
          · simp only [hva2] at hden
            injection hden with hden
            injection hden with hv hd
            subst hv
            subst hd
            have hM := alook_mem ds.vals a w hva2
            refine ⟨hP, hOK, ?_, Or.inr hva2, hdom, fun x h => h,
              ⟨[], rfl, by simp⟩⟩
            intro F hF
            exact hP (a, w) hM F hF
      | tupleN elems =>
        have hchild : ∀ c ∈ elems, c < a := fun c hc =>
          Node.wfB_child hnwf (fun at0 h => Node.noConfusion h) hc
        rcases halk : alook ds.es.memo a with _ | k
        · simp only [denNode, hget, halk] at hden
          rcases hda : denAddrs g fuel elems
              ⟨⟨(a, ds.es.nextId) :: ds.es.memo, ds.es.nextId + 1⟩, ds.vals⟩
              with _ | ⟨vs, ds2⟩
          · simp only [hda] at hden
            exact Option.noConfusion hden
          · simp only [hda] at hden
            injection hden with hden
            injection hden with hv hd
            subst hv
            subst hd
            have hdom1 : ∀ x, (alook ds.vals x).isSome = true →
                (alook (((a, ds.es.nextId) :: ds.es.memo) :
                  List (Nat × Nat)) x).isSome = true := by
              intro x hx
              exact alook_append_isSome [(a, ds.es.nextId)] _ x (hdom x hx)
            obtain ⟨da1, da2, da3, da4, da5, da6, da7⟩ :=
              DA elems
                ⟨⟨(a, ds.es.nextId) :: ds.es.memo, ds.es.nextId + 1⟩, ds.vals⟩
                vs ds2 hwf hda hP hOK hdom1
            have hvalsa : alook ds.vals a = none := by
              rcases hh : alook ds.vals a with _ | w
              · rfl
              · have h6 := hdom a (by rw [hh]; rfl)
                rw [halk] at h6
                simp at h6
            have hvals2a : alook ds2.vals a = none := by
              obtain ⟨nv, hnv1, hnv2⟩ := da7
              rw [hnv1]
              have hnm : a ∉ nv.map Prod.fst := by
                intro hmem
                obtain ⟨e, hem, hex⟩ := List.mem_map.mp hmem
                have h5 := (hnv2 e hem).2
                rw [hex] at h5
                rw [alook_cons_self] at h5
                exact Option.noConfusion h5
              rw [alook_append_left nv _ a hnm, hvalsa]
            have hpure : ∀ F, a + 1 ≤ F →
                pureNode g F a = some (DVal.tupleD ds.es.nextId vs).eraseIds := by
              intro F hF
              obtain ⟨F2, rfl⟩ : ∃ F2, F = F2 + 1 := ⟨F - 1, by omega⟩
              have hch : ∀ c ∈ elems, c + 1 ≤ F2 := fun c hc => by
                have := hchild c hc
                omega
              simp only [pureNode, hget, da3 F2 hch, DVal.eraseIds]
            have hext2 : ∃ newv, (((a, DVal.tupleD ds.es.nextId vs) :: ds2.vals) :
                List (Nat × DVal)) = newv ++ ds2.vals ∧
                ∀ e ∈ newv, alook ds2.vals e.1 = none := by
              refine ⟨[(a, DVal.tupleD ds.es.nextId vs)], rfl, ?_⟩
              intro e he
              have he3 := List.mem_singleton.mp he
              subst he3
              exact hvals2a
            have hP2 : ValsPure g ((a, DVal.tupleD ds.es.nextId vs) :: ds2.vals) := by
              intro e he F hF
              rcases List.mem_cons.mp he with h | h
              · subst h
                exact hpure F hF
              · exact da1 e h F hF
            have hOK2 : ValsOK g ((a, DVal.tupleD ds.es.nextId vs) :: ds2.vals) := by
              intro x w hx
              by_cases hax : a = x
              · subst hax
                rw [alook_cons_self] at hx
                injection hx with hx
                subst hx
                refine ⟨Node.tupleN elems, vs, hget, rfl, ?_⟩
                intro i c hic
                obtain ⟨u, hu, hurep⟩ := da4 i c hic
                exact ⟨u, hu, valRep_mono hurep hext2⟩
              · rw [alook_cons_ne _ _ _ _ hax] at hx
                obtain ⟨n3, cs, hg3, hcv3, hch3⟩ := da2 x w hx
                refine ⟨n3, cs, hg3, hcv3, ?_⟩
                intro i c hic
                obtain ⟨u, hu, hurep⟩ := hch3 i c hic
                exact ⟨u, hu, valRep_mono hurep hext2⟩
            have hmono : ∀ x, (alook ds.es.memo x).isSome = true →
                (alook ds2.es.memo x).isSome = true := by
              intro x hx
              exact da6 x (alook_append_isSome [(a, ds.es.nextId)] _ x hx)
            have hdom2 : ∀ x,
                (alook ((a, DVal.tupleD ds.es.nextId vs) :: ds2.vals) x).isSome = true →
                (alook ds2.es.memo x).isSome = true := by
              intro x hx
              by_cases hax : a = x
              · subst hax
                exact da6 a (by rw [alook_cons_self]; rfl)
              · rw [alook_cons_ne _ _ _ _ hax] at hx
                exact da5 x hx
            refine ⟨hP2, hOK2, hpure, Or.inr (alook_cons_self _ _ _), hdom2,
              hmono, ?_⟩
            obtain ⟨nv, hnv1, hnv2⟩ := da7
            refine ⟨(a, DVal.tupleD ds.es.nextId vs) :: nv, by rw [hnv1]; rfl, ?_⟩
            intro e he
            rcases List.mem_cons.mp he with h | h
            · subst h
              exact ⟨hvalsa, halk⟩
            · have h4 := hnv2 e h
              exact ⟨h4.1, alook_cons_none h4.2⟩
        · simp only [denNode, hget, halk] at hden
          rcases hva2 : alook ds.vals a with _ | w
          · simp only [hva2] at hden
            exact Option.noConfusion hden
          · simp only [hva2] at hden
            injection hden with hden
            injection hden with hv hd
            subst hv
            subst hd
            have hM := alook_mem ds.vals a w hva2
            refine ⟨hP, hOK, ?_, Or.inr hva2, hdom, fun x h => h,
              ⟨[], rfl, by simp⟩⟩
            intro F hF
            exact hP (a, w) hM F hF
      | dictN kvs =>
        have hchild : ∀ c ∈ (kvs.flatMap (fun kv => [kv.1, kv.2])), c < a := fun c hc =>
          Node.wfB_child hnwf (fun at0 h => Node.noConfusion h) hc
        rcases halk : alook ds.es.memo a with _ | k
        · simp only [denNode, hget, halk] at hden
          rcases hda : denAddrs g fuel (kvs.flatMap (fun kv => [kv.1, kv.2]))
              ⟨⟨(a, ds.es.nextId) :: ds.es.memo, ds.es.nextId + 1⟩, ds.vals⟩
              with _ | ⟨vs, ds2⟩
          · simp only [hda] at hden
            exact Option.noConfusion hden
          · simp only [hda] at hden
            rcases hpu : pairUpO vs with _ | pairs
            · simp only [hpu] at hden
              exact Option.noConfusion hden
            simp only [hpu] at hden
            injection hden with hden
            injection hden with hv hd
            subst hv
            subst hd
            have hdom1 : ∀ x, (alook ds.vals x).isSome = true →
                (alook (((a, ds.es.nextId) :: ds.es.memo) :
                  List (Nat × Nat)) x).isSome = true := by
              intro x hx
              exact alook_append_isSome [(a, ds.es.nextId)] _ x (hdom x hx)
            obtain ⟨da1, da2, da3, da4, da5, da6, da7⟩ :=
              DA (kvs.flatMap (fun kv => [kv.1, kv.2]))
                ⟨⟨(a, ds.es.nextId) :: ds.es.memo, ds.es.nextId + 1⟩, ds.vals⟩
                vs ds2 hwf hda hP hOK hdom1
            have hvalsa : alook ds.vals a = none := by
              rcases hh : alook ds.vals a with _ | w
              · rfl
              · have h6 := hdom a (by rw [hh]; rfl)
                rw [halk] at h6
                simp at h6
            have hvals2a : alook ds2.vals a = none := by
              obtain ⟨nv, hnv1, hnv2⟩ := da7
              rw [hnv1]
              have hnm : a ∉ nv.map Prod.fst := by
                intro hmem
                obtain ⟨e, hem, hex⟩ := List.mem_map.mp hmem
                have h5 := (hnv2 e hem).2
                rw [hex] at h5
                rw [alook_cons_self] at h5
                exact Option.noConfusion h5
              rw [alook_append_left nv _ a hnm, hvalsa]
            have hpure : ∀ F, a + 1 ≤ F →
                pureNode g F a = some (DVal.dictD ds.es.nextId pairs).eraseIds := by
              intro F hF
              obtain ⟨F2, rfl⟩ : ∃ F2, F = F2 + 1 := ⟨F - 1, by omega⟩
              have hch : ∀ c ∈ (kvs.flatMap (fun kv => [kv.1, kv.2])), c + 1 ≤ F2 := fun c hc => by
                have := hchild c hc
                omega
              simp only [pureNode, hget, da3 F2 hch, pairUpO_erase vs pairs hpu, DVal.eraseIds]
            have hext2 : ∃ newv, (((a, DVal.dictD ds.es.nextId pairs) :: ds2.vals) :
                List (Nat × DVal)) = newv ++ ds2.vals ∧
                ∀ e ∈ newv, alook ds2.vals e.1 = none := by
              refine ⟨[(a, DVal.dictD ds.es.nextId pairs)], rfl, ?_⟩
              intro e he
              have he3 := List.mem_singleton.mp he
              subst he3
              exact hvals2a
            have hP2 : ValsPure g ((a, DVal.dictD ds.es.nextId pairs) :: ds2.vals) := by
              intro e he F hF
              rcases List.mem_cons.mp he with h | h
              · subst h
                exact hpure F hF
              · exact da1 e h F hF
            have hOK2 : ValsOK g ((a, DVal.dictD ds.es.nextId pairs) :: ds2.vals) := by
              intro x w hx
              by_cases hax : a = x
              · subst hax
                rw [alook_cons_self] at hx
                injection hx with hx
                subst hx
                refine ⟨Node.dictN kvs, (pairs.flatMap (fun kv => [kv.1, kv.2])), hget, rfl, ?_⟩
                intro i c hic
                rw [pairUpO_flatten vs pairs hpu]
                obtain ⟨u, hu, hurep⟩ := da4 i c hic
                exact ⟨u, hu, valRep_mono hurep hext2⟩
              · rw [alook_cons_ne _ _ _ _ hax] at hx
                obtain ⟨n3, cs, hg3, hcv3, hch3⟩ := da2 x w hx
                refine ⟨n3, cs, hg3, hcv3, ?_⟩
                intro i c hic
                obtain ⟨u, hu, hurep⟩ := hch3 i c hic
                exact ⟨u, hu, valRep_mono hurep hext2⟩
            have hmono : ∀ x, (alook ds.es.memo x).isSome = true →
                (alook ds2.es.memo x).isSome = true := by
              intro x hx
              exact da6 x (alook_append_isSome [(a, ds.es.nextId)] _ x hx)
            have hdom2 : ∀ x,
                (alook ((a, DVal.dictD ds.es.nextId pairs) :: ds2.vals) x).isSome = true →
                (alook ds2.es.memo x).isSome = true := by
              intro x hx
              by_cases hax : a = x
              · subst hax
                exact da6 a (by rw [alook_cons_self]; rfl)
              · rw [alook_cons_ne _ _ _ _ hax] at hx
                exact da5 x hx
            refine ⟨hP2, hOK2, hpure, Or.inr (alook_cons_self _ _ _), hdom2,
              hmono, ?_⟩
            obtain ⟨nv, hnv1, hnv2⟩ := da7
            refine ⟨(a, DVal.dictD ds.es.nextId pairs) :: nv, by rw [hnv1]; rfl, ?_⟩
            intro e he
            rcases List.mem_cons.mp he with h | h
            · subst h
              exact ⟨hvalsa, halk⟩
            · have h4 := hnv2 e h
              exact ⟨h4.1, alook_cons_none h4.2⟩
        · simp only [denNode, hget, halk] at hden
          rcases hva2 : alook ds.vals a with _ | w
          · simp only [hva2] at hden
            exact Option.noConfusion hden
          · simp only [hva2] at hden
            injection hden with hden
            injection hden with hv hd
            subst hv
            subst hd
            have hM := alook_mem ds.vals a w hva2
            refine ⟨hP, hOK, ?_, Or.inr hva2, hdom, fun x h => h,
              ⟨[], rfl, by simp⟩⟩
            intro F hF
            exact hP (a, w) hM F hF
      | setN elems =>
        have hchild : ∀ c ∈ elems, c < a := fun c hc =>
          Node.wfB_child hnwf (fun at0 h => Node.noConfusion h) hc
        rcases halk : alook ds.es.memo a with _ | k
        · simp only [denNode, hget, halk] at hden
          rcases hda : denAddrs g fuel elems
              ⟨⟨(a, ds.es.nextId) :: ds.es.memo, ds.es.nextId + 1⟩, ds.vals⟩
              with _ | ⟨vs, ds2⟩
          · simp only [hda] at hden
            exact Option.noConfusion hden
          · simp only [hda] at hden
            injection hden with hden
            injection hden with hv hd
            subst hv
            subst hd
            have hdom1 : ∀ x, (alook ds.vals x).isSome = true →
                (alook (((a, ds.es.nextId) :: ds.es.memo) :
                  List (Nat × Nat)) x).isSome = true := by
              intro x hx
              exact alook_append_isSome [(a, ds.es.nextId)] _ x (hdom x hx)
            obtain ⟨da1, da2, da3, da4, da5, da6, da7⟩ :=
              DA elems
                ⟨⟨(a, ds.es.nextId) :: ds.es.memo, ds.es.nextId + 1⟩, ds.vals⟩
                vs ds2 hwf hda hP hOK hdom1
            have hvalsa : alook ds.vals a = none := by
              rcases hh : alook ds.vals a with _ | w
              · rfl
              · have h6 := hdom a (by rw [hh]; rfl)
                rw [halk] at h6
                simp at h6
            have hvals2a : alook ds2.vals a = none := by
              obtain ⟨nv, hnv1, hnv2⟩ := da7
              rw [hnv1]
              have hnm : a ∉ nv.map Prod.fst := by
                intro hmem
                obtain ⟨e, hem, hex⟩ := List.mem_map.mp hmem
                have h5 := (hnv2 e hem).2
                rw [hex] at h5
                rw [alook_cons_self] at h5
                exact Option.noConfusion h5
              rw [alook_append_left nv _ a hnm, hvalsa]
            have hpure : ∀ F, a + 1 ≤ F →
                pureNode g F a = some (DVal.setD ds.es.nextId vs).eraseIds := by
              intro F hF
              obtain ⟨F2, rfl⟩ : ∃ F2, F = F2 + 1 := ⟨F - 1, by omega⟩
              have hch : ∀ c ∈ elems, c + 1 ≤ F2 := fun c hc => by
                have := hchild c hc
                omega
              simp only [pureNode, hget, da3 F2 hch, DVal.eraseIds]
            have hext2 : ∃ newv, (((a, DVal.setD ds.es.nextId vs) :: ds2.vals) :
                List (Nat × DVal)) = newv ++ ds2.vals ∧
                ∀ e ∈ newv, alook ds2.vals e.1 = none := by
              refine ⟨[(a, DVal.setD ds.es.nextId vs)], rfl, ?_⟩
              intro e he
              have he3 := List.mem_singleton.mp he
              subst he3
              exact hvals2a
            have hP2 : ValsPure g ((a, DVal.setD ds.es.nextId vs) :: ds2.vals) := by
              intro e he F hF
              rcases List.mem_cons.mp he with h | h
              · subst h
                exact hpure F hF
              · exact da1 e h F hF
            have hOK2 : ValsOK g ((a, DVal.setD ds.es.nextId vs) :: ds2.vals) := by
              intro x w hx
              by_cases hax : a = x
              · subst hax
                rw [alook_cons_self] at hx
                injection hx with hx
                subst hx
                refine ⟨Node.setN elems, vs, hget, rfl, ?_⟩
                intro i c hic
                obtain ⟨u, hu, hurep⟩ := da4 i c hic
                exact ⟨u, hu, valRep_mono hurep hext2⟩
              · rw [alook_cons_ne _ _ _ _ hax] at hx
                obtain ⟨n3, cs, hg3, hcv3, hch3⟩ := da2 x w hx
                refine ⟨n3, cs, hg3, hcv3, ?_⟩
                intro i c hic
                obtain ⟨u, hu, hurep⟩ := hch3 i c hic
                exact ⟨u, hu, valRep_mono hurep hext2⟩
            have hmono : ∀ x, (alook ds.es.memo x).isSome = true →
                (alook ds2.es.memo x).isSome = true := by
              intro x hx
              exact da6 x (alook_append_isSome [(a, ds.es.nextId)] _ x hx)
            have hdom2 : ∀ x,
                (alook ((a, DVal.setD ds.es.nextId vs) :: ds2.vals) x).isSome = true →
                (alook ds2.es.memo x).isSome = true := by
              intro x hx
              by_cases hax : a = x
              · subst hax
                exact da6 a (by rw [alook_cons_self]; rfl)
              · rw [alook_cons_ne _ _ _ _ hax] at hx
                exact da5 x hx
            refine ⟨hP2, hOK2, hpure, Or.inr (alook_cons_self _ _ _), hdom2,
              hmono, ?_⟩
            obtain ⟨nv, hnv1, hnv2⟩ := da7
            refine ⟨(a, DVal.setD ds.es.nextId vs) :: nv, by rw [hnv1]; rfl, ?_⟩
            intro e he
            rcases List.mem_cons.mp he with h | h
            · subst h
              exact ⟨hvalsa, halk⟩
            · have h4 := hnv2 e h
              exact ⟨h4.1, alook_cons_none h4.2⟩
        · simp only [denNode, hget, halk] at hden
          rcases hva2 : alook ds.vals a with _ | w
          · simp only [hva2] at hden
            exact Option.noConfusion hden
          · simp only [hva2] at hden
            injection hden with hden
            injection hden with hv hd
            subst hv
            subst hd
            have hM := alook_mem ds.vals a w hva2
            refine ⟨hP, hOK, ?_, Or.inr hva2, hdom, fun x h => h,
              ⟨[], rfl, by simp⟩⟩
            intro F hF
            exact hP (a, w) hM F hF

theorem dvalAt_refAt {g : Graph} {vals : List (Nat × DVal)}
    (hOK : ValsOK g vals) :
    ∀ (π : List Nat) (a : Nat) (v : DVal) (s : Nat), valRep g vals a v →
      refAt g a π = some s →
      ∃ u, dvalAt v π = some u ∧ valRep g vals s u := by
  intro π
  induction π with
  | nil =>
    intro a v s hrep href
    rw [refAt] at href
    injection href with href
    subst href
    exact ⟨v, rfl, hrep⟩
  | cons i rest ih =>
    intro a v s hrep href
    rcases hget : g.nodes.get? a with _ | n
    · simp only [refAt, hget] at href
      exact Option.noConfusion href
    · simp only [refAt, hget] at href
      rcases hca : (childAddrs n).get? i with _ | c
      · simp only [hca] at href
        exact Option.noConfusion href
      · simp only [hca] at href
        rcases hrep with ⟨at0, hat, hv⟩ | hlk
        · subst hv
          rw [hat] at hget
          injection hget with hget
          subst hget
          simp [childAddrs] at hca
        · obtain ⟨n2, cs, hget2, hcv, hch⟩ := hOK a v hlk
          rw [hget] at hget2
          injection hget2 with hget2
          subst hget2
          obtain ⟨u, hu, hurep⟩ := hch i c hca
          obtain ⟨u2, hdv, hrep2⟩ := ih c u s hurep href
          refine ⟨u2, ?_, hrep2⟩
          simp only [dvalAt, hcv, hu]
          exact hdv

/-- C1: for every well-formed value graph and every protocol in
`[0, HIGHEST_PROTOCOL]`, `dumps` succeeds and `loads`, given only the
bytes (the decoder is never told the protocol — the stream is
self-describing), returns a value whose id-erasure is the pure
structural denotation of the graph. That denotation does not mention
the protocol, so every protocol round-trips to the same structural
value. Floats and complex numbers are carried as exact binary64 bit
patterns (well within floating-point tolerance), so a NaN pattern
decodes to the same NaN pattern, and host float equality on patterns
makes a NaN unequal to itself. -/
theorem round_trip_structural_all_protocols :
    ∀ (g : Graph) (p : Int), g.wfB = true → 0 ≤ p → p ≤ HIGHEST_PROTOCOL →
      (∃ bytes w pv, dumps g p = .ok bytes ∧ loads bytes = .ok w ∧
        pureNode g (g.root + 1) g.root = some pv ∧ w.eraseIds = pv) ∧
      (∀ bits, isNaN bits = true → floatPyEq bits bits = false) := by
  intro g p hwf hp0 hp5
  constructor
  · obtain ⟨bytes, v, es', vals', hdmp, hden, hld⟩ := loads_dumps g hwf p hp0 hp5
    have hD := denP_all g (g.root + 1) g.root ⟨⟨[], 0⟩, []⟩ v ⟨es', vals'⟩ hwf
      hden (by intro e he; cases he)
      (by intro x w hx; rw [alook] at hx; exact Option.noConfusion hx)
      (by intro x hx; rw [alook] at hx; exact Bool.noConfusion hx)
    exact ⟨bytes, v, v.eraseIds, hdmp, hld,
      hD.2.2.1 (g.root + 1) (Nat.le_refl _), rfl⟩
  · intro bits h
    rw [floatPyEq, h]
    rfl

/-- A small mixed graph (an int, a string, and a list referencing the
int twice), used to instantiate the round-trip theorem concretely. -/
def sampleGraph : Graph :=
  ⟨[.atomN (.intA 42), .atomN (.strA [104, 105]), .listN [0, 1, 0]], 2⟩

/-- Witness for C1 at a concrete input: the sample graph at
protocol 3. -/
theorem round_trip_structural_all_protocols_witness :
    sampleGraph.wfB = true ∧ (0 : Int) ≤ 3 ∧ (3 : Int) ≤ HIGHEST_PROTOCOL ∧
    ((∃ bytes w pv, dumps sampleGraph 3 = .ok bytes ∧ loads bytes = .ok w ∧
        pureNode sampleGraph (sampleGraph.root + 1) sampleGraph.root =
          some pv ∧ w.eraseIds = pv) ∧
      (∀ bits, isNaN bits = true → floatPyEq bits bits = false)) :=
  ⟨by decide, by decide, by decide,
    round_trip_structural_all_protocols sampleGraph 3 (by decide) (by decide)
      (by decide)⟩

/-- C2: if two paths through a well-formed value graph reach the same
shared non-atomic object, then after encoding at any valid protocol and
decoding, the two paths through the decoded value reach the very same
decoded value — including its materialization id, i.e. the same
instance, not merely an equal one. -/
theorem shared_objects_decode_identical :
    ∀ (g : Graph) (p : Int) (pi1 pi2 : List Nat) (s : Nat),
      g.wfB = true → 0 ≤ p → p ≤ HIGHEST_PROTOCOL →
      refAt g g.root pi1 = some s → refAt g g.root pi2 = some s →
      (∀ at0, g.nodes.get? s ≠ some (.atomN at0)) →
      ∃ bytes w u, dumps g p = .ok bytes ∧ loads bytes = .ok w ∧
        dvalAt w pi1 = some u ∧ dvalAt w pi2 = some u := by
  intro g p pi1 pi2 s hwf hp0 hp5 h1 h2 hcomp
  obtain ⟨bytes, v, es', vals', hdmp, hden, hld⟩ := loads_dumps g hwf p hp0 hp5
  have hD := denP_all g (g.root + 1) g.root ⟨⟨[], 0⟩, []⟩ v ⟨es', vals'⟩ hwf
    hden (by intro e he; cases he)
    (by intro x w hx; rw [alook] at hx; exact Option.noConfusion hx)
    (by intro x hx; rw [alook] at hx; exact Bool.noConfusion hx)
  obtain ⟨hPf, hOKf, hpuref, hrepf, hdomf, hmonof, hextf⟩ := hD
  obtain ⟨u1, hd1, hrep1⟩ := dvalAt_refAt hOKf pi1 g.root v s hrepf h1
  obtain ⟨u2, hd2, hrep2⟩ := dvalAt_refAt hOKf pi2 g.root v s hrepf h2
  rcases hrep1 with ⟨at0, hat, hu⟩ | hlk1
  · exact absurd hat (hcomp at0)
  rcases hrep2 with ⟨at0, hat, hu⟩ | hlk2
  · exact absurd hat (hcomp at0)
  rw [hlk1] at hlk2
  injection hlk2 with hlk2
  subst hlk2
  exact ⟨bytes, v, u1, hdmp, hld, hd1, hd2⟩

/-- The spec's canonical sharing example `[s, s, {"r": s}]`: address 1
is the shared list `s`, reachable from the root both directly (child 0)
and through the dictionary value (path [2, 1]). -/
def sharedGraph : Graph :=
  ⟨[.atomN (.intA 7), .listN [0], .atomN (.strA [114]), .dictN [(2, 1)],
    .listN [1, 1, 3]], 4⟩

/-- Witness for C2 at a concrete input: the `[s, s, {"r": s}]` graph at
protocol 3, paths `[0]` and `[2, 1]` both reaching the shared list. -/
theorem shared_objects_decode_identical_witness :
    sharedGraph.wfB = true ∧
    refAt sharedGraph sharedGraph.root [0] = some 1 ∧
    refAt sharedGraph sharedGraph.root [2, 1] = some 1 ∧
    (∃ bytes w u, dumps sharedGraph 3 = .ok bytes ∧ loads bytes = .ok w ∧
      dvalAt w [0] = some u ∧ dvalAt w [2, 1] = some u) :=
  ⟨by decide, by decide, by decide,
    shared_objects_decode_identical sharedGraph 3 [0] [2, 1] 1 (by decide)
      (by decide) (by decide) (by decide) (by decide)
      (by
        intro at0 h
        have h2 : some (Node.listN [0]) = some (Node.atomN at0) := h
        injection h2 with h3
        exact Node.noConfusion h3)⟩
